import Mathlib

/-!
# fastallocator.h : pooled fixed-size allocator, size-routing adapter, linked list

A shallow embedding of `src/fastallocator.h`.

* Part I embeds `FixedAllocator<chunkSize>`: the intrusive freelist threaded through the
  `go` field of the blocks, slab growth in `getNewBlock`, `allocate` and `deallocate`.
* Part II embeds `FastAllocator<T>`: the size computation `n * sizeof(T)` on `size_t`
  and the routing to the pools of chunk size 8, 16 and 32 or to `std::allocator`.
* Part III embeds `List<T, Allocator>`: the ring of nodes around the sentinel `root`,
  the private helpers `putAfter`, `del`, `genList`, `destroy`, the constructors, the
  assignments and the public operations, over an explicit node memory.

All definitions come first, the theorems follow in the same order.

Memory model of Part I.  A block pointer is a pair (slab, index): `slab` numbers the
arrays obtained from `new Node[BUBEN]` in the order in which the pool requested them and
`idx` is the position inside that array, so `ptr + i` is `⟨ptr.slab, ptr.idx + i⟩`.
`operator new` hands out storage disjoint from every live allocation and the pool
releases no slab before its destructor runs, hence the k-th slab is new storage.
-/

/-! ## Part I : FixedAllocator -/

/-- Embeds `const size_t BUBEN = 32;` the number of blocks of a slab. -/
def BUBEN : Nat := 32

/-- A `Node*` of `FixedAllocator`: block `idx` of the slab numbered `slab`. -/
structure Ptr where
  slab : Nat
  idx : Nat
deriving DecidableEq, Repr

/-- The store `p->go = v` on the heap of `go` fields. -/
def setGo (go : Ptr → Option Ptr) (p : Ptr) (v : Option Ptr) : Ptr → Option Ptr :=
  fun q => if q = p then v else go q

/-- The state of one `FixedAllocator<chunkSize>`: the `go` field of every block
(`none` is `nullptr`), the freelist head `cur` and the vector `forDelete`. -/
structure FixedAllocator where
  go : Ptr → Option Ptr
  cur : Option Ptr
  forDelete : List Ptr

namespace FixedAllocator

/-- The pool right after `FixedAllocator() {}`: `cur = nullptr`, `forDelete` empty. -/
def fresh : FixedAllocator := ⟨fun _ => none, none, []⟩

/-- The loop `for (i = 0; i < BUBEN - 1; i++) ptr[i].go = ptr + i + 1;`. -/
def threadSlab (base : Ptr) (go : Ptr → Option Ptr) : Ptr → Option Ptr :=
  (List.range (BUBEN - 1)).foldl
    (fun g i => setGo g ⟨base.slab, base.idx + i⟩ (some ⟨base.slab, base.idx + i + 1⟩)) go

/-- Embeds `getNewBlock`: `new Node[BUBEN]` (every `go` default-initialised to `nullptr`),
the threading loop, `forDelete.emplace_back(ptr)`; returns `ptr`. -/
def getNewBlock (a : FixedAllocator) : Ptr × FixedAllocator :=
  let ptr : Ptr := ⟨a.forDelete.length, 0⟩
  let go0 : Ptr → Option Ptr :=
    fun q => if q.slab = ptr.slab ∧ q.idx < BUBEN then none else a.go q
  (ptr, { go := threadSlab ptr go0, cur := a.cur, forDelete := a.forDelete ++ [ptr] })

/-- Embeds `allocate`: grow when `cur` is null, then pop the freelist head. -/
def allocate (a : FixedAllocator) : Ptr × FixedAllocator :=
  match a.cur with
  | some c => (c, { a with cur := a.go c })
  | none =>
    let r := a.getNewBlock
    (r.1, { r.2 with cur := r.2.go r.1 })

/-- Embeds `deallocate(ptr)`: `tmp->go = cur; cur = tmp;`. -/
def deallocate (a : FixedAllocator) (p : Ptr) : FixedAllocator :=
  { a with go := setGo a.go p a.cur, cur := some p }

/-- The blocks returned by `k` successive calls of `allocate()`, in call order. -/
def allocateN : Nat → FixedAllocator → List Ptr × FixedAllocator
  | 0, a => ([], a)
  | k + 1, a =>
    let r := a.allocate
    let rest := allocateN k r.2
    (r.1 :: rest.1, rest.2)

/-- Successive calls `deallocate(p1); ...; deallocate(pk)`. -/
def deallocateAll (a : FixedAllocator) (ps : List Ptr) : FixedAllocator :=
  ps.foldl deallocate a

/-- A block belongs to a slab registered in `forDelete`. -/
def Carved (a : FixedAllocator) (p : Ptr) : Prop :=
  p.slab < a.forDelete.length ∧ p.idx < BUBEN

end FixedAllocator

/-- The freelist: `l` is the sequence of blocks met from `c` by following `go` until
`nullptr`. -/
def FreeChain (go : Ptr → Option Ptr) : Option Ptr → List Ptr → Prop
  | c, [] => c = none
  | c, p :: l => c = some p ∧ FreeChain go (go p) l

/-- What a caller of the pool does. `store` is a write of the caller into a block it
holds: the bytes handed out overlay the `go` field of the block. -/
inductive PoolOp where
  | allocate
  | deallocate (p : Ptr)
  | store (p : Ptr) (v : Option Ptr)
deriving Repr

/-- A pool together with the blocks its callers currently hold. -/
structure PoolClient where
  pool : FixedAllocator
  outstanding : List Ptr

namespace PoolClient

/-- A pool nobody has used yet. -/
def fresh : PoolClient := ⟨FixedAllocator.fresh, []⟩

/-- One call. `deallocate p` and `store p v` are only legal on an outstanding block. -/
def step (s : PoolClient) : PoolOp → Option PoolClient
  | .allocate =>
    let r := s.pool.allocate
    some ⟨r.2, r.1 :: s.outstanding⟩
  | .deallocate p =>
    if p ∈ s.outstanding then some ⟨s.pool.deallocate p, s.outstanding.erase p⟩ else none
  | .store p v =>
    if p ∈ s.outstanding then
      some ⟨{ s.pool with go := setGo s.pool.go p v }, s.outstanding⟩
    else none

/-- A sequence of calls; `none` when one of them breaks the precondition. -/
def run (s : PoolClient) : List PoolOp → Option PoolClient
  | [] => some s
  | op :: ops => (s.step op).bind (fun t => run t ops)

end PoolClient

/-- The blocks `i, i + 1, ..., i + n - 1` of slab `k`, in address order. -/
def slabBlocks (k : Nat) : Nat → Nat → List Ptr
  | _, 0 => []
  | i, n + 1 => ⟨k, i⟩ :: slabBlocks k (i + 1) n

/-- The pool invariant: the chain from `cur` ends at `nullptr`, and together with the
outstanding blocks it lists every carved block exactly once. -/
def PoolClient.Inv (s : PoolClient) : Prop :=
  ∃ l : List Ptr, FreeChain s.pool.go s.pool.cur l ∧ (s.outstanding ++ l).Nodup ∧
    (∀ p, p ∈ s.outstanding ++ l ↔ s.pool.Carved p) ∧
    (s.outstanding ++ l).length = BUBEN * s.pool.forDelete.length

/-! ## Part II : FastAllocator

`FastAllocator<T>` has no data member; the only property of `T` its code uses is
`sizeof(T)`.  The pools `FixedAllocator<chunkSize>::getInstance()` are one static object
per value of `chunkSize`; `Heap` holds this family together with the storage obtained
from `std::allocator<T>`. -/

/-- Embeds `constexpr size_t MAX_FIXED_ALLOCATOR_CHUNK_SIZE = 32;`. -/
def MAX_FIXED_ALLOCATOR_CHUNK_SIZE : Nat := 32

/-- The product `n * sizeof(T)` of two `size_t` (64 bit, wrapping). -/
def mulSizeT (n s : Nat) : Nat := (n * s) % 2 ^ 64

/-- Where a request goes: `std::allocator<T>` or `FixedAllocator<chunkSize>`. -/
inductive Route where
  | system
  | pool (chunkSize : Nat)
deriving DecidableEq, Repr

/-- A pointer returned by `FastAllocator<T>::allocate`. -/
inductive Addr where
  | system (id : Nat)
  | block (chunkSize : Nat) (p : Ptr)
deriving DecidableEq, Repr

/-- The process-wide allocation state: the pool singletons and the storage handed out by
`std::allocator` (numbered in request order, `systemLive` lists what is not yet freed). -/
structure Heap where
  pool : Nat → FixedAllocator
  systemNext : Nat
  systemLive : List Nat

namespace Heap

/-- Program start: no pool has been touched and nothing is allocated. -/
def fresh : Heap := ⟨fun _ => FixedAllocator.fresh, 0, []⟩

/-- The assignment to one of the pool singletons. -/
def setPool (h : Heap) (c : Nat) (a : FixedAllocator) : Heap :=
  { h with pool := fun d => if d = c then a else h.pool d }

/-- Embeds `FixedAllocator<c>::getInstance().allocate()`. -/
def poolAllocate (h : Heap) (c : Nat) : Addr × Heap :=
  (Addr.block c (h.pool c).allocate.1, h.setPool c (h.pool c).allocate.2)

/-- Embeds `std::allocator<T>().allocate(n)`. -/
def systemAllocate (h : Heap) : Addr × Heap :=
  (Addr.system h.systemNext,
    { h with systemNext := h.systemNext + 1, systemLive := h.systemNext :: h.systemLive })

end Heap

/-- An instance of `FastAllocator<T>`. -/
structure FastAllocator where
  sizeofT : Nat
deriving DecidableEq, Repr

namespace FastAllocator

/-- The branch taken by `allocate(n)`. -/
def allocateRoute (a : FastAllocator) (n : Nat) : Route :=
  if mulSizeT n a.sizeofT > MAX_FIXED_ALLOCATOR_CHUNK_SIZE then Route.system
  else if mulSizeT n a.sizeofT ≤ 8 then Route.pool 8
  else if mulSizeT n a.sizeofT ≤ 16 then Route.pool 16
  else Route.pool 32

/-- The branch taken by `deallocate(ptr, n)`. -/
def deallocateRoute (a : FastAllocator) (n : Nat) : Route :=
  if mulSizeT n a.sizeofT > MAX_FIXED_ALLOCATOR_CHUNK_SIZE then Route.system
  else if mulSizeT n a.sizeofT ≤ 8 then Route.pool 8
  else if mulSizeT n a.sizeofT ≤ 16 then Route.pool 16
  else Route.pool 32

/-- Embeds `T* allocate(size_t n)`. -/
def allocate (a : FastAllocator) (n : Nat) (h : Heap) : Addr × Heap :=
  match a.allocateRoute n with
  | Route.system => h.systemAllocate
  | Route.pool c => h.poolAllocate c

/-- Embeds `void deallocate(T* ptr, size_t n)`. The pointer is cast to the node type of the
pool the size selects; `none` stands for the undefined behaviour of handing in a pointer
that is not a block (on the pool branch) or not system storage (on the system branch). -/
def deallocate (a : FastAllocator) (ptr : Addr) (n : Nat) (h : Heap) : Option Heap :=
  match a.deallocateRoute n, ptr with
  | Route.system, Addr.system id => some { h with systemLive := h.systemLive.erase id }
  | Route.pool c, Addr.block _ p => some (h.setPool c ((h.pool c).deallocate p))
  | _, _ => none

/-- Embeds `operator !=` : `return true;`. -/
def opNe (_a _b : FastAllocator) : Bool := true

/-- Embeds `operator ==` : `return !(*this != other);`. -/
def opEq (a b : FastAllocator) : Bool := !(a.opNe b)

end FastAllocator

/-! ## Part III : List

Memory model.  A `Node*` is a 64-bit address, `0` being `nullptr`.  `Mem` holds the three
fields of every node, the set `live` of nodes that `NodeAllocTraits::allocate` has handed
out and that were not given back, and `supply`: the addresses the allocator is going to
return, in order.  Quantifying over `supply` covers every allocator; the allocator
contract (a non-null 64-bit address of storage that is not live) is checked at each
allocation and its violation is the fault `badAlloc`, which also stands for `bad_alloc`.
The allocator objects `allocN` and `allocT` of a list are stateless handles on this one
memory (`std::allocator`, `FastAllocator`) and are not represented.
`sz` is a `size_t`: increments and decrements wrap modulo `2^64`. -/

/-- Why an operation does not complete. -/
inductive Fault where
  | assertFailed
  | badAlloc
  | badFree
  | outOfFuel
  | noSuchList
deriving DecidableEq, Repr

/-- The node storage. -/
structure Mem (T : Type) where
  value : Nat → T
  left : Nat → Nat
  right : Nat → Nat
  live : List Nat
  supply : List Nat

namespace Mem

variable {T : Type}

/-- Embeds `NodeAllocTraits::allocate(allocN, 1)`. -/
def allocate (m : Mem T) : Except Fault (Nat × Mem T) :=
  match m.supply with
  | [] => Except.error Fault.badAlloc
  | p :: rest =>
    if p = 0 ∨ 2 ^ 64 ≤ p ∨ p ∈ m.live then Except.error Fault.badAlloc
    else Except.ok (p, { m with live := p :: m.live, supply := rest })

/-- Embeds `NodeAllocTraits::deallocate(allocN, p, 1)`; only live storage may be given back. -/
def deallocate (m : Mem T) (p : Nat) : Except Fault (Mem T) :=
  if p ∈ m.live then Except.ok { m with live := m.live.erase p }
  else Except.error Fault.badFree

/-- The store `p->left = v`. -/
def setLeft (m : Mem T) (p v : Nat) : Mem T :=
  { m with left := fun q => if q = p then v else m.left q }

/-- The store `p->right = v`. -/
def setRight (m : Mem T) (p v : Nat) : Mem T :=
  { m with right := fun q => if q = p then v else m.right q }

/-- The store `p->value = v`. -/
def setValue (m : Mem T) (p : Nat) (v : T) : Mem T :=
  { m with value := fun q => if q = p then v else m.value q }

/-- Embeds `NodeAllocTraits::construct(allocN, p, v, l, r)`: runs `Node(v, l, r)` at `p`. -/
def construct (m : Mem T) (p : Nat) (v : T) (l r : Nat) : Mem T :=
  ((m.setValue p v).setLeft p l).setRight p r

/-- Embeds `NodeAllocTraits::construct(allocN, p, l, r)`: runs `Node(l, r)` at `p`, whose
member initialiser list names `left` and `right` only, so `value` is default-initialised.
The function `init` is what default-initialisation of a `T` leaves in storage that held a
given value: the identity for a trivially default-constructible `T`, whose value is left
as the storage had it, and the constant `T()` for a class type. -/
def constructDefault (m : Mem T) (p : Nat) (init : T → T) (l r : Nat) : Mem T :=
  ((m.setValue p (init (m.value p))).setLeft p l).setRight p r

end Mem

/-- Embeds `sz++` on a `size_t`. -/
def incSizeT (n : Nat) : Nat := (n + 1) % 2 ^ 64

/-- Embeds `sz--` on a `size_t`. -/
def decSizeT (n : Nat) : Nat := (n + 2 ^ 64 - 1) % 2 ^ 64

/-- The data members `root` and `sz` of a `List<T, Allocator>` object. -/
structure LinkedList where
  root : Nat
  sz : Nat
deriving DecidableEq, Repr

namespace LinkedList

variable {T : Type}

/-- Embeds `void putAfter(Node* ptr, const T& value)`. -/
def putAfter (l : LinkedList) (m : Mem T) (ptr : Nat) (value : T) :
    Except Fault (LinkedList × Mem T) :=
  match m.allocate with
  | Except.error e => Except.error e
  | Except.ok (tmp, m1) =>
    let m2 := m1.construct tmp value ptr (m1.right ptr)
    let m3 := m2.setRight ptr tmp
    let m4 := m3.setLeft (m3.right tmp) tmp
    Except.ok ({ l with sz := incSizeT l.sz }, m4)

/-- Embeds `void putAfter(Node* ptr, Node* value)`. -/
def putAfterNode (l : LinkedList) (m : Mem T) (ptr value : Nat) : LinkedList × Mem T :=
  let m1 := m.setLeft value ptr
  let m2 := m1.setRight value (m1.right ptr)
  let m3 := m2.setRight ptr value
  let m4 := m3.setLeft (m3.right value) value
  ({ l with sz := incSizeT l.sz }, m4)

/-- Embeds `void del(Node* ptr)`, with the `assert(ptr != root)` in force.
`NodeAllocTraits::destroy` runs the destructor of the node, which stores nothing. -/
def del (l : LinkedList) (m : Mem T) (ptr : Nat) : Except Fault (LinkedList × Mem T) :=
  if ptr = l.root then Except.error Fault.assertFailed
  else
    let m1 := m.setRight (m.left ptr) (m.right ptr)
    let m2 := m1.setLeft (m1.right ptr) (m1.left ptr)
    match m2.deallocate ptr with
    | Except.error e => Except.error e
    | Except.ok m3 => Except.ok ({ l with sz := decSizeT l.sz }, m3)

/-- The loop of `genList`: `k` iterations left, `left` is the last node linked. -/
def genLoop (root : Nat) : Nat → Nat → Mem T → Except Fault (Mem T)
  | 0, _, m => Except.ok m
  | k + 1, left, m =>
    match m.allocate with
    | Except.error e => Except.error e
    | Except.ok (tmp, m1) =>
      let m2 := m1.setRight left tmp
      let m3 := m2.setLeft tmp left
      let m4 := m3.setLeft root tmp
      let m5 := m4.setRight tmp root
      genLoop root k tmp m5

/-- Embeds `void genList(size_t sz)`; returns the new values of `root` and `sz`. -/
def genList (m : Mem T) (sz : Nat) : Except Fault (LinkedList × Mem T) :=
  match m.allocate with
  | Except.error e => Except.error e
  | Except.ok (root, m1) =>
    let m2 := (m1.setLeft root root).setRight root root
    if sz = 0 then Except.ok (⟨root, sz⟩, m2)
    else
      match genLoop root sz root m2 with
      | Except.error e => Except.error e
      | Except.ok m3 => Except.ok (⟨root, sz⟩, m3)

/-- The loop of `destroy`: `k` iterations left, `r` is the local use of `root`. -/
def destroyLoop : Nat → Nat → Mem T → Except Fault (Nat × Mem T)
  | 0, r, m => Except.ok (r, m)
  | k + 1, r, m =>
    match m.deallocate r with
    | Except.error e => Except.error e
    | Except.ok m1 => destroyLoop k (m.right r) m1

/-- Embeds `void destroy()`; leaves `root = nullptr, sz = 0`. -/
def destroy (l : LinkedList) (m : Mem T) : Except Fault (LinkedList × Mem T) :=
  match destroyLoop l.sz (m.right l.root) m with
  | Except.error e => Except.error e
  | Except.ok (r, m1) =>
    match m1.deallocate r with
    | Except.error e => Except.error e
    | Except.ok m2 => Except.ok (⟨0, 0⟩, m2)

/-- The loop `for (it = root->right; it != root; it = it->right) construct(it, value,
it->left, it->right)` of the count constructor; the first argument bounds the number of
iterations, the loop itself has no bound. -/
def fillLoop (root : Nat) (value : T) : Nat → Nat → Mem T → Except Fault (Mem T)
  | 0, it, m => if it = root then Except.ok m else Except.error Fault.outOfFuel
  | fuel + 1, it, m =>
    if it = root then Except.ok m
    else
      let m1 := m.construct it value (m.left it) (m.right it)
      fillLoop root value fuel (m1.right it) m1

/-- The loop `for (it = root->right; it != root; it = it->right) construct(it, it->left,
it->right)` of the constructor `List(count, alloc)`; the first argument bounds the number
of iterations, the loop itself has no bound. -/
def fillDefaultLoop (root : Nat) (init : T → T) : Nat → Nat → Mem T → Except Fault (Mem T)
  | 0, it, m => if it = root then Except.ok m else Except.error Fault.outOfFuel
  | fuel + 1, it, m =>
    if it = root then Except.ok m
    else
      let m1 := m.constructDefault it init (m.left it) (m.right it)
      fillDefaultLoop root init fuel (m1.right it) m1

/-- The loop of the copy constructor and of copy assignment, `cur` running over the new
ring and `curLs` over the ring of the source. -/
def copyLoop (root : Nat) : Nat → Nat → Nat → Mem T → Except Fault (Mem T)
  | 0, cur, _, m => if cur = root then Except.ok m else Except.error Fault.outOfFuel
  | fuel + 1, cur, curLs, m =>
    if cur = root then Except.ok m
    else
      let m1 := m.construct cur (m.value curLs) (m.left cur) (m.right cur)
      copyLoop root fuel (m1.right cur) (m1.right curLs) m1

/-- Embeds `explicit List(const Allocator& alloc = Allocator())`. -/
def ctorDefault (m : Mem T) : Except Fault (LinkedList × Mem T) :=
  genList m 0

/-- Embeds `List(size_t count, const T& value, const Allocator&)`. -/
def ctorCount (fuel : Nat) (m : Mem T) (count : Nat) (value : T) :
    Except Fault (LinkedList × Mem T) :=
  match genList m count with
  | Except.error e => Except.error e
  | Except.ok (l, m1) =>
    match fillLoop l.root value fuel (m1.right l.root) m1 with
    | Except.error e => Except.error e
    | Except.ok m2 => Except.ok (l, m2)

/-- Embeds `List(size_t count, const Allocator&)`: every payload is default-initialised
by `Node(left, right)`, see `Mem.constructDefault` for `init`. -/
def ctorCountDefault (fuel : Nat) (m : Mem T) (count : Nat) (init : T → T) :
    Except Fault (LinkedList × Mem T) :=
  match genList m count with
  | Except.error e => Except.error e
  | Except.ok (l, m1) =>
    match fillDefaultLoop l.root init fuel (m1.right l.root) m1 with
    | Except.error e => Except.error e
    | Except.ok m2 => Except.ok (l, m2)

/-- Embeds `List(const List& ls)`: delegates to `List(alloc)`, which runs `genList(0)`, then runs
`genList(ls.sz)` and copies the payloads. -/
def ctorCopy (fuel : Nat) (m : Mem T) (ls : LinkedList) : Except Fault (LinkedList × Mem T) :=
  match ctorDefault m with
  | Except.error e => Except.error e
  | Except.ok (_, m0) =>
    match genList m0 ls.sz with
    | Except.error e => Except.error e
    | Except.ok (l, m1) =>
      match copyLoop l.root fuel (m1.right l.root) (m1.right ls.root) m1 with
      | Except.error e => Except.error e
      | Except.ok m2 => Except.ok (l, m2)

/-- Embeds `List(List&& other)`; returns the new object, then `other`. -/
def ctorMove (m : Mem T) (other : LinkedList) :
    Except Fault (LinkedList × LinkedList × Mem T) :=
  match m.allocate with
  | Except.error e => Except.error e
  | Except.ok (p, m1) =>
    Except.ok (⟨other.root, other.sz⟩, ⟨p, 0⟩, (m1.setLeft p p).setRight p p)

/-- Embeds `List& operator = (const List& ls)` for `this != &ls`. -/
def assign (fuel : Nat) (l : LinkedList) (m : Mem T) (ls : LinkedList) :
    Except Fault (LinkedList × Mem T) :=
  match l.destroy m with
  | Except.error e => Except.error e
  | Except.ok (_, m0) =>
    match genList m0 ls.sz with
    | Except.error e => Except.error e
    | Except.ok (l1, m1) =>
      match copyLoop l1.root fuel (m1.right l1.root) (m1.right ls.root) m1 with
      | Except.error e => Except.error e
      | Except.ok m2 => Except.ok (l1, m2)

/-- Embeds `List& operator = (List&& other)` for `this != &other`; returns `*this`, then
`other`. -/
def moveAssign (l : LinkedList) (m : Mem T) (other : LinkedList) :
    Except Fault (LinkedList × LinkedList × Mem T) :=
  match l.destroy m with
  | Except.error e => Except.error e
  | Except.ok (_, m0) =>
    match m0.allocate with
    | Except.error e => Except.error e
    | Except.ok (p, m1) =>
      Except.ok (⟨other.root, other.sz⟩, ⟨p, 0⟩, (m1.setLeft p p).setRight p p)

/-- Embeds `size_t size() const`. -/
def size (l : LinkedList) : Nat := l.sz

/-- Embeds `void push_back(const T& value)`. -/
def push_back (l : LinkedList) (m : Mem T) (value : T) : Except Fault (LinkedList × Mem T) :=
  l.putAfter m (m.left l.root) value

/-- Embeds `void push_front(const T& value)`. -/
def push_front (l : LinkedList) (m : Mem T) (value : T) : Except Fault (LinkedList × Mem T) :=
  l.putAfter m l.root value

/-- Embeds `void pop_back()`. -/
def pop_back (l : LinkedList) (m : Mem T) : Except Fault (LinkedList × Mem T) :=
  l.del m (m.left l.root)

/-- Embeds `void pop_front()`. -/
def pop_front (l : LinkedList) (m : Mem T) : Except Fault (LinkedList × Mem T) :=
  l.del m (m.right l.root)

/-- Embeds `begin()`: the node pointer held by the iterator. -/
def begin (l : LinkedList) (m : Mem T) : Nat := m.right l.root

/-- Embeds `end()`. -/
def endIter (l : LinkedList) : Nat := l.root

/-- Embeds `rbegin()`. -/
def rbegin (l : LinkedList) (m : Mem T) : Nat := m.left l.root

/-- Embeds `rend()`. -/
def rend (l : LinkedList) : Nat := l.root

/-- Embeds `operator++` of a forward iterator, applied `k` times. -/
def advance (m : Mem T) (k : Nat) (it : Nat) : Nat := (m.right)^[k] it

/-- Embeds `operator++` of a reverse iterator, applied `k` times. -/
def advanceRev (m : Mem T) (k : Nat) (it : Nat) : Nat := (m.left)^[k] it

/-- Embeds `void insert(const_iterator it, const T& value)`. -/
def insert (l : LinkedList) (m : Mem T) (it : Nat) (value : T) :
    Except Fault (LinkedList × Mem T) :=
  l.putAfter m (m.left it) value

/-- Embeds `void erase(const_iterator it)`. -/
def erase (l : LinkedList) (m : Mem T) (it : Nat) : Except Fault (LinkedList × Mem T) :=
  l.del m it

/-- Embeds `emplace_back(args...)` with the payload `value` built from the arguments. -/
def emplace_back (l : LinkedList) (m : Mem T) (value : T) : Except Fault (LinkedList × Mem T) :=
  match m.allocate with
  | Except.error e => Except.error e
  | Except.ok (tmp, m1) =>
    let m2 := m1.setValue tmp value
    Except.ok (l.putAfterNode m2 (m2.left l.root) tmp)

end LinkedList

/-! ### Observations and well-formedness -/

/-- The `n` nodes visited from `p` by following `next`. -/
def walk (next : Nat → Nat) : Nat → Nat → List Nat
  | 0, _ => []
  | n + 1, p => p :: walk next n (next p)

namespace LinkedList

variable {T : Type}

/-- The nodes a forward iterator visits in `sz` steps from `begin()`. -/
def nodes (l : LinkedList) (m : Mem T) : List Nat := walk m.right l.sz (l.begin m)

/-- The nodes a reverse iterator visits in `sz` steps from `rbegin()`. -/
def nodesRev (l : LinkedList) (m : Mem T) : List Nat := walk m.left l.sz (l.rbegin m)

/-- The forward element sequence: `*it` for `it` from `begin()`, `sz` elements. -/
def toList (l : LinkedList) (m : Mem T) : List T := (l.nodes m).map m.value

/-- The sentinel followed by the payload nodes. -/
def owned (l : LinkedList) (m : Mem T) : List Nat := l.root :: l.nodes m

end LinkedList

/-- Node `b` follows `a` in a ring: `a->right == b` and `b->left == a`. -/
def Link {T : Type} (m : Mem T) (a b : Nat) : Prop := m.right a = b ∧ m.left b = a

instance instDecidableLink {T : Type} (m : Mem T) (a b : Nat) : Decidable (Link m a b) :=
  inferInstanceAs (Decidable (m.right a = b ∧ m.left b = a))

/-- The ring `root, ns, root`: the nodes are distinct and consecutive ones are linked
both ways, the last one with `root`. -/
def NodeRing {T : Type} (m : Mem T) (root : Nat) (ns : List Nat) : Prop :=
  (root :: ns).Nodup ∧ List.Chain' (Link m) (root :: ns ++ [root])

/-- The allocator kept its contract so far: live nodes are distinct non-null 64-bit
addresses. -/
def MemOK {T : Type} (m : Mem T) : Prop :=
  m.live.Nodup ∧ ∀ p ∈ m.live, p ≠ 0 ∧ p < 2 ^ 64

/-- A well-formed list: in a sane memory, the sentinel and the `sz` nodes that follow it
form a ring of live nodes. -/
def LinkedList.WF {T : Type} (l : LinkedList) (m : Mem T) : Prop :=
  MemOK m ∧ NodeRing m l.root (l.nodes m) ∧ ∀ p ∈ l.owned m, p ∈ m.live

/-! ### Programs over several lists -/

/-- The node memory and the `List` objects of a program, numbered in creation order. -/
structure World (T : Type) where
  mem : Mem T
  lists : List LinkedList

/-- The operations of `List`; `i`, `j`, `src` number the objects involved, `pos` is the
iterator `begin()` incremented `pos` times and `init` is what default-initialisation does
to a payload, see `Mem.constructDefault`. -/
inductive ListOp (T : Type) where
  | ctorDefault
  | ctorCount (count : Nat) (value : T)
  | ctorCountDefault (count : Nat) (init : T → T)
  | ctorCopy (src : Nat)
  | ctorMove (src : Nat)
  | push_back (i : Nat) (value : T)
  | push_front (i : Nat) (value : T)
  | emplace_back (i : Nat) (value : T)
  | insert (i : Nat) (pos : Nat) (value : T)
  | pop_back (i : Nat)
  | pop_front (i : Nat)
  | erase (i : Nat) (pos : Nat)
  | assign (i : Nat) (j : Nat)
  | moveAssign (i : Nat) (j : Nat)

namespace World

variable {T : Type}

/-- A program that has not created any list; nothing is allocated. -/
def boot (m : Mem T) : World T := ⟨{ m with live := [] }, []⟩

/-- Record the outcome of a constructor. -/
def create (w : World T) (r : Except Fault (LinkedList × Mem T)) : Except Fault (World T) :=
  match r with
  | Except.error e => Except.error e
  | Except.ok (l, m) => Except.ok ⟨m, w.lists ++ [l]⟩

/-- Record the outcome of a member function of object `i`. -/
def update (w : World T) (i : Nat) (r : Except Fault (LinkedList × Mem T)) :
    Except Fault (World T) :=
  match r with
  | Except.error e => Except.error e
  | Except.ok (l, m) => Except.ok ⟨m, w.lists.set i l⟩

/-- Run `f` on object `i`. -/
def onList (w : World T) (i : Nat) (f : LinkedList → Except Fault (World T)) :
    Except Fault (World T) :=
  match w.lists[i]? with
  | none => Except.error Fault.noSuchList
  | some l => f l

/-- One operation. The loops that run until the iterator is back at `root` get as many
iterations as the list has elements. -/
def step (w : World T) : ListOp T → Except Fault (World T)
  | .ctorDefault => w.create (LinkedList.ctorDefault w.mem)
  | .ctorCount count value => w.create (LinkedList.ctorCount count w.mem count value)
  | .ctorCountDefault count init =>
      w.create (LinkedList.ctorCountDefault count w.mem count init)
  | .ctorCopy src => w.onList src fun ls => w.create (LinkedList.ctorCopy ls.sz w.mem ls)
  | .ctorMove src => w.onList src fun other =>
      match LinkedList.ctorMove w.mem other with
      | Except.error e => Except.error e
      | Except.ok (l, other2, m) => Except.ok ⟨m, w.lists.set src other2 ++ [l]⟩
  | .push_back i value => w.onList i fun l => w.update i (l.push_back w.mem value)
  | .push_front i value => w.onList i fun l => w.update i (l.push_front w.mem value)
  | .emplace_back i value => w.onList i fun l => w.update i (l.emplace_back w.mem value)
  | .insert i pos value => w.onList i fun l =>
      w.update i (l.insert w.mem (LinkedList.advance w.mem pos (l.begin w.mem)) value)
  | .pop_back i => w.onList i fun l => w.update i (l.pop_back w.mem)
  | .pop_front i => w.onList i fun l => w.update i (l.pop_front w.mem)
  | .erase i pos => w.onList i fun l =>
      w.update i (l.erase w.mem (LinkedList.advance w.mem pos (l.begin w.mem)))
  | .assign i j =>
      if i = j then w.onList i fun _ => Except.ok w
      else w.onList i fun l => w.onList j fun ls => w.update i (l.assign ls.sz w.mem ls)
  | .moveAssign i j =>
      if i = j then w.onList i fun _ => Except.ok w
      else w.onList i fun l => w.onList j fun other =>
        match l.moveAssign w.mem other with
        | Except.error e => Except.error e
        | Except.ok (l2, other2, m) => Except.ok ⟨m, (w.lists.set i l2).set j other2⟩

/-- A sequence of operations. -/
def run (w : World T) : List (ListOp T) → Except Fault (World T)
  | [] => Except.ok w
  | op :: ops =>
    match w.step op with
    | Except.error e => Except.error e
    | Except.ok w1 => run w1 ops

/-- The allocator kept its contract, every list of the program is well formed and no node
belongs to two lists. -/
def Inv (w : World T) : Prop :=
  MemOK w.mem ∧ (∀ (i : Nat) (l : LinkedList), w.lists[i]? = some l → l.WF w.mem) ∧
    ∀ (i j : Nat) (a b : LinkedList), i ≠ j → w.lists[i]? = some a → w.lists[j]? = some b →
      ∀ p, p ∈ a.owned w.mem → p ∉ b.owned w.mem

end World

/-- The payload nodes of `l` are `ns`, in order: they form a ring with the sentinel,
there are `sz` of them, and all are live. -/
def LinkedList.Shape {T : Type} (l : LinkedList) (m : Mem T) (ns : List Nat) : Prop :=
  NodeRing m l.root ns ∧ ns.length = l.sz ∧ ∀ p ∈ l.root :: ns, p ∈ m.live

/-- The footprint of an operation that turns memory `m` into `m2` and the nodes `own` of
its list into `own2`: the new nodes are old ones or storage that was not live, and every
other live node keeps its fields and stays live. -/
structure Effect {T : Type} (m : Mem T) (own : List Nat) (m2 : Mem T) (own2 : List Nat) :
    Prop where
  memOK : MemOK m2
  live : ∀ p ∈ own2, p ∈ m2.live
  fresh : ∀ p ∈ own2, p ∈ own ∨ p ∉ m.live
  frame : ∀ q ∈ m.live, q ∉ own →
    q ∈ m2.live ∧ m2.left q = m.left q ∧ m2.right q = m.right q ∧ m2.value q = m.value q

/-- The outcome `r` of an operation started in memory `m` on a list with nodes `own` is
sound: if it completes, the list it leaves is well shaped and what it did to the memory
stays within `own` and new storage; if it does not complete, that is not for lack of
iterations of a loop. -/
def Sound {T : Type} (r : Except Fault (LinkedList × Mem T)) (m : Mem T) (own : List Nat) :
    Prop :=
  match r with
  | Except.ok (l2, m2) => ∃ ns2, l2.Shape m2 ns2 ∧ Effect m own m2 (l2.root :: ns2)
  | Except.error e => e ≠ Fault.outOfFuel

/-- The outcome of a program is good: if it completes, the invariant holds; if it does
not, that is not for lack of iterations of a loop. -/
def World.Good {T : Type} (r : Except Fault (World T)) : Prop :=
  match r with
  | Except.ok w2 => w2.Inv
  | Except.error e => e ≠ Fault.outOfFuel

instance instDecidableMemOK {T : Type} (m : Mem T) : Decidable (MemOK m) :=
  inferInstanceAs (Decidable (m.live.Nodup ∧ ∀ p ∈ m.live, p ≠ 0 ∧ p < 2 ^ 64))

/-- Deciding a chain of links by checking the consecutive pairs. -/
def decideChainLink {T : Type} (m : Mem T) :
    (l : List Nat) → Decidable (List.Chain' (Link m) l)
  | [] => isTrue List.chain'_nil
  | [a] => isTrue (List.chain'_singleton a)
  | a :: b :: l =>
    match instDecidableLink m a b, decideChainLink m (b :: l) with
    | isTrue h1, isTrue h2 => isTrue (List.chain'_cons.2 ⟨h1, h2⟩)
    | isFalse h1, _ => isFalse (fun h => h1 (List.chain'_cons.1 h).1)
    | _, isFalse h2 => isFalse (fun h => h2 (List.chain'_cons.1 h).2)

instance instDecidableNodeRing {T : Type} (m : Mem T) (root : Nat) (ns : List Nat) :
    Decidable (NodeRing m root ns) :=
  @instDecidableAnd _ _ inferInstance (decideChainLink m (root :: ns ++ [root]))

instance instDecidableWF {T : Type} (l : LinkedList) (m : Mem T) : Decidable (l.WF m) :=
  inferInstanceAs
    (Decidable (MemOK m ∧ NodeRing m l.root (l.nodes m) ∧ ∀ p ∈ l.owned m, p ∈ m.live))

/-- A memory in which nothing is allocated yet, with the addresses the allocator is going
to return. -/
def Mem.blank {T : Type} [Inhabited T] (supply : List Nat) : Mem T :=
  ⟨fun _ => default, fun _ => 0, fun _ => 0, [], supply⟩

/-- The state a program ends in, or the state it started in when it does not complete. -/
def World.runD {T : Type} (w : World T) (ops : List (ListOp T)) : World T :=
  match w.run ops with
  | Except.ok w2 => w2
  | Except.error _ => w

/-! ### Sample states -/

/-- The node memory after `List<int> l; l.push_back(1); l.push_back(2); l.push_back(3);`
with an allocator that returns the addresses 5, 7, 9, 11 and then has 13, 15, 17, 19, 21
left to return; the list object is `⟨5, 3⟩`. -/
def sampleMem : Mem Nat :=
  ((World.boot (Mem.blank [5, 7, 9, 11, 13, 15, 17, 19, 21])).runD
    [.ctorDefault, .push_back 0 1, .push_back 0 2, .push_back 0 3]).mem

/-- The memory `sampleMem` after one more allocation, which returns 13. -/
def sampleMemNext : Mem Nat :=
  { sampleMem with live := [13, 11, 9, 7, 5], supply := [15, 17, 19, 21] }

/-! ### Iterators -/

/-- The class `BaseIterator<isConst, isReversed>`: the node pointer `ptr` and the direction
flag of the instantiation. -/
structure BaseIterator where
  ptr : Nat
  isReversed : Bool
deriving DecidableEq, Repr

namespace BaseIterator

variable {T : Type}

/-- Embeds `operator++()`: `if (!isReversed) ptr = ptr->right; else ptr = ptr->left;`. -/
def inc (it : BaseIterator) (m : Mem T) : BaseIterator :=
  if !it.isReversed then { it with ptr := m.right it.ptr }
  else { it with ptr := m.left it.ptr }

/-- Embeds `operator--()`: `if (!isReversed) ptr = ptr->left; else ptr = ptr->right;`. -/
def dec (it : BaseIterator) (m : Mem T) : BaseIterator :=
  if !it.isReversed then { it with ptr := m.left it.ptr }
  else { it with ptr := m.right it.ptr }

/-- Embeds `operator*()`: `return ptr->value;`. -/
def deref (it : BaseIterator) (m : Mem T) : T := m.value it.ptr

/-- Embeds `operator==`: `return ptr == other.getPtr();`. -/
def opEq (a b : BaseIterator) : Bool := a.ptr == b.ptr

/-- Embeds `operator!=`: `return ptr != other.getPtr();`. -/
def opNe (a b : BaseIterator) : Bool := a.ptr != b.ptr

/-- The iterator after `k` applications of `operator++`. -/
def incN (m : Mem T) (k : Nat) (it : BaseIterator) : BaseIterator :=
  (fun x : BaseIterator => x.inc m)^[k] it

/-- The loop `for (; it != last; ++it) out.push_back(*it);` of a caller that traverses a
range; the first argument bounds the number of iterations, `none` when it is used up. -/
def collect (m : Mem T) (last : BaseIterator) : Nat → BaseIterator → Option (List T)
  | 0, it => if it.opNe last then none else some []
  | fuel + 1, it =>
    if it.opNe last then (collect m last fuel (it.inc m)).map (fun xs => it.deref m :: xs)
    else some []

end BaseIterator

namespace LinkedList

variable {T : Type}

/-- Embeds `const_iterator cbegin() const`: `return root->right;`. -/
def cbegin (l : LinkedList) (m : Mem T) : BaseIterator := ⟨m.right l.root, false⟩

/-- Embeds `const_iterator cend() const`: `return root;`. -/
def cend (l : LinkedList) : BaseIterator := ⟨l.root, false⟩

/-- Embeds `const_reverse_iterator crbegin() const`: `return root->left;`. -/
def crbegin (l : LinkedList) (m : Mem T) : BaseIterator := ⟨m.left l.root, true⟩

/-- Embeds `const_reverse_iterator crend() const`: `return root;`. -/
def crend (l : LinkedList) : BaseIterator := ⟨l.root, true⟩

end LinkedList

namespace BaseIterator

variable {T : Type}

/-- The assignment `*it = v` through the reference that `operator*` returns:
`ptr->value = v`. -/
def store (it : BaseIterator) (m : Mem T) (v : T) : Mem T := m.setValue it.ptr v

end BaseIterator

/-- The list `l2` in memory `m2` is an independent copy of the list `ls` as it was in
memory `m`: both are well formed in `m2`, the sequence of `l2` is the one `ls` had, the
sizes agree, the sequence of `ls` is what it was, and no node of `l2`, sentinel
included, is a node of `ls`. -/
def LinkedList.CopyOf {T : Type} (l2 : LinkedList) (m2 : Mem T) (ls : LinkedList)
    (m : Mem T) : Prop :=
  l2.WF m2 ∧ ls.WF m2 ∧ l2.toList m2 = ls.toList m ∧ l2.size = ls.size ∧
    ls.toList m2 = ls.toList m ∧ ∀ p ∈ l2.owned m2, p ∉ ls.owned m2

/-- The program state after `List<int> a; a.push_back(1); a.push_back(2); List<int> b;
b.push_back(9);` with an allocator that returns the addresses 5, 7, 9, 11, 13 and then has
15, 17, 19, 21, 23 left to return; the list objects are `⟨5, 2⟩` and `⟨11, 1⟩`. -/
def sampleTwo : World Nat :=
  (World.boot (Mem.blank [5, 7, 9, 11, 13, 15, 17, 19, 21, 23])).runD
    [.ctorDefault, .push_back 0 1, .push_back 0 2, .ctorDefault, .push_back 1 9]

/-- After a move, `l2` holds in memory `m2` the list that `src` was in memory `m`, and
the source object `s2` that the move leaves is a valid empty list: `l2` is well formed
with the sequence of `src` and `size()` its length; `s2` is well formed with
`size() == 0`, `begin() == end()` and no element, and its sentinel is no node of `l2`. -/
def LinkedList.MovedFrom {T : Type} (l2 s2 : LinkedList) (m2 : Mem T) (src : LinkedList)
    (m : Mem T) : Prop :=
  l2.WF m2 ∧ l2.toList m2 = src.toList m ∧ l2.size = (src.toList m).length ∧
    s2.WF m2 ∧ s2.size = 0 ∧ (s2.cbegin m2).opEq s2.cend = true ∧
    s2.begin m2 = s2.endIter ∧ s2.toList m2 = [] ∧ s2.root ∉ l2.owned m2

/-! ### Slab growth -/

namespace PoolClient

/-- The largest number of blocks the callers hold at once in the course of a sequence of
calls started in state `s`, the state `s` itself included. -/
def peak (s : PoolClient) : List PoolOp → Nat
  | [] => s.outstanding.length
  | op :: ops =>
    match s.step op with
    | none => s.outstanding.length
    | some t => max s.outstanding.length (peak t ops)

end PoolClient

namespace FastAllocator

/-- The pointers returned by `k` successive calls `allocate(n)`, in call order. -/
def allocateMany (a : FastAllocator) (n : Nat) : Nat → Heap → List Addr × Heap
  | 0, h => ([], h)
  | k + 1, h =>
    let r := a.allocate n h
    let rest := allocateMany a n k r.2
    (r.1 :: rest.1, rest.2)

/-- Successive calls `deallocate(p, n)` for the pointers of the list, in list order. -/
def deallocateMany (a : FastAllocator) (n : Nat) : List Addr → Heap → Option Heap
  | [], h => some h
  | p :: ps, h => (a.deallocate p n h).bind (deallocateMany a n ps)

/-- Scenario B: `count` calls `allocate(1)`, then `deallocate(p, 1)` for all the pointers
obtained, last one first, then `count` more calls `allocate(1)`. -/
def scenarioB (a : FastAllocator) (count : Nat) (h : Heap) : Option Heap :=
  (a.deallocateMany 1 (a.allocateMany 1 count h).1.reverse (a.allocateMany 1 count h).2).map
    (fun h2 => (a.allocateMany 1 count h2).2)

end FastAllocator

/-! ### Allocation balance -/

/-- The program state after `List<int> a; a.push_back(1); a.push_back(2);` with an
allocator that returns the addresses 5, 7, 9 and then has 11, 13, 15, 17, 19 left to
return. -/
def balanceBefore : World Nat :=
  (World.boot (Mem.blank [5, 7, 9, 11, 13, 15, 17, 19])).runD
    [.ctorDefault, .push_back 0 1, .push_back 0 2]

/-- The state `balanceBefore` after the copy construction `List<int> b(a);`. -/
def balanceCopied : World Nat := balanceBefore.runD [.ctorCopy 0]

/-- The state `balanceBefore` after `List<int> b; b = a;`. -/
def balanceAssigned : World Nat := balanceBefore.runD [.ctorDefault, .assign 1 0]

/-! ## Theorems of Part I -/

theorem setGo_same (go : Ptr → Option Ptr) (p : Ptr) (v : Option Ptr) : setGo go p v p = v := by
  simp [setGo]

theorem setGo_other (go : Ptr → Option Ptr) (p q : Ptr) (v : Option Ptr) (h : q ≠ p) :
    setGo go p v q = go q := by
  simp [setGo, h]

/-- A chain only depends on the `go` fields of its own blocks. -/
theorem FreeChain.congr {go go2 : Ptr → Option Ptr} :
    ∀ {l : List Ptr} {c : Option Ptr}, (∀ q ∈ l, go2 q = go q) → FreeChain go c l →
      FreeChain go2 c l
  | [], _, _, h => h
  | p :: l, c, hq, h => by
    refine ⟨h.1, ?_⟩
    rw [hq p (List.mem_cons_self p l)]
    exact FreeChain.congr (fun q hql => hq q (List.mem_cons_of_mem p hql)) h.2

/-- The chain from a given head is unique. -/
theorem FreeChain.unique {go : Ptr → Option Ptr} :
    ∀ {l l2 : List Ptr} {c : Option Ptr}, FreeChain go c l → FreeChain go c l2 → l2 = l
  | [], [], _, _, _ => rfl
  | [], q :: l2, c, h, h2 => by
    have h1 : c = none := h
    have h3 : c = some q := h2.1
    rw [h1] at h3; cases h3
  | p :: l, [], c, h, h2 => by
    have h1 : c = none := h2
    have h3 : c = some p := h.1
    rw [h1] at h3; cases h3
  | p :: l, q :: l2, c, h, h2 => by
    have h1 : c = some p := h.1
    have h3 : c = some q := h2.1
    rw [h1] at h3
    cases h3
    rw [FreeChain.unique h.2 h2.2]

/-- What the threading loop leaves in the `go` fields. -/
theorem foldl_setGo_apply (k b : Nat) (go : Ptr → Option Ptr) (q : Ptr) :
    ∀ n : Nat, (List.range n).foldl
      (fun g i => setGo g ⟨k, b + i⟩ (some ⟨k, b + i + 1⟩)) go q =
      if q.slab = k ∧ b ≤ q.idx ∧ q.idx < b + n then some ⟨k, q.idx + 1⟩ else go q
  | 0 => by
    have h0 : ¬ (q.slab = k ∧ b ≤ q.idx ∧ q.idx < b + 0) := by omega
    rw [if_neg h0]
    rfl
  | n + 1 => by
    rw [List.range_succ, List.foldl_append]
    simp only [List.foldl_cons, List.foldl_nil]
    by_cases hq : q = ⟨k, b + n⟩
    · subst hq
      simp [setGo]
    · rw [setGo_other _ _ _ _ hq, foldl_setGo_apply k b go q n]
      have hne : ¬ (q.slab = k ∧ q.idx = b + n) := by
        rintro ⟨h1, h2⟩
        apply hq
        cases q
        simp_all
      by_cases h1 : q.slab = k ∧ b ≤ q.idx ∧ q.idx < b + n
      · have h2 : q.slab = k ∧ b ≤ q.idx ∧ q.idx < b + (n + 1) := ⟨h1.1, h1.2.1, by omega⟩
        rw [if_pos h1, if_pos h2]
      · have h2 : ¬ (q.slab = k ∧ b ≤ q.idx ∧ q.idx < b + (n + 1)) := by
          rintro ⟨h3, h4, h5⟩
          by_cases h6 : q.idx = b + n
          · exact hne ⟨h3, h6⟩
          · exact h1 ⟨h3, h4, by omega⟩
        rw [if_neg h1, if_neg h2]

theorem mem_slabBlocks (k : Nat) (p : Ptr) :
    ∀ (n i : Nat), p ∈ slabBlocks k i n ↔ p.slab = k ∧ i ≤ p.idx ∧ p.idx < i + n
  | 0, i => by
    simp only [slabBlocks, List.not_mem_nil, false_iff]
    omega
  | n + 1, i => by
    simp only [slabBlocks, List.mem_cons, mem_slabBlocks k p n (i + 1)]
    constructor
    · rintro (h | h)
      · subst h
        exact ⟨rfl, le_refl _, by simp⟩
      · exact ⟨h.1, by omega, by omega⟩
    · rintro ⟨h1, h2, h3⟩
      by_cases h4 : p.idx = i
      · left
        cases p
        simp_all
      · right
        exact ⟨h1, by omega, by omega⟩

theorem nodup_slabBlocks (k : Nat) : ∀ (n i : Nat), (slabBlocks k i n).Nodup
  | 0, _ => List.nodup_nil
  | n + 1, i => by
    simp only [slabBlocks, List.nodup_cons]
    refine ⟨?_, nodup_slabBlocks k n (i + 1)⟩
    rw [mem_slabBlocks]
    simp

theorem length_slabBlocks (k : Nat) : ∀ (n i : Nat), (slabBlocks k i n).length = n
  | 0, _ => rfl
  | n + 1, i => by
    simp [slabBlocks, length_slabBlocks k n (i + 1)]

/-- A threaded run of blocks of one slab that ends in `nullptr` is a chain. -/
theorem freeChain_slab (k : Nat) (go : Ptr → Option Ptr) :
    ∀ (n i : Nat), (∀ j, i ≤ j → j < i + n → go ⟨k, j⟩ = some ⟨k, j + 1⟩) →
      go ⟨k, i + n⟩ = none → FreeChain go (go ⟨k, i⟩) (slabBlocks k (i + 1) n)
  | 0, i, _, hend => by
    simpa [slabBlocks, FreeChain] using hend
  | n + 1, i, hstep, hend => by
    refine ⟨hstep i (le_refl _) (by omega), ?_⟩
    apply freeChain_slab k go n (i + 1)
    · intro j h1 h2
      exact hstep j (by omega) (by omega)
    · rw [← hend]
      congr 2
      omega

theorem go_getNewBlock (a : FixedAllocator) (q : Ptr) :
    a.getNewBlock.2.go q =
      if q.slab = a.forDelete.length ∧ q.idx < BUBEN - 1 then
        some ⟨a.forDelete.length, q.idx + 1⟩
      else if q.slab = a.forDelete.length ∧ q.idx < BUBEN then none else a.go q := by
  simp only [FixedAllocator.getNewBlock, FixedAllocator.threadSlab]
  rw [foldl_setGo_apply]
  simp

/-- Growth: the state after an `allocate()` that found the freelist empty. -/
theorem inv_grow (s : PoolClient) (hcur : s.pool.cur = none) (h : s.Inv) :
    PoolClient.Inv ⟨s.pool.allocate.2, s.pool.allocate.1 :: s.outstanding⟩ := by
  obtain ⟨l, hch, hnd, hmem, hlen⟩ := h
  have hl : l = [] := by
    cases l with
    | nil => rfl
    | cons p l =>
      have h1 : s.pool.cur = some p := hch.1
      rw [hcur] at h1
      cases h1
  subst hl
  simp only [List.append_nil] at hnd hmem hlen
  have hgo := go_getNewBlock s.pool
  have hal : s.pool.allocate = (⟨s.pool.forDelete.length, 0⟩,
      { go := s.pool.getNewBlock.2.go,
        cur := s.pool.getNewBlock.2.go ⟨s.pool.forDelete.length, 0⟩,
        forDelete := s.pool.forDelete ++ [⟨s.pool.forDelete.length, 0⟩] }) := by
    simp only [FixedAllocator.allocate, hcur]
    rfl
  rw [hal]
  refine ⟨slabBlocks s.pool.forDelete.length (0 + 1) (BUBEN - 1), ?_, ?_, ?_, ?_⟩
  · apply freeChain_slab
    · intro j _ hj
      rw [hgo]
      simp only [Nat.zero_add] at hj
      simp [hj]
    · rw [hgo]
      simp [BUBEN]
  · have hold : ∀ p ∈ s.outstanding, p.slab < s.pool.forDelete.length :=
      fun p hp => ((hmem p).1 hp).1
    rw [List.cons_append, List.nodup_cons, List.nodup_append]
    refine ⟨?_, hnd, nodup_slabBlocks _ _ _, ?_⟩
    · rw [List.mem_append, mem_slabBlocks]
      rintro (h1 | h1)
      · exact absurd (hold _ h1) (lt_irrefl _)
      · simp at h1
    · intro p hp hq
      rw [mem_slabBlocks] at hq
      have := hold p hp
      omega
  · intro p
    rw [List.cons_append, List.mem_cons, List.mem_append, mem_slabBlocks, hmem]
    simp only [FixedAllocator.Carved, List.length_append, List.length_singleton, BUBEN]
    constructor
    · rintro (h1 | h1 | h1)
      · subst h1
        simp
      · exact ⟨by omega, h1.2⟩
      · exact ⟨by omega, by omega⟩
    · rintro ⟨h1, h2⟩
      by_cases h3 : p.slab < s.pool.forDelete.length
      · exact Or.inr (Or.inl ⟨h3, h2⟩)
      · by_cases h4 : p.idx = 0
        · left
          cases p
          simp only [Ptr.mk.injEq]
          simp only at h1 h3 h4
          omega
        · right; right
          omega
  · rw [List.cons_append, List.length_cons, List.length_append, length_slabBlocks, hlen,
      List.length_append, List.length_singleton]
    simp only [BUBEN]
    omega

/-- The three facts of the invariant about `outstanding ++ l` survive a permutation. -/
theorem inv_of_perm (s t : PoolClient) (l l2 : List Ptr)
    (hperm : (t.outstanding ++ l2).Perm (s.outstanding ++ l))
    (hfd : t.pool.forDelete = s.pool.forDelete)
    (hch : FreeChain t.pool.go t.pool.cur l2)
    (hnd : (s.outstanding ++ l).Nodup)
    (hmem : ∀ p, p ∈ s.outstanding ++ l ↔ s.pool.Carved p)
    (hlen : (s.outstanding ++ l).length = BUBEN * s.pool.forDelete.length) : t.Inv := by
  refine ⟨l2, hch, hperm.nodup_iff.2 hnd, ?_, ?_⟩
  · intro p
    rw [hperm.mem_iff, hmem]
    simp [FixedAllocator.Carved, hfd]
  · rw [hperm.length_eq, hlen, hfd]

/-- Pop: the state after an `allocate()` that found a block on the freelist. -/
theorem inv_pop (s : PoolClient) (c : Ptr) (hcur : s.pool.cur = some c) (h : s.Inv) :
    PoolClient.Inv ⟨s.pool.allocate.2, s.pool.allocate.1 :: s.outstanding⟩ := by
  obtain ⟨l, hch, hnd, hmem, hlen⟩ := h
  have hal : s.pool.allocate = (c, { s.pool with cur := s.pool.go c }) := by
    simp only [FixedAllocator.allocate, hcur]
  rw [hal]
  cases l with
  | nil =>
    have h1 : s.pool.cur = none := hch
    rw [hcur] at h1
    cases h1
  | cons p l =>
    have h1 : s.pool.cur = some p := hch.1
    rw [hcur] at h1
    cases h1
    exact inv_of_perm s _ (c :: l) l List.perm_middle.symm rfl hch.2 hnd hmem hlen

theorem inv_deallocate (s : PoolClient) (p : Ptr) (hp : p ∈ s.outstanding) (h : s.Inv) :
    PoolClient.Inv ⟨s.pool.deallocate p, s.outstanding.erase p⟩ := by
  obtain ⟨l, hch, hnd, hmem, hlen⟩ := h
  have hpl : p ∉ l := fun hl => (List.nodup_append.1 hnd).2.2 hp hl
  refine inv_of_perm s _ l (p :: l) ?_ rfl ?_ hnd hmem hlen
  · exact List.perm_middle.trans ((List.perm_cons_erase hp).symm.append_right l)
  · refine ⟨rfl, ?_⟩
    show FreeChain (setGo s.pool.go p s.pool.cur) (setGo s.pool.go p s.pool.cur p) l
    rw [setGo_same]
    exact FreeChain.congr (fun q hq => setGo_other _ _ _ _ (fun e => hpl (e ▸ hq))) hch

theorem inv_store (s : PoolClient) (p : Ptr) (v : Option Ptr) (hp : p ∈ s.outstanding)
    (h : s.Inv) :
    PoolClient.Inv ⟨{ s.pool with go := setGo s.pool.go p v }, s.outstanding⟩ := by
  obtain ⟨l, hch, hnd, hmem, hlen⟩ := h
  have hpl : p ∉ l := fun hl => (List.nodup_append.1 hnd).2.2 hp hl
  refine inv_of_perm s _ l l (List.Perm.refl _) rfl ?_ hnd hmem hlen
  exact FreeChain.congr (fun q hq => setGo_other _ _ _ _ (fun e => hpl (e ▸ hq))) hch

theorem inv_fresh : PoolClient.fresh.Inv := by
  refine ⟨[], rfl, List.nodup_nil, ?_, rfl⟩
  intro p
  simp [PoolClient.fresh, FixedAllocator.fresh, FixedAllocator.Carved]

theorem inv_step (s t : PoolClient) (op : PoolOp) (h : s.Inv) (hst : s.step op = some t) :
    t.Inv := by
  cases op with
  | allocate =>
    simp only [PoolClient.step, Option.some.injEq] at hst
    subst hst
    cases hcur : s.pool.cur with
    | none => exact inv_grow s hcur h
    | some c => exact inv_pop s c hcur h
  | deallocate p =>
    simp only [PoolClient.step] at hst
    split at hst
    · next hp =>
      cases hst
      exact inv_deallocate s p hp h
    · cases hst
  | store p v =>
    simp only [PoolClient.step] at hst
    split at hst
    · next hp =>
      cases hst
      exact inv_store s p v hp h
    · cases hst

theorem inv_run : ∀ (ops : List PoolOp) (s t : PoolClient), s.Inv → s.run ops = some t → t.Inv
  | [], s, t, h, hr => by
    simp only [PoolClient.run, Option.some.injEq] at hr
    exact hr ▸ h
  | op :: ops, s, t, h, hr => by
    simp only [PoolClient.run] at hr
    cases hst : s.step op with
    | none => rw [hst] at hr; cases hr
    | some u =>
      rw [hst] at hr
      exact inv_run ops u t (inv_step s u op h hst) hr

/-- C1. Starting from a fresh pool, after every legal sequence of `allocate()`,
`deallocate(p)` (and caller writes into held blocks) the freelist reachable from `cur`
through `go` is a well-defined finite chain and
(outstanding blocks) + (freelist length) = 32 * (slabs registered in `forDelete`). -/
theorem pool_block_conservation (ops : List PoolOp) (s : PoolClient)
    (hrun : PoolClient.fresh.run ops = some s) :
    ∃ l : List Ptr, FreeChain s.pool.go s.pool.cur l ∧
      (∀ l2, FreeChain s.pool.go s.pool.cur l2 → l2 = l) ∧
      s.outstanding.length + l.length = 32 * s.pool.forDelete.length := by
  obtain ⟨l, hch, _, _, hlen⟩ := inv_run ops _ s inv_fresh hrun
  refine ⟨l, hch, fun l2 h2 => FreeChain.unique hch h2, ?_⟩
  rw [← List.length_append]
  exact hlen

theorem pool_block_conservation_witness :
    PoolClient.fresh.run [.allocate, .allocate, .deallocate ⟨0, 0⟩] =
        some ⟨(FixedAllocator.fresh.allocate.2.allocate.2).deallocate ⟨0, 0⟩, [⟨0, 1⟩]⟩ ∧
      ∃ l : List Ptr,
        FreeChain (setGo FixedAllocator.fresh.allocate.2.allocate.2.go ⟨0, 0⟩ (some ⟨0, 2⟩))
          (some ⟨0, 0⟩) l ∧
        (∀ l2, FreeChain (setGo FixedAllocator.fresh.allocate.2.allocate.2.go ⟨0, 0⟩
          (some ⟨0, 2⟩)) (some ⟨0, 0⟩) l2 → l2 = l) ∧
        [(⟨0, 1⟩ : Ptr)].length + l.length = 32 * 1 :=
  ⟨rfl, pool_block_conservation [.allocate, .allocate, .deallocate ⟨0, 0⟩]
    ⟨(FixedAllocator.fresh.allocate.2.allocate.2).deallocate ⟨0, 0⟩, [⟨0, 1⟩]⟩ rfl⟩

theorem outstanding_nodup (ops : List PoolOp) (s : PoolClient)
    (hrun : PoolClient.fresh.run ops = some s) : s.outstanding.Nodup := by
  obtain ⟨l, _, hnd, _, _⟩ := inv_run ops _ s inv_fresh hrun
  exact (List.nodup_append.1 hnd).1

/-- C2. In every state reached from a fresh pool by legal calls: `allocate()` returns a
block that is not outstanding, no block is outstanding twice, the freelist from `cur`
is a finite chain without repetition, and every carved block is either outstanding or
on the freelist, never both; nothing else is outstanding or on the freelist. -/
theorem pool_blocks_partition (ops : List PoolOp) (s : PoolClient)
    (hrun : PoolClient.fresh.run ops = some s) :
    s.pool.allocate.1 ∉ s.outstanding ∧ s.outstanding.Nodup ∧
      ∃ l : List Ptr, FreeChain s.pool.go s.pool.cur l ∧ l.Nodup ∧
        (∀ p, s.pool.Carved p → (p ∈ s.outstanding ∨ p ∈ l) ∧ ¬ (p ∈ s.outstanding ∧ p ∈ l)) ∧
        (∀ p, p ∈ s.outstanding ∨ p ∈ l → s.pool.Carved p) := by
  have hs : s.Inv := inv_run ops _ s inv_fresh hrun
  have hnext : PoolClient.Inv ⟨s.pool.allocate.2, s.pool.allocate.1 :: s.outstanding⟩ :=
    inv_step s _ PoolOp.allocate hs rfl
  obtain ⟨l, hch, hnd, hmem, _⟩ := hs
  obtain ⟨_, _, hnd2, _, _⟩ := hnext
  have hsplit := List.nodup_append.1 hnd
  refine ⟨?_, hsplit.1, l, hch, hsplit.2.1, ?_, ?_⟩
  · have h1 := (List.nodup_append.1 hnd2).1
    exact (List.nodup_cons.1 h1).1
  · intro p hp
    exact ⟨List.mem_append.1 ((hmem p).2 hp), fun h => hsplit.2.2 h.1 h.2⟩
  · intro p hp
    exact (hmem p).1 (List.mem_append.2 hp)

theorem pool_blocks_partition_witness :
    PoolClient.fresh.run [.allocate, .allocate, .deallocate ⟨0, 0⟩] =
        some ⟨(FixedAllocator.fresh.allocate.2.allocate.2).deallocate ⟨0, 0⟩, [⟨0, 1⟩]⟩ ∧
      ((FixedAllocator.fresh.allocate.2.allocate.2).deallocate ⟨0, 0⟩).allocate.1 ∉
        [(⟨0, 1⟩ : Ptr)] :=
  ⟨rfl, (pool_blocks_partition [.allocate, .allocate, .deallocate ⟨0, 0⟩]
    ⟨(FixedAllocator.fresh.allocate.2.allocate.2).deallocate ⟨0, 0⟩, [⟨0, 1⟩]⟩ rfl).1⟩

theorem allocateN_succ_last : ∀ (k : Nat) (a : FixedAllocator),
    FixedAllocator.allocateN (k + 1) a =
      ((FixedAllocator.allocateN k a).1 ++ [(FixedAllocator.allocateN k a).2.allocate.1],
        (FixedAllocator.allocateN k a).2.allocate.2)
  | 0, a => rfl
  | k + 1, a => by
    have ih := allocateN_succ_last k a.allocate.2
    show (a.allocate.1 :: (FixedAllocator.allocateN (k + 1) a.allocate.2).1,
      (FixedAllocator.allocateN (k + 1) a.allocate.2).2) = _
    rw [ih]
    rfl

theorem deallocateAll_go : ∀ (ps : List Ptr) (a : FixedAllocator) (q : Ptr), q ∉ ps →
    (a.deallocateAll ps).go q = a.go q
  | [], _, _, _ => rfl
  | p :: ps, a, q, hq => by
    have h1 : q ≠ p := fun e => hq (e ▸ List.mem_cons_self _ _)
    have h2 : q ∉ ps := fun h => hq (List.mem_cons_of_mem _ h)
    show ((a.deallocate p).deallocateAll ps).go q = a.go q
    rw [deallocateAll_go ps (a.deallocate p) q h2]
    exact setGo_other _ _ _ _ h1

theorem deallocateAll_forDelete : ∀ (ps : List Ptr) (a : FixedAllocator),
    (a.deallocateAll ps).forDelete = a.forDelete
  | [], _ => rfl
  | p :: ps, a => by
    show ((a.deallocate p).deallocateAll ps).forDelete = a.forDelete
    rw [deallocateAll_forDelete ps (a.deallocate p)]
    rfl

/-- Freeing distinct blocks and allocating as many gives them back in reverse order and
puts the freelist head back where it was. -/
theorem allocateN_deallocateAll : ∀ (ps : List Ptr) (a : FixedAllocator), ps.Nodup →
    FixedAllocator.allocateN ps.length (a.deallocateAll ps) =
      (ps.reverse, { a.deallocateAll ps with cur := a.cur })
  | [], _, _ => rfl
  | p :: ps, a, hnd => by
    have hp : p ∉ ps := (List.nodup_cons.1 hnd).1
    have ih := allocateN_deallocateAll ps (a.deallocate p) (List.nodup_cons.1 hnd).2
    show FixedAllocator.allocateN (ps.length + 1) ((a.deallocate p).deallocateAll ps) = _
    rw [allocateN_succ_last, ih]
    have hgo : ((a.deallocate p).deallocateAll ps).go p = a.cur := by
      rw [deallocateAll_go ps _ p hp]
      exact setGo_same _ _ _
    have hal : ∀ (b : FixedAllocator) (c : Ptr), b.cur = some c →
        b.allocate = (c, { b with cur := b.go c }) := by
      intro b c h
      simp only [FixedAllocator.allocate, h]
    rw [hal _ p rfl, List.reverse_cons]
    show (_, FixedAllocator.mk _ (((a.deallocate p).deallocateAll ps).go p) _) = _
    rw [hgo]
    rfl

theorem run_deallocates : ∀ (ps : List Ptr) (s t : PoolClient), s.outstanding.Nodup →
    s.run (ps.map PoolOp.deallocate) = some t →
      t.pool = s.pool.deallocateAll ps ∧ ps.Nodup ∧ ∀ p ∈ ps, p ∈ s.outstanding
  | [], s, t, _, hr => by
    simp only [List.map_nil, PoolClient.run, Option.some.injEq] at hr
    subst hr
    exact ⟨rfl, List.nodup_nil, fun _ h => absurd h (List.not_mem_nil _)⟩
  | p :: ps, s, t, hnd, hr => by
    simp only [List.map_cons, PoolClient.run, PoolClient.step] at hr
    by_cases hp : p ∈ s.outstanding
    · rw [if_pos hp] at hr
      obtain ⟨h1, h2, h3⟩ := run_deallocates ps ⟨s.pool.deallocate p, s.outstanding.erase p⟩ t
        (hnd.erase p) hr
      refine ⟨h1, List.nodup_cons.2 ⟨fun h => ?_, h2⟩, ?_⟩
      · exact hnd.not_mem_erase (h3 p h)
      · intro q hq
        rcases List.mem_cons.1 hq with rfl | hq
        · exact hp
        · exact List.mem_of_mem_erase (h3 q hq)
    · rw [if_neg hp] at hr
      cases hr

/-- C3. In every reachable pool state `deallocate(p)` followed by `allocate()` returns `p`
without growing a slab, and after `deallocate(p1); ...; deallocate(pk)` of outstanding
blocks the next `k` calls of `allocate()` return `pk, ..., p1`, again without growth. -/
theorem pool_freelist_is_stack (ops : List PoolOp) (s t : PoolClient) (ps : List Ptr)
    (hrun : PoolClient.fresh.run ops = some s)
    (hfree : s.run (ps.map PoolOp.deallocate) = some t) :
    (∀ p ∈ s.outstanding, (s.pool.deallocate p).allocate.1 = p ∧
        (s.pool.deallocate p).allocate.2.forDelete = s.pool.forDelete) ∧
      (FixedAllocator.allocateN ps.length t.pool).1 = ps.reverse ∧
      (FixedAllocator.allocateN ps.length t.pool).2.forDelete = s.pool.forDelete := by
  have hnd : s.outstanding.Nodup := outstanding_nodup ops s hrun
  obtain ⟨h1, h2, _⟩ := run_deallocates ps s t hnd hfree
  refine ⟨fun p _ => ⟨rfl, rfl⟩, ?_, ?_⟩
  · rw [h1, allocateN_deallocateAll ps s.pool h2]
  · rw [h1, allocateN_deallocateAll ps s.pool h2]
    exact deallocateAll_forDelete ps s.pool

theorem pool_freelist_is_stack_witness :
    PoolClient.fresh.run [.allocate, .allocate, .allocate] =
        some ⟨FixedAllocator.fresh.allocate.2.allocate.2.allocate.2,
          [⟨0, 2⟩, ⟨0, 1⟩, ⟨0, 0⟩]⟩ ∧
      (FixedAllocator.allocateN 2
        ((FixedAllocator.fresh.allocate.2.allocate.2.allocate.2).deallocateAll
          [⟨0, 1⟩, ⟨0, 0⟩])).1 = [⟨0, 0⟩, ⟨0, 1⟩] :=
  ⟨rfl, (pool_freelist_is_stack [.allocate, .allocate, .allocate]
    ⟨FixedAllocator.fresh.allocate.2.allocate.2.allocate.2, [⟨0, 2⟩, ⟨0, 1⟩, ⟨0, 0⟩]⟩
    ⟨(FixedAllocator.fresh.allocate.2.allocate.2.allocate.2).deallocateAll [⟨0, 1⟩, ⟨0, 0⟩],
      [⟨0, 2⟩]⟩
    [⟨0, 1⟩, ⟨0, 0⟩] rfl rfl).2.1⟩

/-! ## Theorems of Part II -/

/-- C5. `deallocate(ptr, n)` goes where `allocate(n)` goes. When `allocate(n)` takes
storage from `std::allocator`, `deallocate(ptr, n)` gives `ptr` back to `std::allocator`
and touches no pool; when `allocate(n)` is one `allocate()` of the pool of chunk size `c`,
`deallocate(ptr, n)` is one `deallocate(ptr)` of that same pool `c`, whatever `ptr` is,
and leaves every other pool and the system storage as they are. In particular the pointer
that `allocate(n)` returns is given back by `deallocate(ptr, n)` to the allocator it came
from. The two routing functions are the same function of `sizeof(T)` and `n`. -/
theorem fast_deallocate_route_eq_allocate_route (a : FastAllocator) (n : Nat) (h : Heap) :
    FastAllocator.deallocateRoute = FastAllocator.allocateRoute ∧
      match a.allocateRoute n with
      | Route.system =>
        a.allocate n h = h.systemAllocate ∧
          (∀ (id : Nat) (h2 : Heap), a.deallocate (Addr.system id) n h2 =
            some { h2 with systemLive := h2.systemLive.erase id }) ∧
          a.deallocate (a.allocate n h).1 n (a.allocate n h).2 =
            some { (a.allocate n h).2 with
              systemLive := (a.allocate n h).2.systemLive.erase h.systemNext }
      | Route.pool c =>
        a.allocate n h = h.poolAllocate c ∧
          (∀ (d : Nat) (p : Ptr) (h2 : Heap), a.deallocate (Addr.block d p) n h2 =
            some (h2.setPool c ((h2.pool c).deallocate p))) ∧
          (∀ (d : Nat) (p : Ptr) (h2 h3 : Heap),
            a.deallocate (Addr.block d p) n h2 = some h3 →
            h3.pool c = (h2.pool c).deallocate p ∧ (∀ e, e ≠ c → h3.pool e = h2.pool e) ∧
              h3.systemLive = h2.systemLive ∧ h3.systemNext = h2.systemNext) ∧
          a.deallocate (a.allocate n h).1 n (a.allocate n h).2 =
            some ((a.allocate n h).2.setPool c
              (((h.pool c).allocate.2).deallocate (h.pool c).allocate.1)) := by
  refine ⟨?_, ?_⟩
  · funext a n
    rfl
  · have hd : a.deallocateRoute n = a.allocateRoute n := rfl
    cases hr : a.allocateRoute n with
    | system =>
      rw [hr] at hd
      have hal : a.allocate n h = h.systemAllocate := by
        simp only [FastAllocator.allocate, hr]
      refine ⟨hal, ?_, ?_⟩
      · intro id h2
        simp only [FastAllocator.deallocate, hd]
      · rw [hal]
        simp only [FastAllocator.deallocate, hd, Heap.systemAllocate]
    | pool c =>
      rw [hr] at hd
      have hal : a.allocate n h = h.poolAllocate c := by
        simp only [FastAllocator.allocate, hr]
      have hde : ∀ (d : Nat) (p : Ptr) (h2 : Heap), a.deallocate (Addr.block d p) n h2 =
          some (h2.setPool c ((h2.pool c).deallocate p)) := by
        intro d p h2
        simp only [FastAllocator.deallocate, hd]
      refine ⟨hal, hde, ?_, ?_⟩
      · intro d p h2 h3 h
        rw [hde] at h
        cases h
        refine ⟨by simp [Heap.setPool], ?_, rfl, rfl⟩
        intro e he
        simp [Heap.setPool, he]
      · rw [hal, Heap.poolAllocate, hde]
        simp [Heap.setPool]

theorem fast_deallocate_route_eq_allocate_route_witness :
    (⟨8⟩ : FastAllocator).allocateRoute 2 = Route.pool 16 ∧
      (⟨8⟩ : FastAllocator).allocate 2 Heap.fresh = Heap.fresh.poolAllocate 16 ∧
      ∀ (d : Nat) (p : Ptr) (h2 h3 : Heap),
        (⟨8⟩ : FastAllocator).deallocate (Addr.block d p) 2 h2 = some h3 →
        h3.pool 16 = (h2.pool 16).deallocate p ∧ (∀ e, e ≠ 16 → h3.pool e = h2.pool e) ∧
          h3.systemLive = h2.systemLive ∧ h3.systemNext = h2.systemNext :=
  ⟨by decide, (fast_deallocate_route_eq_allocate_route ⟨8⟩ 2 Heap.fresh).2.1,
    (fast_deallocate_route_eq_allocate_route ⟨8⟩ 2 Heap.fresh).2.2.2.1⟩

/-- The claim C6 as stated fails: with `sizeof(T) = 2` and `n = 2^63` the product wraps
to 0, the request is served from the 8-byte pool, and the true size is `2^64` bytes. -/
theorem fast_allocate_wraps_counterexample :
    1 ≤ (2 : Nat) ∧ 2 ^ 63 < 2 ^ 64 ∧
      (⟨2⟩ : FastAllocator).allocateRoute (2 ^ 63) = Route.pool 8 ∧ ¬ (2 ^ 63 * 2 ≤ 8) := by
  decide

/-- C6, amended. When the product `n * sizeof(T)` does not wrap (it is below `2^64`), a
request that `allocate(n)` serves from the pool of chunk size `c` has `c` among 8, 16, 32
and its true byte size `n * sizeof(T)` is at most `c`. -/
theorem fast_allocate_fits_block (a : FastAllocator) (n c : Nat)
    (hwrap : n * a.sizeofT < 2 ^ 64) (hroute : a.allocateRoute n = Route.pool c) :
    c ∈ [8, 16, 32] ∧ n * a.sizeofT ≤ c := by
  have hb : mulSizeT n a.sizeofT = n * a.sizeofT := Nat.mod_eq_of_lt hwrap
  simp only [FastAllocator.allocateRoute, MAX_FIXED_ALLOCATOR_CHUNK_SIZE, hb] at hroute
  split at hroute
  · cases hroute
  · split at hroute
    · cases hroute
      exact ⟨by simp, by assumption⟩
    · split at hroute
      · cases hroute
        exact ⟨by simp, by assumption⟩
      · cases hroute
        exact ⟨by simp, by omega⟩

theorem fast_allocate_fits_block_witness :
    3 * 4 < 2 ^ 64 ∧ (⟨4⟩ : FastAllocator).allocateRoute 3 = Route.pool 16 ∧
      16 ∈ [8, 16, 32] ∧ 3 * 4 ≤ 16 :=
  ⟨by decide, by decide, fast_allocate_fits_block ⟨4⟩ 3 16 (by decide) (by decide)⟩

/-- C7, the behaviour of the code: for any two instances `a != b` is `true` and `a == b`
is `false`, also for `b = a`. -/
theorem fast_allocator_compare (a b : FastAllocator) :
    a.opNe b = true ∧ a.opEq b = false ∧ a.opEq a = false :=
  ⟨rfl, rfl, rfl⟩

/-! ## Theorems of Part III -/

section MemLemmas

variable {T : Type}

@[simp] theorem Mem.setLeft_left (m : Mem T) (p v q : Nat) :
    (m.setLeft p v).left q = if q = p then v else m.left q := rfl

@[simp] theorem Mem.setLeft_right (m : Mem T) (p v : Nat) : (m.setLeft p v).right = m.right := rfl

@[simp] theorem Mem.setLeft_value (m : Mem T) (p v : Nat) : (m.setLeft p v).value = m.value := rfl

@[simp] theorem Mem.setLeft_live (m : Mem T) (p v : Nat) : (m.setLeft p v).live = m.live := rfl

@[simp] theorem Mem.setLeft_supply (m : Mem T) (p v : Nat) :
    (m.setLeft p v).supply = m.supply := rfl

@[simp] theorem Mem.setRight_right (m : Mem T) (p v q : Nat) :
    (m.setRight p v).right q = if q = p then v else m.right q := rfl

@[simp] theorem Mem.setRight_left (m : Mem T) (p v : Nat) : (m.setRight p v).left = m.left := rfl

@[simp] theorem Mem.setRight_value (m : Mem T) (p v : Nat) :
    (m.setRight p v).value = m.value := rfl

@[simp] theorem Mem.setRight_live (m : Mem T) (p v : Nat) : (m.setRight p v).live = m.live := rfl

@[simp] theorem Mem.setRight_supply (m : Mem T) (p v : Nat) :
    (m.setRight p v).supply = m.supply := rfl

@[simp] theorem Mem.setValue_value (m : Mem T) (p : Nat) (v : T) (q : Nat) :
    (m.setValue p v).value q = if q = p then v else m.value q := rfl

@[simp] theorem Mem.setValue_left (m : Mem T) (p : Nat) (v : T) :
    (m.setValue p v).left = m.left := rfl

@[simp] theorem Mem.setValue_right (m : Mem T) (p : Nat) (v : T) :
    (m.setValue p v).right = m.right := rfl

@[simp] theorem Mem.setValue_live (m : Mem T) (p : Nat) (v : T) :
    (m.setValue p v).live = m.live := rfl

@[simp] theorem Mem.setValue_supply (m : Mem T) (p : Nat) (v : T) :
    (m.setValue p v).supply = m.supply := rfl

@[simp] theorem Mem.construct_left (m : Mem T) (p : Nat) (v : T) (l r q : Nat) :
    (m.construct p v l r).left q = if q = p then l else m.left q := rfl

@[simp] theorem Mem.construct_right (m : Mem T) (p : Nat) (v : T) (l r q : Nat) :
    (m.construct p v l r).right q = if q = p then r else m.right q := rfl

@[simp] theorem Mem.construct_value (m : Mem T) (p : Nat) (v : T) (l r q : Nat) :
    (m.construct p v l r).value q = if q = p then v else m.value q := rfl

@[simp] theorem Mem.construct_live (m : Mem T) (p : Nat) (v : T) (l r : Nat) :
    (m.construct p v l r).live = m.live := rfl

@[simp] theorem Mem.construct_supply (m : Mem T) (p : Nat) (v : T) (l r : Nat) :
    (m.construct p v l r).supply = m.supply := rfl

@[simp] theorem Mem.constructDefault_left (m : Mem T) (p : Nat) (init : T → T) (l r q : Nat) :
    (m.constructDefault p init l r).left q = if q = p then l else m.left q := rfl

@[simp] theorem Mem.constructDefault_right (m : Mem T) (p : Nat) (init : T → T)
    (l r q : Nat) :
    (m.constructDefault p init l r).right q = if q = p then r else m.right q := rfl

@[simp] theorem Mem.constructDefault_value (m : Mem T) (p : Nat) (init : T → T)
    (l r q : Nat) :
    (m.constructDefault p init l r).value q =
      if q = p then init (m.value p) else m.value q := rfl

@[simp] theorem Mem.constructDefault_live (m : Mem T) (p : Nat) (init : T → T) (l r : Nat) :
    (m.constructDefault p init l r).live = m.live := rfl

@[simp] theorem Mem.constructDefault_supply (m : Mem T) (p : Nat) (init : T → T)
    (l r : Nat) :
    (m.constructDefault p init l r).supply = m.supply := rfl

/-- What a successful allocation gives. -/
theorem Mem.allocate_ok {m m1 : Mem T} {p : Nat} (h : m.allocate = Except.ok (p, m1)) :
    p ≠ 0 ∧ p < 2 ^ 64 ∧ p ∉ m.live ∧ m1.live = p :: m.live ∧ m1.left = m.left ∧
      m1.right = m.right ∧ m1.value = m.value ∧ m.supply = p :: m1.supply := by
  unfold Mem.allocate at h
  split at h
  · cases h
  · next q rest hs =>
    split at h
    · cases h
    · next hc =>
      cases h
      refine ⟨?_, ?_, ?_, rfl, rfl, rfl, rfl, hs⟩
      · exact fun e => hc (Or.inl e)
      · exact Nat.lt_of_not_le (fun e => hc (Or.inr (Or.inl e)))
      · exact fun e => hc (Or.inr (Or.inr e))

/-- An allocation faults only with `badAlloc`. -/
theorem Mem.allocate_error {m : Mem T} {e : Fault} (h : m.allocate = Except.error e) :
    e = Fault.badAlloc := by
  unfold Mem.allocate at h
  split at h
  · cases h; rfl
  · split at h
    · cases h; rfl
    · cases h

theorem Mem.deallocate_ok {m : Mem T} {p : Nat} (h : p ∈ m.live) :
    m.deallocate p = Except.ok { m with live := m.live.erase p } := by
  simp [Mem.deallocate, h]

theorem MemOK.allocate {m m1 : Mem T} {p : Nat} (hm : MemOK m)
    (h : m.allocate = Except.ok (p, m1)) : MemOK m1 := by
  obtain ⟨h0, h64, hfresh, hlive, -⟩ := Mem.allocate_ok h
  refine ⟨?_, ?_⟩
  · rw [hlive]
    exact List.nodup_cons.2 ⟨hfresh, hm.1⟩
  · intro q hq
    rw [hlive] at hq
    rcases List.mem_cons.1 hq with rfl | hq
    · exact ⟨h0, h64⟩
    · exact hm.2 q hq

/-- Distinct non-null 64-bit addresses: there are fewer than `2^64` of them. -/
theorem length_lt_of_addresses (l : List Nat) (hnd : l.Nodup)
    (hb : ∀ p ∈ l, p ≠ 0 ∧ p < 2 ^ 64) : l.length < 2 ^ 64 := by
  have hsub : (0 :: l) ⊆ List.range (2 ^ 64) := by
    intro p hp
    rcases List.mem_cons.1 hp with rfl | hp
    · exact List.mem_range.2 (by positivity)
    · exact List.mem_range.2 (hb p hp).2
  have hnd0 : (0 :: l).Nodup := List.nodup_cons.2 ⟨fun h => (hb 0 h).1 rfl, hnd⟩
  have hle := (List.subperm_of_subset hnd0 hsub).length_le
  rw [List.length_cons, List.length_range] at hle
  omega

end MemLemmas

section ChainLemmas

variable {T : Type}

/-- A chain survives a change of memory that keeps `right` on its sources and `left` on
its targets. -/
theorem chain_frame {m m2 : Mem T} : ∀ (l : List Nat), List.Chain' (Link m) l →
    (∀ a ∈ l.dropLast, m2.right a = m.right a) → (∀ b ∈ l.tail, m2.left b = m.left b) →
      List.Chain' (Link m2) l
  | [], _, _, _ => List.chain'_nil
  | [_], _, _, _ => List.chain'_singleton _
  | a :: b :: l, h, hr, hl => by
    rw [List.chain'_cons] at h ⊢
    refine ⟨⟨?_, ?_⟩, chain_frame (b :: l) h.2 ?_ ?_⟩
    · rw [hr a (by simp)]
      exact h.1.1
    · rw [hl b (by simp)]
      exact h.1.2
    · intro x hx
      exact hr x (by simp [List.dropLast, hx])
    · intro x hx
      exact hl x (by
        simp only [List.tail_cons] at hx ⊢
        exact List.mem_of_mem_tail hx)

theorem walk_length (next : Nat → Nat) : ∀ (n p : Nat), (walk next n p).length = n
  | 0, _ => rfl
  | n + 1, p => by simp [walk, walk_length next n]

/-- Walking along a chain lists the chain. -/
theorem walk_chain (next : Nat → Nat) : ∀ (l : List Nat) (a : Nat),
    List.Chain' (fun x y => next x = y) (a :: l) → walk next l.length (next a) = l
  | [], _, _ => rfl
  | b :: l, a, h => by
    rw [List.chain'_cons] at h
    show next a :: walk next l.length (next (next a)) = b :: l
    rw [h.1, walk_chain next l b h.2]

/-- Iterating along a chain reaches the element at that distance. -/
theorem iterate_chain (next : Nat → Nat) : ∀ (l1 : List Nat) (a p : Nat) (l2 : List Nat),
    List.Chain' (fun x y => next x = y) (a :: l1 ++ p :: l2) → next^[l1.length] (next a) = p
  | [], a, p, l2, h => by
    rw [List.cons_append, List.nil_append, List.chain'_cons] at h
    exact h.1
  | b :: l1, a, p, l2, h => by
    rw [List.cons_append, List.cons_append, List.chain'_cons] at h
    rw [List.length_cons, Function.iterate_succ_apply, h.1]
    exact iterate_chain next l1 b p l2 h.2

end ChainLemmas

section RingLemmas

variable {T : Type}

theorem NodeRing.right_chain {m : Mem T} {root : Nat} {ns : List Nat} (h : NodeRing m root ns) :
    List.Chain' (fun x y => m.right x = y) (root :: ns ++ [root]) :=
  h.2.imp (fun _ _ hab => hab.1)

theorem NodeRing.left_chain {m : Mem T} {root : Nat} {ns : List Nat} (h : NodeRing m root ns) :
    List.Chain' (fun x y => m.left x = y) (root :: ns.reverse ++ [root]) := by
  have h1 : List.Chain' (flip (fun x y => m.left x = y)) (root :: ns ++ [root]) :=
    h.2.imp (fun _ _ hab => hab.2)
  rw [← List.chain'_reverse] at h1
  simpa using h1

/-- The forward walk of a ring lists its payload nodes. -/
theorem NodeRing.walk_right {m : Mem T} {root : Nat} {ns : List Nat} (h : NodeRing m root ns) :
    walk m.right ns.length (m.right root) = ns :=
  walk_chain m.right ns root (List.chain'_append.1 h.right_chain).1

/-- The backward walk of a ring lists its payload nodes in reverse. -/
theorem NodeRing.walk_left {m : Mem T} {root : Nat} {ns : List Nat} (h : NodeRing m root ns) :
    walk m.left ns.length (m.left root) = ns.reverse := by
  have h1 := walk_chain m.left ns.reverse root (List.chain'_append.1 h.left_chain).1
  rwa [List.length_reverse] at h1

/-- The facts about the neighbours `prev` and `next` of a position of a ring that the
frame arguments need. -/
theorem ring_parts {root : Nat} {as bs X0 Y0 : List Nat} {prev next : Nat}
    (hnd : (root :: (as ++ bs)).Nodup) (hX : root :: as = X0 ++ [prev])
    (hY : bs ++ [root] = next :: Y0) :
    prev ∉ X0 ∧ prev ∈ root :: as ∧ (∀ a ∈ X0, a ∈ root :: as) ∧ next ∉ as ∧ prev ∉ bs ∧
      next ∉ Y0 ∧ next ∈ bs ++ [root] ∧ (∀ b ∈ Y0, b ∈ bs ++ [root]) ∧
      (X0 ++ [prev]).tail = as ∧ (next :: Y0).dropLast = bs := by
  have hndX : (root :: as).Nodup := by
    have : (root :: as).Sublist (root :: (as ++ bs)) :=
      (List.sublist_append_left as bs).cons₂ root
    exact hnd.sublist this
  have hndY : (bs ++ [root]).Nodup := by
    have h1 : (bs ++ [root]).Perm (root :: bs) := List.perm_append_singleton root bs
    rw [h1.nodup_iff]
    have : (root :: bs).Sublist (root :: (as ++ bs)) :=
      (List.sublist_append_right as bs).cons₂ root
    exact hnd.sublist this
  have hdisj : ∀ x, x ∈ root :: as → x ∉ bs := by
    intro x hx hb
    have h2 : (root :: as ++ bs).Nodup := hnd
    exact (List.nodup_append.1 h2).2.2 hx hb
  have hprev : prev ∈ root :: as := by rw [hX]; simp
  have hnext : next ∈ bs ++ [root] := by rw [hY]; simp
  rw [hX] at hndX
  rw [hY] at hndY
  refine ⟨?_, hprev, ?_, ?_, hdisj prev hprev, (List.nodup_cons.1 hndY).1, hnext, ?_, ?_, ?_⟩
  · intro h
    exact (List.nodup_append.1 hndX).2.2 h (List.mem_singleton_self prev)
  · intro a ha
    rw [hX]
    exact List.mem_append_left _ ha
  · intro h
    rcases List.mem_append.1 hnext with h1 | h1
    · exact hdisj next (List.mem_cons_of_mem _ h) h1
    · rw [List.mem_singleton] at h1
      subst h1
      exact (List.nodup_cons.1 hnd).1 (List.mem_append_left _ h)
  · intro b hb
    rw [hY]
    exact List.mem_cons_of_mem _ hb
  · rw [← hX]
    rfl
  · rw [← hY]
    exact List.dropLast_concat

/-- Linking `tmp` between two neighbours of a ring gives the ring with `tmp` inserted. -/
theorem ring_insert {m m2 : Mem T} {root : Nat} {as bs X0 Y0 : List Nat} {prev next tmp : Nat}
    (h : NodeRing m root (as ++ bs)) (hX : root :: as = X0 ++ [prev])
    (hY : bs ++ [root] = next :: Y0) (htmp : tmp ∉ root :: (as ++ bs))
    (h1 : Link m2 prev tmp) (h2 : Link m2 tmp next)
    (hr : ∀ q, q ≠ prev → q ≠ tmp → m2.right q = m.right q)
    (hl : ∀ q, q ≠ next → q ≠ tmp → m2.left q = m.left q) :
    NodeRing m2 root (as ++ tmp :: bs) := by
  obtain ⟨p1, p2, p3, p4, p5, p6, p7, p8, p9, p10⟩ := ring_parts h.1 hX hY
  have hne : ∀ x, x ∈ root :: (as ++ bs) → x ≠ tmp := fun x hx e => htmp (e ▸ hx)
  have hinX : ∀ x, x ∈ root :: as → x ∈ root :: (as ++ bs) := by
    intro x hx
    rcases List.mem_cons.1 hx with rfl | hx
    · simp
    · simp [hx]
  have hinY : ∀ x, x ∈ bs ++ [root] → x ∈ root :: (as ++ bs) := by
    intro x hx
    rcases List.mem_append.1 hx with hx | hx
    · simp [hx]
    · simp only [List.mem_singleton] at hx
      simp [hx]
  refine ⟨?_, ?_⟩
  · have hp : (root :: (as ++ tmp :: bs)).Perm (tmp :: root :: (as ++ bs)) :=
      (List.Perm.cons root List.perm_middle).trans (List.Perm.swap tmp root _)
    rw [hp.nodup_iff]
    exact List.nodup_cons.2 ⟨htmp, h.1⟩
  · have hc : List.Chain' (Link m) (X0 ++ prev :: next :: Y0) := by
      have := h.2
      rwa [List.cons_append, List.append_assoc, ← List.cons_append, hX, hY,
        List.append_assoc, List.singleton_append] at this
    rw [List.chain'_split, List.chain'_cons] at hc
    have hgoal : root :: (as ++ tmp :: bs) ++ [root] = X0 ++ prev :: tmp :: next :: Y0 := by
      rw [List.cons_append, List.append_assoc, ← List.cons_append, hX, List.cons_append, hY,
        List.append_assoc, List.singleton_append]
    rw [hgoal, List.chain'_split, List.chain'_cons, List.chain'_cons]
    refine ⟨chain_frame _ hc.1 ?_ ?_, h1, h2, chain_frame _ hc.2.2 ?_ ?_⟩
    · intro a ha
      rw [List.dropLast_concat] at ha
      exact hr a (fun e => p1 (e ▸ ha)) (hne a (hinX a (p3 a ha)))
    · intro b hb
      rw [p9] at hb
      exact hl b (fun e => p4 (e ▸ hb)) (hne b (hinX b (List.mem_cons_of_mem _ hb)))
    · intro a ha
      rw [p10] at ha
      exact hr a (fun e => p5 (e ▸ ha)) (hne a (hinY a (List.mem_append_left _ ha)))
    · intro b hb
      rw [List.tail_cons] at hb
      exact hl b (fun e => p6 (e ▸ hb)) (hne b (hinY b (p8 b hb)))

/-- The links around a payload node of a ring. -/
theorem ring_links {m : Mem T} {root p : Nat} {as bs X0 Y0 : List Nat} {prev next : Nat}
    (h : NodeRing m root (as ++ p :: bs)) (hX : root :: as = X0 ++ [prev])
    (hY : bs ++ [root] = next :: Y0) : Link m prev p ∧ Link m p next := by
  have hc : List.Chain' (Link m) (X0 ++ prev :: p :: next :: Y0) := by
    have := h.2
    rwa [List.cons_append, List.append_assoc, ← List.cons_append, hX, List.cons_append, hY,
      List.append_assoc, List.singleton_append] at this
  rw [List.chain'_split, List.chain'_cons, List.chain'_cons] at hc
  exact ⟨hc.2.1, hc.2.2.1⟩

/-- The link across a gap between two neighbours of a ring. -/
theorem ring_link_gap {m : Mem T} {root : Nat} {as bs X0 Y0 : List Nat} {prev next : Nat}
    (h : NodeRing m root (as ++ bs)) (hX : root :: as = X0 ++ [prev])
    (hY : bs ++ [root] = next :: Y0) : Link m prev next := by
  have hc : List.Chain' (Link m) (X0 ++ prev :: next :: Y0) := by
    have := h.2
    rwa [List.cons_append, List.append_assoc, ← List.cons_append, hX, hY,
      List.append_assoc, List.singleton_append] at this
  rw [List.chain'_split, List.chain'_cons] at hc
  exact hc.2.1

/-- Linking the two neighbours of a payload node to each other gives the ring without
that node. -/
theorem ring_erase {m m2 : Mem T} {root p : Nat} {as bs X0 Y0 : List Nat} {prev next : Nat}
    (h : NodeRing m root (as ++ p :: bs)) (hX : root :: as = X0 ++ [prev])
    (hY : bs ++ [root] = next :: Y0) (h1 : Link m2 prev next)
    (hr : ∀ q, q ≠ prev → q ≠ p → m2.right q = m.right q)
    (hl : ∀ q, q ≠ next → q ≠ p → m2.left q = m.left q) :
    NodeRing m2 root (as ++ bs) := by
  have hperm : (root :: (as ++ p :: bs)).Perm (p :: root :: (as ++ bs)) :=
    (List.Perm.cons root List.perm_middle).trans (List.Perm.swap p root _)
  have hnd0 := hperm.nodup_iff.1 h.1
  have hnd : (root :: (as ++ bs)).Nodup := (List.nodup_cons.1 hnd0).2
  have hp : p ∉ root :: (as ++ bs) := (List.nodup_cons.1 hnd0).1
  obtain ⟨p1, p2, p3, p4, p5, p6, p7, p8, p9, p10⟩ := ring_parts hnd hX hY
  have hne : ∀ x, x ∈ root :: (as ++ bs) → x ≠ p := fun x hx e => hp (e ▸ hx)
  have hinX : ∀ x, x ∈ root :: as → x ∈ root :: (as ++ bs) := by
    intro x hx
    rcases List.mem_cons.1 hx with rfl | hx
    · simp
    · simp [hx]
  have hinY : ∀ x, x ∈ bs ++ [root] → x ∈ root :: (as ++ bs) := by
    intro x hx
    rcases List.mem_append.1 hx with hx | hx
    · simp [hx]
    · simp only [List.mem_singleton] at hx
      simp [hx]
  refine ⟨hnd, ?_⟩
  have hc : List.Chain' (Link m) (X0 ++ prev :: p :: next :: Y0) := by
    have := h.2
    rwa [List.cons_append, List.append_assoc, ← List.cons_append, hX, List.cons_append, hY,
      List.append_assoc, List.singleton_append] at this
  rw [List.chain'_split, List.chain'_cons, List.chain'_cons] at hc
  have hgoal : root :: (as ++ bs) ++ [root] = X0 ++ prev :: next :: Y0 := by
    rw [List.cons_append, List.append_assoc, ← List.cons_append, hX, hY,
      List.append_assoc, List.singleton_append]
  rw [hgoal, List.chain'_split, List.chain'_cons]
  refine ⟨chain_frame _ hc.1 ?_ ?_, h1, chain_frame _ hc.2.2.2 ?_ ?_⟩
  · intro a ha
    rw [List.dropLast_concat] at ha
    exact hr a (fun e => p1 (e ▸ ha)) (hne a (hinX a (p3 a ha)))
  · intro b hb
    rw [p9] at hb
    exact hl b (fun e => p4 (e ▸ hb)) (hne b (hinX b (List.mem_cons_of_mem _ hb)))
  · intro a ha
    rw [p10] at ha
    exact hr a (fun e => p5 (e ▸ ha)) (hne a (hinY a (List.mem_append_left _ ha)))
  · intro b hb
    rw [List.tail_cons] at hb
    exact hl b (fun e => p6 (e ▸ hb)) (hne b (hinY b (p8 b hb)))

/-- A ring survives a change of memory that leaves the links of its nodes alone. -/
theorem ring_frame {m m2 : Mem T} {root : Nat} {ns : List Nat} (h : NodeRing m root ns)
    (hr : ∀ q ∈ root :: ns, m2.right q = m.right q)
    (hl : ∀ q ∈ root :: ns, m2.left q = m.left q) : NodeRing m2 root ns := by
  refine ⟨h.1, chain_frame _ h.2 ?_ ?_⟩
  · intro a ha
    rw [List.dropLast_concat] at ha
    exact hr a ha
  · intro b hb
    rw [List.cons_append, List.tail_cons] at hb
    rcases List.mem_append.1 hb with hb | hb
    · exact hl b (List.mem_cons_of_mem _ hb)
    · rw [List.mem_singleton] at hb
      subst hb
      exact hl b (List.mem_cons_self _ _)

/-- Every sequence ends in some element once something is in front of it. -/
theorem exists_snoc (a : Nat) (l : List Nat) : ∃ X0 prev, a :: l = X0 ++ [prev] := by
  rcases List.eq_nil_or_concat (a :: l) with h | ⟨X0, prev, h⟩
  · cases h
  · exact ⟨X0, prev, by rw [h, List.concat_eq_append]⟩

theorem exists_cons (l : List Nat) (a : Nat) : ∃ next Y0, l ++ [a] = next :: Y0 := by
  cases l with
  | nil => exact ⟨a, [], rfl⟩
  | cons b l => exact ⟨b, l ++ [a], rfl⟩

end RingLemmas

section OpSpecs

variable {T : Type}

theorem LinkedList.Shape.nodes_eq {l : LinkedList} {m : Mem T} {ns : List Nat}
    (h : l.Shape m ns) : l.nodes m = ns := by
  have h1 := h.1.walk_right
  rw [h.2.1] at h1
  exact h1

theorem LinkedList.Shape.nodesRev_eq {l : LinkedList} {m : Mem T} {ns : List Nat}
    (h : l.Shape m ns) : l.nodesRev m = ns.reverse := by
  have h1 := h.1.walk_left
  rw [h.2.1] at h1
  exact h1

theorem LinkedList.Shape.wf {l : LinkedList} {m : Mem T} {ns : List Nat} (hm : MemOK m)
    (h : l.Shape m ns) : l.WF m := by
  refine ⟨hm, ?_, ?_⟩
  · rw [h.nodes_eq]
    exact h.1
  · unfold LinkedList.owned
    rw [h.nodes_eq]
    exact h.2.2

theorem LinkedList.WF.shape {l : LinkedList} {m : Mem T} (h : l.WF m) :
    l.Shape m (l.nodes m) :=
  ⟨h.2.1, walk_length _ _ _, h.2.2⟩

/-- The nodes of a list are fewer than the live nodes allow. -/
theorem LinkedList.Shape.size_lt {l : LinkedList} {m : Mem T} {ns : List Nat} (hm : MemOK m)
    (h : l.Shape m ns) : l.sz + 1 ≤ m.live.length ∧ m.live.length < 2 ^ 64 := by
  have h1 := (List.subperm_of_subset h.1.1 (fun p hp => h.2.2 p hp)).length_le
  rw [List.length_cons, h.2.1] at h1
  exact ⟨h1, length_lt_of_addresses _ hm.1 hm.2⟩

theorem Effect.trans {m m1 m2 : Mem T} {own own1 own2 : List Nat}
    (h1 : Effect m own m1 own1) (h2 : Effect m1 own1 m2 own2) : Effect m own m2 own2 := by
  refine ⟨h2.memOK, h2.live, ?_, ?_⟩
  · intro p hp
    rcases h2.fresh p hp with h | h
    · exact h1.fresh p h
    · by_cases hl : p ∈ m.live
      · by_cases ho : p ∈ own
        · exact Or.inl ho
        · exact absurd (h1.frame p hl ho).1 h
      · exact Or.inr hl
  · intro q hq ho
    obtain ⟨a1, a2, a3, a4⟩ := h1.frame q hq ho
    have ho1 : q ∉ own1 := by
      intro h
      rcases h1.fresh q h with h | h
      · exact ho h
      · exact h hq
    obtain ⟨b1, b2, b3, b4⟩ := h2.frame q a1 ho1
    exact ⟨b1, b2.trans a2, b3.trans a3, b4.trans a4⟩

/-- Specification of `putAfter(ptr, value)` at the node `ptr` that ends `root :: as`: the new node is the
one the allocator returns and it sits between `as` and `bs`. -/
theorem putAfter_spec {l : LinkedList} {m m1 : Mem T} {ptr tmp : Nat} {as bs X0 : List Nat}
    (v : T) (hm : MemOK m) (hs : l.Shape m (as ++ bs)) (hX : l.root :: as = X0 ++ [ptr])
    (ha : m.allocate = Except.ok (tmp, m1)) :
    ∃ m2, l.putAfter m ptr v = Except.ok (⟨l.root, l.sz + 1⟩, m2) ∧
      LinkedList.Shape ⟨l.root, l.sz + 1⟩ m2 (as ++ tmp :: bs) ∧
      Effect m (l.root :: (as ++ bs)) m2 (l.root :: (as ++ tmp :: bs)) ∧
      m2.value tmp = v ∧ (∀ q, q ≠ tmp → m2.value q = m.value q) ∧
      m2.live = tmp :: m.live ∧ m2.supply = m1.supply := by
  obtain ⟨a0, a64, afresh, alive, aleft, aright, avalue, -⟩ := Mem.allocate_ok ha
  obtain ⟨next, Y0, hY⟩ := exists_cons bs l.root
  have hgap := ring_link_gap hs.1 hX hY
  have hm1 : MemOK m1 := hm.allocate ha
  have htmp : tmp ∉ l.root :: (as ++ bs) := fun h => afresh (hs.2.2 tmp h)
  obtain ⟨p1, p2, p3, p4, p5, p6, p7, p8, p9, p10⟩ := ring_parts hs.1.1 hX hY
  have hptr : ptr ≠ tmp := by
    intro e
    apply htmp
    rw [← e]
    rcases List.mem_cons.1 p2 with h | h
    · simp [h]
    · simp [h]
  have hnext : next ≠ tmp := by
    intro e
    apply htmp
    rw [← e]
    rcases List.mem_append.1 p7 with h | h
    · simp [h]
    · simp only [List.mem_singleton] at h
      simp [h]
  have hsz : incSizeT l.sz = l.sz + 1 := by
    have h1 := hs.size_lt hm
    have h2 := length_lt_of_addresses _ hm1.1 hm1.2
    rw [alive, List.length_cons] at h2
    exact Nat.mod_eq_of_lt (by omega)
  have hr3 : ((m1.construct tmp v ptr (m1.right ptr)).setRight ptr tmp).right tmp = next := by
    simp [hptr.symm, aright, hgap.1]
  refine ⟨(((m1.construct tmp v ptr (m1.right ptr)).setRight ptr tmp).setLeft next tmp), ?_, ?_,
    ?_, ?_, ?_, ?_, ?_⟩
  · simp only [LinkedList.putAfter, ha, hsz, hr3]
  · refine ⟨ring_insert hs.1 hX hY htmp ?_ ?_ ?_ ?_, ?_, ?_⟩
    · exact ⟨by simp, by simp [hnext.symm]⟩
    · exact ⟨by simp [hptr.symm, aright, hgap.1], by simp⟩
    · intro q h1 h2
      simp [h1, h2, aright]
    · intro q h1 h2
      simp [h1, h2, aleft]
    · simp only [List.length_append, List.length_cons]
      have := hs.2.1
      simp only [List.length_append] at this
      omega
    · intro p hp
      simp only [Mem.setLeft_live, Mem.setRight_live, Mem.construct_live, alive]
      have : p = tmp ∨ p ∈ l.root :: (as ++ bs) := by
        simp only [List.mem_cons, List.mem_append] at hp ⊢
        tauto
      rcases this with h | h
      · simp [h]
      · exact List.mem_cons_of_mem _ (hs.2.2 p h)
  · refine ⟨⟨hm1.1, hm1.2⟩, ?_, ?_, ?_⟩
    · intro p hp
      simp only [Mem.setLeft_live, Mem.setRight_live, Mem.construct_live, alive]
      have : p = tmp ∨ p ∈ l.root :: (as ++ bs) := by
        simp only [List.mem_cons, List.mem_append] at hp ⊢
        tauto
      rcases this with h | h
      · simp [h]
      · exact List.mem_cons_of_mem _ (hs.2.2 p h)
    · intro p hp
      have : p = tmp ∨ p ∈ l.root :: (as ++ bs) := by
        simp only [List.mem_cons, List.mem_append] at hp ⊢
        tauto
      rcases this with h | h
      · exact Or.inr (h ▸ afresh)
      · exact Or.inl h
    · intro q hq ho
      have hq1 : q ≠ tmp := fun e => afresh (e ▸ hq)
      have hq2 : q ≠ ptr := by
        intro e
        apply ho
        rw [e]
        rcases List.mem_cons.1 p2 with h | h
        · simp [h]
        · simp [h]
      have hq3 : q ≠ next := by
        intro e
        apply ho
        rw [e]
        rcases List.mem_append.1 p7 with h | h
        · simp [h]
        · simp only [List.mem_singleton] at h
          simp [h]
      refine ⟨?_, ?_, ?_, ?_⟩
      · simp only [Mem.setLeft_live, Mem.setRight_live, Mem.construct_live, alive]
        exact List.mem_cons_of_mem _ hq
      · simp [hq1, hq3, aleft]
      · simp [hq1, hq2, aright]
      · simp [hq1, avalue]
  · simp
  · intro q hq
    simp [hq, avalue]
  · simp [alive]
  · simp

/-- Function `emplace_back` performs the same allocation and the same stores as `push_back`. -/
theorem emplace_back_eq_push_back (l : LinkedList) (m : Mem T) (v : T) :
    l.emplace_back m v = l.push_back m v := by
  unfold LinkedList.emplace_back LinkedList.push_back LinkedList.putAfter
    LinkedList.putAfterNode
  cases h : m.allocate with
  | error e => rfl
  | ok r =>
    obtain ⟨tmp, m1⟩ := r
    obtain ⟨-, -, -, -, aleft, -, -, -⟩ := Mem.allocate_ok h
    simp only [Mem.setValue_left, Mem.setValue_right, aleft]
    rfl

/-- Specification of `del(ptr)` on a payload node: the assertion holds, the node is unlinked and given
back, nothing else moves. -/
theorem del_spec {l : LinkedList} {m : Mem T} {p : Nat} {as bs : List Nat}
    (hm : MemOK m) (hs : l.Shape m (as ++ p :: bs)) :
    ∃ m2, l.del m p = Except.ok (⟨l.root, l.sz - 1⟩, m2) ∧
      LinkedList.Shape ⟨l.root, l.sz - 1⟩ m2 (as ++ bs) ∧
      Effect m (l.root :: (as ++ p :: bs)) m2 (l.root :: (as ++ bs)) ∧
      m2.value = m.value ∧ m2.live = m.live.erase p ∧ m2.supply = m.supply := by
  obtain ⟨X0, prev, hX⟩ := exists_snoc l.root as
  obtain ⟨next, Y0, hY⟩ := exists_cons bs l.root
  obtain ⟨hl1, hl2⟩ := ring_links hs.1 hX hY
  have hperm : (l.root :: (as ++ p :: bs)).Perm (p :: l.root :: (as ++ bs)) :=
    (List.Perm.cons l.root List.perm_middle).trans (List.Perm.swap p l.root _)
  have hnd0 := hperm.nodup_iff.1 hs.1.1
  have hp : p ∉ l.root :: (as ++ bs) := (List.nodup_cons.1 hnd0).1
  obtain ⟨p1, p2, p3, p4, p5, p6, p7, p8, p9, p10⟩ := ring_parts (List.nodup_cons.1 hnd0).2 hX hY
  have hproot : p ≠ l.root := fun e => hp (e ▸ List.mem_cons_self _ _)
  have hpprev : p ≠ prev := by
    intro e
    apply hp
    rw [e]
    rcases List.mem_cons.1 p2 with h | h
    · simp [h]
    · simp [h]
  have hplive : p ∈ m.live := hs.2.2 p (by simp)
  have hsz : decSizeT l.sz = l.sz - 1 := by
    have h1 := hs.size_lt hm
    have h2 := hs.2.1
    simp only [List.length_append, List.length_cons] at h2
    unfold decSizeT
    have h3 : l.sz + 2 ^ 64 - 1 = (l.sz - 1) + 2 ^ 64 := by omega
    rw [h3, Nat.add_mod_right]
    exact Nat.mod_eq_of_lt (by omega)
  have hsub : ∀ q, q ∈ l.root :: (as ++ bs) → q ∈ m.live.erase p := by
    intro q hq
    have hne : q ≠ p := fun e => hp (e ▸ hq)
    refine (List.mem_erase_of_ne hne).2 (hs.2.2 q ?_)
    simp only [List.mem_cons, List.mem_append] at hq ⊢
    rcases hq with h | h | h <;> simp [h]
  have hmok : MemOK ({ (m.setRight prev next).setLeft next prev with
      live := m.live.erase p } : Mem T) := by
    constructor
    · exact hm.1.erase p
    · intro q hq
      exact hm.2 q (List.mem_of_mem_erase hq)
  refine ⟨{ (m.setRight prev next).setLeft next prev with live := m.live.erase p }, ?_, ?_, ?_,
    rfl, rfl, rfl⟩
  · have e1 : (m.setRight prev next).right p = next := by
      simp [hl2.1, hpprev]
    unfold LinkedList.del
    rw [if_neg hproot]
    simp only [hl1.2, hl2.1, Mem.setRight_left, hsz]
    rw [e1, Mem.deallocate_ok (by simpa using hplive)]
    rfl
  · refine ⟨ring_erase hs.1 hX hY ⟨?_, ?_⟩ ?_ ?_, ?_, hsub⟩
    · show (if prev = prev then next else m.right prev) = next
      simp
    · show (if next = next then prev else m.left next) = prev
      simp
    · intro q h1 _
      show (if q = prev then next else m.right q) = m.right q
      simp [h1]
    · intro q h1 _
      show (if q = next then prev else m.left q) = m.left q
      simp [h1]
    · have h2 := hs.2.1
      simp only [List.length_append, List.length_cons] at h2 ⊢
      show as.length + bs.length = l.sz - 1
      omega
  · refine ⟨hmok, hsub, fun q hq => Or.inl ?_, ?_⟩
    · simp only [List.mem_cons, List.mem_append] at hq ⊢
      rcases hq with h | h | h <;> simp [h]
    · intro q hq ho
      have hq1 : q ≠ p := fun e => ho (by simp [e])
      have hq2 : q ≠ prev := by
        intro e
        apply ho
        rw [e]
        rcases List.mem_cons.1 p2 with h | h
        · simp [h]
        · simp [h]
      have hq3 : q ≠ next := by
        intro e
        apply ho
        rw [e]
        rcases List.mem_append.1 p7 with h | h
        · simp [h]
        · simp only [List.mem_singleton] at h
          simp [h]
      refine ⟨(List.mem_erase_of_ne hq1).2 hq, ?_, ?_, rfl⟩
      · show (if q = next then prev else m.left q) = m.left q
        simp [hq3]
      · show (if q = prev then next else m.right q) = m.right q
        simp [hq2]

end OpSpecs

section BulkSpecs

variable {T : Type}

theorem Effect.drop {m m2 : Mem T} {own own2 : List Nat} (h : Effect m own m2 own2) :
    Effect m own m2 [] :=
  ⟨h.memOK, fun _ hp => absurd hp (List.not_mem_nil _),
    fun _ hp => absurd hp (List.not_mem_nil _), h.frame⟩

/-- An operation that changes nothing. -/
theorem Effect.refl {m : Mem T} {own : List Nat} (hm : MemOK m) (h : ∀ p ∈ own, p ∈ m.live) :
    Effect m own m own :=
  ⟨hm, h, fun _ hp => Or.inl hp, fun _ hq _ => ⟨hq, rfl, rfl, rfl⟩⟩

/-- One iteration of the loop of `genList` appends the node the allocator returns. -/
theorem genStep_spec {root n : Nat} {m m1 : Mem T} {left tmp : Nat} {ns X0 : List Nat}
    (hm : MemOK m) (hs : LinkedList.Shape ⟨root, n⟩ m ns) (hX : root :: ns = X0 ++ [left])
    (ha : m.allocate = Except.ok (tmp, m1)) :
    LinkedList.Shape ⟨root, n + 1⟩
        ((((m1.setRight left tmp).setLeft tmp left).setLeft root tmp).setRight tmp root)
        (ns ++ [tmp]) ∧
      Effect m (root :: ns)
        ((((m1.setRight left tmp).setLeft tmp left).setLeft root tmp).setRight tmp root)
        (root :: (ns ++ [tmp])) ∧
      root :: (ns ++ [tmp]) = (root :: ns) ++ [tmp] := by
  obtain ⟨a0, a64, afresh, alive, aleft, aright, avalue, -⟩ := Mem.allocate_ok ha
  have hm1 : MemOK m1 := hm.allocate ha
  have hs0 : LinkedList.Shape ⟨root, n⟩ m (ns ++ []) := by rwa [List.append_nil]
  have htmp : tmp ∉ root :: (ns ++ []) := by
    rw [List.append_nil]
    exact fun h => afresh (hs.2.2 tmp h)
  have hY : ([] : List Nat) ++ [root] = root :: [] := rfl
  obtain ⟨p1, p2, p3, p4, p5, p6, p7, p8, p9, p10⟩ := ring_parts hs0.1.1 hX hY
  have hleft : left ≠ tmp := fun e => afresh (hs.2.2 tmp (e ▸ p2))
  have hroot : root ≠ tmp := fun e => afresh (hs.2.2 tmp (e ▸ List.mem_cons_self _ _))
  have hlive : ∀ p, p ∈ root :: (ns ++ [tmp]) → p ∈ tmp :: m.live := by
    intro p hp
    have : p = tmp ∨ p ∈ root :: ns := by
      simp only [List.mem_cons, List.mem_append, List.mem_singleton, List.not_mem_nil,
        or_false] at hp ⊢
      rcases hp with h | h | h
      · exact Or.inr (Or.inl h)
      · exact Or.inr (Or.inr h)
      · exact Or.inl h
    rcases this with h | h
    · simp [h]
    · exact List.mem_cons_of_mem _ (hs.2.2 p h)
  refine ⟨⟨ring_insert hs0.1 hX hY htmp ?_ ?_ ?_ ?_, ?_, ?_⟩, ⟨?_, ?_, ?_, ?_⟩, rfl⟩
  · exact ⟨by simp [hleft], by simp [hroot.symm]⟩
  · exact ⟨by simp, by simp⟩
  · intro q h1 h2
    simp [h1, h2, aright]
  · intro q h1 h2
    simp [h1, h2, aleft]
  · simp only [List.length_append, List.length_singleton]
    have := hs.2.1
    simp only at this ⊢
    omega
  · intro p hp
    simp only [Mem.setLeft_live, Mem.setRight_live, alive]
    exact hlive p hp
  · exact ⟨hm1.1, hm1.2⟩
  · intro p hp
    simp only [Mem.setLeft_live, Mem.setRight_live, alive]
    exact hlive p hp
  · intro p hp
    simp only [List.mem_cons, List.mem_append, List.mem_singleton, List.not_mem_nil,
      or_false] at hp
    rcases hp with h | h | h
    · exact Or.inl (by simp [h])
    · exact Or.inl (by simp [h])
    · exact Or.inr (h ▸ afresh)
  · intro q hq ho
    have hq1 : q ≠ tmp := fun e => afresh (e ▸ hq)
    have hq2 : q ≠ left := fun e => ho (e ▸ p2)
    have hq3 : q ≠ root := fun e => ho (by simp [e])
    refine ⟨?_, ?_, ?_, ?_⟩
    · simp only [Mem.setLeft_live, Mem.setRight_live, alive]
      exact List.mem_cons_of_mem _ hq
    · simp [hq1, hq3, aleft]
    · simp [hq1, hq2, aright]
    · simp [avalue]

/-- The loop of `genList`, when every allocation succeeds: `k` new nodes are appended. -/
theorem genLoop_spec {root : Nat} : ∀ (k n : Nat) (m m2 : Mem T) (left : Nat)
    (ns X0 : List Nat), MemOK m → LinkedList.Shape ⟨root, n⟩ m ns → root :: ns = X0 ++ [left] →
    LinkedList.genLoop root k left m = Except.ok m2 →
    ∃ ns2, LinkedList.Shape ⟨root, n + k⟩ m2 (ns ++ ns2) ∧ ns2.length = k ∧
      Effect m (root :: ns) m2 (root :: (ns ++ ns2)) ∧ m2.value = m.value
  | 0, n, m, m2, left, ns, X0, hm, hs, _, h => by
    simp only [LinkedList.genLoop, Except.ok.injEq] at h
    subst h
    refine ⟨[], ?_, rfl, ?_, rfl⟩
    · rwa [List.append_nil]
    · rw [List.append_nil]
      exact Effect.refl hm hs.2.2
  | k + 1, n, m, m2, left, ns, X0, hm, hs, hX, h => by
    unfold LinkedList.genLoop at h
    cases ha : m.allocate with
    | error e => rw [ha] at h; cases h
    | ok r =>
      obtain ⟨tmp, m1⟩ := r
      rw [ha] at h
      simp only at h
      obtain ⟨s1, e1, x1⟩ := genStep_spec hm hs hX ha
      obtain ⟨ns2, s2, len2, e2, v2⟩ := genLoop_spec k (n + 1) _ m2 tmp (ns ++ [tmp]) (root :: ns)
        e1.memOK s1 x1 h
      refine ⟨tmp :: ns2, ?_, by simp [len2], ?_, ?_⟩
      · have : ns ++ tmp :: ns2 = ns ++ [tmp] ++ ns2 := by simp
        rw [this]
        have hn : n + (k + 1) = n + 1 + k := by omega
        rw [hn]
        exact s2
      · have : ns ++ tmp :: ns2 = ns ++ [tmp] ++ ns2 := by simp
        rw [this]
        exact e1.trans e2
      · rw [v2]
        obtain ⟨-, -, -, -, -, -, avalue, -⟩ := Mem.allocate_ok ha
        simp [avalue]

theorem genLoop_error {root : Nat} : ∀ (k : Nat) (m : Mem T) (left : Nat) (e : Fault),
    LinkedList.genLoop root k left m = Except.error e → e = Fault.badAlloc
  | 0, _, _, _, h => by cases h
  | k + 1, m, left, e, h => by
    unfold LinkedList.genLoop at h
    cases ha : m.allocate with
    | error e2 =>
      rw [ha] at h
      cases h
      exact Mem.allocate_error ha
    | ok r =>
      obtain ⟨tmp, m1⟩ := r
      rw [ha] at h
      exact genLoop_error k _ tmp e h

/-- A fresh sentinel linked to itself is an empty list. -/
theorem sentinel_spec {m m1 : Mem T} {root : Nat} (hm : MemOK m)
    (ha : m.allocate = Except.ok (root, m1)) :
    LinkedList.Shape ⟨root, 0⟩ ((m1.setLeft root root).setRight root root) [] ∧
      Effect m [] ((m1.setLeft root root).setRight root root) [root] ∧
      ((m1.setLeft root root).setRight root root).value = m.value := by
  obtain ⟨a0, a64, afresh, alive, aleft, aright, avalue, -⟩ := Mem.allocate_ok ha
  have hm1 : MemOK m1 := hm.allocate ha
  refine ⟨⟨⟨List.nodup_singleton _, ?_⟩, rfl, ?_⟩, ⟨⟨hm1.1, hm1.2⟩, ?_, ?_, ?_⟩, ?_⟩
  · show List.Chain' _ [root, root]
    rw [List.chain'_cons]
    exact ⟨⟨by simp, by simp⟩, List.chain'_singleton _⟩
  · intro p hp
    simp only [List.mem_singleton] at hp
    simp [hp, alive]
  · intro p hp
    simp only [List.mem_singleton] at hp
    simp [hp, alive]
  · intro p hp
    simp only [List.mem_singleton] at hp
    exact Or.inr (hp ▸ afresh)
  · intro q hq _
    have hq1 : q ≠ root := fun e => afresh (e ▸ hq)
    exact ⟨by simp [alive, hq], by simp [hq1, aleft], by simp [hq1, aright], by simp [avalue]⟩
  · simp [avalue]

/-- Function `genList(sz)`, when every allocation succeeds, builds a list of `sz` new nodes. -/
theorem genList_spec {m m2 : Mem T} {sz : Nat} {l : LinkedList} (hm : MemOK m)
    (h : LinkedList.genList m sz = Except.ok (l, m2)) :
    ∃ ns, l.sz = sz ∧ l.Shape m2 ns ∧ Effect m [] m2 (l.root :: ns) ∧ m2.value = m.value := by
  unfold LinkedList.genList at h
  cases ha : m.allocate with
  | error e => rw [ha] at h; cases h
  | ok r =>
    obtain ⟨root, m1⟩ := r
    rw [ha] at h
    simp only at h
    obtain ⟨s0, e0, v0⟩ := sentinel_spec hm ha
    split at h
    · next hz =>
      cases h
      subst hz
      exact ⟨[], rfl, s0, e0, v0⟩
    · cases hg : LinkedList.genLoop root sz root ((m1.setLeft root root).setRight root root) with
      | error e => rw [hg] at h; cases h
      | ok m3 =>
        rw [hg] at h
        obtain ⟨ns2, s2, _, e2, v2⟩ := genLoop_spec sz 0 _ m3 root [] [] e0.memOK s0 rfl hg
        cases h
        refine ⟨ns2, rfl, ?_, ?_, v2.trans v0⟩
        · simpa using s2
        · exact e0.trans (by simpa using e2)

theorem genList_error {m : Mem T} {sz : Nat} {e : Fault}
    (h : LinkedList.genList m sz = Except.error e) : e = Fault.badAlloc := by
  unfold LinkedList.genList at h
  cases ha : m.allocate with
  | error e2 =>
    rw [ha] at h
    cases h
    exact Mem.allocate_error ha
  | ok r =>
    obtain ⟨root, m1⟩ := r
    rw [ha] at h
    simp only at h
    split at h
    · cases h
    · cases hg : LinkedList.genLoop root sz root ((m1.setLeft root root).setRight root root) with
      | error e2 =>
        rw [hg] at h
        cases h
        exact genLoop_error _ _ _ _ hg
      | ok m3 => rw [hg] at h; cases h

end BulkSpecs

section LoopSpecs

variable {T : Type}

/-- The loop of `destroy` gives back the nodes it walks over and stops behind them. -/
theorem destroyLoop_spec : ∀ (ns : List Nat) (r r2 : Nat) (m : Mem T),
    walk m.right (ns.length + 1) r = ns ++ [r2] → ns.Nodup → (∀ p ∈ ns, p ∈ m.live) →
    LinkedList.destroyLoop ns.length r m = Except.ok (r2, { m with live := m.live.diff ns })
  | [], r, r2, m, hw, _, _ => by
    simp only [walk, List.length_nil, List.nil_append, List.cons.injEq, and_true] at hw
    subst hw
    rfl
  | a :: ns, r, r2, m, hw, hnd, hlive => by
    have hw1 : r :: walk m.right (ns.length + 1) (m.right r) = a :: (ns ++ [r2]) := hw
    obtain ⟨e0, hw2⟩ := List.cons.inj hw1
    subst e0
    have ha : r ∈ m.live := hlive r (List.mem_cons_self _ _)
    have hnd2 := List.nodup_cons.1 hnd
    show (match m.deallocate r with
      | Except.error e => Except.error e
      | Except.ok m1 => LinkedList.destroyLoop ns.length (m.right r) m1) = _
    rw [Mem.deallocate_ok ha]
    simp only
    have ih := destroyLoop_spec ns (m.right r) r2 { m with live := m.live.erase r } hw2 hnd2.2
      (fun p hp => (List.mem_erase_of_ne (fun (e : p = r) => hnd2.1 (e ▸ hp))).2
        (hlive p (List.mem_cons_of_mem _ hp)))
    rw [ih, List.diff_cons]

/-- Function `destroy()` on a well-formed list gives back exactly its nodes. -/
theorem destroy_spec {l : LinkedList} {m : Mem T} {ns : List Nat} (hm : MemOK m)
    (hs : l.Shape m ns) :
    l.destroy m = Except.ok (⟨0, 0⟩, { m with live := m.live.diff (l.root :: ns) }) ∧
      Effect m (l.root :: ns) { m with live := m.live.diff (l.root :: ns) } [] := by
  have hw : walk m.right (ns.length + 1) (m.right l.root) = ns ++ [l.root] := by
    have := walk_chain m.right (ns ++ [l.root]) l.root hs.1.right_chain
    rwa [List.length_append, List.length_singleton] at this
  have hnd := List.nodup_cons.1 hs.1.1
  have h1 := destroyLoop_spec ns (m.right l.root) l.root m hw hnd.2
    (fun p hp => hs.2.2 p (List.mem_cons_of_mem _ hp))
  rw [hs.2.1] at h1
  have hroot : l.root ∈ m.live.diff ns :=
    List.mem_diff_of_mem (hs.2.2 _ (List.mem_cons_self _ _)) hnd.1
  refine ⟨?_, ?_, ?_, ?_, ?_⟩
  · unfold LinkedList.destroy
    rw [h1]
    simp only
    rw [Mem.deallocate_ok (by simpa using hroot)]
    simp only [List.diff_cons_right]
  · constructor
    · exact hm.1.diff
    · intro q hq
      exact hm.2 q (List.diff_subset _ _ hq)
  · intro p hp
    exact absurd hp (List.not_mem_nil _)
  · intro p hp
    exact absurd hp (List.not_mem_nil _)
  · intro q hq ho
    exact ⟨List.mem_diff_of_mem hq ho, rfl, rfl, rfl⟩

theorem construct_self (m : Mem T) (p : Nat) (v : T) :
    (m.construct p v (m.left p) (m.right p)).left = m.left ∧
      (m.construct p v (m.left p) (m.right p)).right = m.right := by
  constructor
  · funext q
    by_cases h : q = p
    · simp [h]
    · simp [h]
  · funext q
    by_cases h : q = p
    · simp [h]
    · simp [h]

/-- The loop of the count constructor ends when it has rewritten every node of the ring,
for any bound that is at least their number; it changes values only. -/
theorem fillLoop_spec {root : Nat} (v : T) : ∀ (rest : List Nat) (fuel it : Nat) (m : Mem T),
    walk m.right (rest.length + 1) it = rest ++ [root] → root ∉ rest → rest.length ≤ fuel →
    ∃ m2, LinkedList.fillLoop root v fuel it m = Except.ok m2 ∧ m2.left = m.left ∧
      m2.right = m.right ∧ m2.live = m.live ∧ m2.supply = m.supply ∧
      (∀ q ∈ rest, m2.value q = v) ∧ ∀ q, q ∉ rest → m2.value q = m.value q
  | [], fuel, it, m, hw, _, _ => by
    simp only [walk, List.length_nil, List.nil_append, List.cons.injEq, and_true] at hw
    subst hw
    refine ⟨m, ?_, rfl, rfl, rfl, rfl, fun q hq => absurd hq (List.not_mem_nil _),
      fun _ _ => rfl⟩
    cases fuel <;> simp [LinkedList.fillLoop]
  | a :: rest, fuel, it, m, hw, hroot, hfuel => by
    have hw1 : it :: walk m.right (rest.length + 1) (m.right it) = a :: (rest ++ [root]) := hw
    obtain ⟨e0, hw3⟩ := List.cons.inj hw1
    subst e0
    have hne : it ≠ root := fun e => hroot (e ▸ List.mem_cons_self _ _)
    obtain ⟨f, rfl⟩ : ∃ f, fuel = f + 1 := ⟨fuel - 1, by simp only [List.length_cons] at hfuel; omega⟩
    obtain ⟨cl, cr⟩ := construct_self m it v
    have hw2 : walk (m.construct it v (m.left it) (m.right it)).right (rest.length + 1)
        ((m.construct it v (m.left it) (m.right it)).right it) = rest ++ [root] := by
      rw [cr]
      exact hw3
    obtain ⟨m2, h1, h2, h3, h4, h5, h6, h7⟩ := fillLoop_spec v rest f _ _ hw2
      (fun h => hroot (List.mem_cons_of_mem _ h))
      (by simp only [List.length_cons] at hfuel; omega)
    refine ⟨m2, ?_, h2.trans cl, h3.trans cr, h4, h5, ?_, ?_⟩
    · unfold LinkedList.fillLoop
      rw [if_neg hne]
      exact h1
    · intro q hq
      by_cases hqr : q ∈ rest
      · exact h6 q hqr
      · rw [h7 q hqr]
        rcases List.mem_cons.1 hq with h | h
        · simp [h]
        · exact absurd h hqr
    · intro q hq
      have hq1 : q ≠ it := fun e => hq (e ▸ List.mem_cons_self _ _)
      rw [h7 q (fun h => hq (List.mem_cons_of_mem _ h))]
      simp [hq1]

theorem constructDefault_self (m : Mem T) (p : Nat) (init : T → T) :
    (m.constructDefault p init (m.left p) (m.right p)).left = m.left ∧
      (m.constructDefault p init (m.left p) (m.right p)).right = m.right := by
  constructor
  · funext q
    by_cases h : q = p
    · simp [h]
    · simp [h]
  · funext q
    by_cases h : q = p
    · simp [h]
    · simp [h]

/-- The loop of the constructor `List(count, alloc)` ends when it has gone over every node
of the ring, for any bound that is at least their number; it changes values of these
nodes only. -/
theorem fillDefaultLoop_spec {root : Nat} (init : T → T) :
    ∀ (rest : List Nat) (fuel it : Nat) (m : Mem T),
    walk m.right (rest.length + 1) it = rest ++ [root] → root ∉ rest → rest.length ≤ fuel →
    ∃ m2, LinkedList.fillDefaultLoop root init fuel it m = Except.ok m2 ∧ m2.left = m.left ∧
      m2.right = m.right ∧ m2.live = m.live ∧ m2.supply = m.supply ∧
      ∀ q, q ∉ rest → m2.value q = m.value q
  | [], fuel, it, m, hw, _, _ => by
    simp only [walk, List.length_nil, List.nil_append, List.cons.injEq, and_true] at hw
    subst hw
    refine ⟨m, ?_, rfl, rfl, rfl, rfl, fun _ _ => rfl⟩
    cases fuel <;> simp [LinkedList.fillDefaultLoop]
  | a :: rest, fuel, it, m, hw, hroot, hfuel => by
    have hw1 : it :: walk m.right (rest.length + 1) (m.right it) = a :: (rest ++ [root]) := hw
    obtain ⟨e0, hw3⟩ := List.cons.inj hw1
    subst e0
    have hne : it ≠ root := fun e => hroot (e ▸ List.mem_cons_self _ _)
    obtain ⟨f, rfl⟩ : ∃ f, fuel = f + 1 := ⟨fuel - 1, by simp only [List.length_cons] at hfuel; omega⟩
    obtain ⟨cl, cr⟩ := constructDefault_self m it init
    have hw2 : walk (m.constructDefault it init (m.left it) (m.right it)).right
        (rest.length + 1)
        ((m.constructDefault it init (m.left it) (m.right it)).right it) = rest ++ [root] := by
      rw [cr]
      exact hw3
    obtain ⟨m2, h1, h2, h3, h4, h5, h7⟩ := fillDefaultLoop_spec init rest f _ _ hw2
      (fun h => hroot (List.mem_cons_of_mem _ h))
      (by simp only [List.length_cons] at hfuel; omega)
    refine ⟨m2, ?_, h2.trans cl, h3.trans cr, h4, h5, ?_⟩
    · unfold LinkedList.fillDefaultLoop
      rw [if_neg hne]
      exact h1
    · intro q hq
      have hq1 : q ≠ it := fun e => hq (e ▸ List.mem_cons_self _ _)
      rw [h7 q (fun h => hq (List.mem_cons_of_mem _ h))]
      simp [hq1]

/-- The copy loop ends when it has rewritten every node of the new ring, for any bound
that is at least their number; node by node it stores the payloads of the source. -/
theorem copyLoop_spec {root : Nat} : ∀ (rest src : List Nat) (fuel cur curLs : Nat) (m : Mem T),
    walk m.right (rest.length + 1) cur = rest ++ [root] → root ∉ rest → rest.length ≤ fuel →
    walk m.right rest.length curLs = src → (∀ s ∈ src, s ∉ rest) → rest.Nodup →
    ∃ m2, LinkedList.copyLoop root fuel cur curLs m = Except.ok m2 ∧ m2.left = m.left ∧
      m2.right = m.right ∧ m2.live = m.live ∧ m2.supply = m.supply ∧
      rest.map m2.value = src.map m.value ∧ ∀ q, q ∉ rest → m2.value q = m.value q
  | [], src, fuel, cur, curLs, m, hw, _, _, hsrc, _, _ => by
    simp only [walk, List.length_nil, List.nil_append, List.cons.injEq, and_true] at hw hsrc
    subst hw
    subst hsrc
    refine ⟨m, ?_, rfl, rfl, rfl, rfl, rfl, fun _ _ => rfl⟩
    cases fuel <;> simp [LinkedList.copyLoop]
  | a :: rest, src, fuel, cur, curLs, m, hw, hroot, hfuel, hsrc, hdisj, hnd => by
    have hw1 : cur :: walk m.right (rest.length + 1) (m.right cur) = a :: (rest ++ [root]) := hw
    obtain ⟨e0, hw3⟩ := List.cons.inj hw1
    subst e0
    have hsrc1 : curLs :: walk m.right rest.length (m.right curLs) = src := hsrc
    subst hsrc1
    have hne : cur ≠ root := fun e => hroot (e ▸ List.mem_cons_self _ _)
    obtain ⟨f, rfl⟩ : ∃ f, fuel = f + 1 := ⟨fuel - 1, by simp only [List.length_cons] at hfuel; omega⟩
    obtain ⟨cl, cr⟩ := construct_self m cur (m.value curLs)
    have hnd2 := List.nodup_cons.1 hnd
    have hw2 : walk (m.construct cur (m.value curLs) (m.left cur) (m.right cur)).right
        (rest.length + 1)
        ((m.construct cur (m.value curLs) (m.left cur) (m.right cur)).right cur) =
        rest ++ [root] := by
      rw [cr]
      exact hw3
    obtain ⟨m2, h1, h2, h3, h4, h5, h6, h7⟩ := copyLoop_spec rest
      (walk m.right rest.length (m.right curLs)) f _
      ((m.construct cur (m.value curLs) (m.left cur) (m.right cur)).right curLs) _ hw2
      (fun h => hroot (List.mem_cons_of_mem _ h))
      (by simp only [List.length_cons] at hfuel; omega)
      (by rw [cr])
      (fun s hs hr => hdisj s (List.mem_cons_of_mem _ hs) (List.mem_cons_of_mem _ hr)) hnd2.2
    refine ⟨m2, ?_, h2.trans cl, h3.trans cr, h4, h5, ?_, ?_⟩
    · unfold LinkedList.copyLoop
      rw [if_neg hne]
      exact h1
    · rw [List.map_cons, List.map_cons, h6, h7 cur hnd2.1]
      have hcur : curLs ≠ cur := fun e =>
        hdisj curLs (List.mem_cons_self _ _) (e ▸ List.mem_cons_self _ _)
      congr 1
      · simp
      · apply List.map_congr_left
        intro s hs
        have : s ≠ cur := fun e =>
          hdisj s (List.mem_cons_of_mem _ hs) (e ▸ List.mem_cons_self _ _)
        simp [this]
    · intro q hq
      have hq1 : q ≠ cur := fun e => hq (e ▸ List.mem_cons_self _ _)
      rw [h7 q (fun h => hq (List.mem_cons_of_mem _ h))]
      simp [hq1]

end LoopSpecs

section WorldLemmas

variable {T : Type}

/-- A list none of whose nodes is in the footprint of an operation keeps its shape. -/
theorem frame_shape {l : LinkedList} {m m2 : Mem T} {ns own own2 : List Nat}
    (hs : l.Shape m ns) (he : Effect m own m2 own2) (hd : ∀ p ∈ l.root :: ns, p ∉ own) :
    l.Shape m2 ns := by
  refine ⟨ring_frame hs.1 ?_ ?_, hs.2.1, ?_⟩
  · intro q hq
    exact (he.frame q (hs.2.2 q hq) (hd q hq)).2.2.1
  · intro q hq
    exact (he.frame q (hs.2.2 q hq) (hd q hq)).2.1
  · intro q hq
    exact (he.frame q (hs.2.2 q hq) (hd q hq)).1

theorem frame_toList {l : LinkedList} {m m2 : Mem T} {ns own own2 : List Nat}
    (hs : l.Shape m ns) (he : Effect m own m2 own2) (hd : ∀ p ∈ l.root :: ns, p ∉ own) :
    l.toList m2 = l.toList m := by
  have hs2 := frame_shape hs he hd
  unfold LinkedList.toList
  rw [hs.nodes_eq, hs2.nodes_eq]
  apply List.map_congr_left
  intro q hq
  exact (he.frame q (hs.2.2 q (List.mem_cons_of_mem _ hq))
    (hd q (List.mem_cons_of_mem _ hq))).2.2.2

/-- The invariant after a member function of object `i` with a footprint inside the nodes
of that object. -/
theorem inv_update {w : World T} {i : Nat} {l l2 : LinkedList} {m2 : Mem T}
    {ns ns2 : List Nat} (hw : w.Inv) (hi : w.lists[i]? = some l) (hs : l.Shape w.mem ns)
    (he : Effect w.mem (l.root :: ns) m2 (l2.root :: ns2)) (hs2 : l2.Shape m2 ns2) :
    World.Inv ⟨m2, w.lists.set i l2⟩ := by
  have hil : i < w.lists.length := (List.getElem?_eq_some.1 hi).1
  have hother : ∀ (k : Nat) (b : LinkedList), k ≠ i → w.lists[k]? = some b →
      b.Shape m2 (b.nodes w.mem) ∧ b.owned m2 = b.owned w.mem := by
    intro k b hk hb
    have hwf := (hw.2.1 k b hb).shape
    have hd : ∀ p ∈ b.root :: b.nodes w.mem, p ∉ l.root :: ns := by
      intro p hp hq
      have := hw.2.2 k i b l hk hb hi p hp
      unfold LinkedList.owned at this
      rw [hs.nodes_eq] at this
      exact this hq
    have h2 := frame_shape hwf he hd
    refine ⟨h2, ?_⟩
    unfold LinkedList.owned
    rw [h2.nodes_eq]
  have hnew : l2.owned m2 = l2.root :: ns2 := by
    unfold LinkedList.owned
    rw [hs2.nodes_eq]
  have hsep : ∀ (k : Nat) (b : LinkedList), k ≠ i → w.lists[k]? = some b →
      ∀ p, p ∈ b.owned w.mem → p ∉ l2.root :: ns2 := by
    intro k b hk hb p hp hq
    rcases he.fresh p hq with h | h
    · have := hw.2.2 k i b l hk hb hi p hp
      unfold LinkedList.owned at this
      rw [hs.nodes_eq] at this
      exact this h
    · exact h ((hw.2.1 k b hb).2.2 p hp)
  have hset : ∀ k : Nat, (w.lists.set i l2)[k]? = if i = k then some l2 else w.lists[k]? := by
    intro k
    rw [List.getElem?_set, if_pos hil]
  refine ⟨he.memOK, ?_, ?_⟩
  · intro k b hb
    simp only [hset] at hb
    split at hb
    · next hik =>
      cases hb
      exact hs2.wf he.memOK
    · next hik =>
      exact (hother k b (fun e => hik e.symm) hb).1.wf he.memOK
  · intro k j a b hkj ha hb p hp hq
    simp only [hset] at ha hb
    split at ha
    · next hik =>
      cases ha
      rw [if_neg (fun e => hkj (hik.symm.trans e))] at hb
      have hj : j ≠ i := fun e => hkj (hik.symm.trans e.symm)
      rw [(hother j b hj hb).2] at hq
      rw [hnew] at hp
      exact hsep j b hj hb p hq hp
    · next hik =>
      have hk : k ≠ i := fun e => hik e.symm
      rw [(hother k a hk ha).2] at hp
      split at hb
      · cases hb
        rw [hnew] at hq
        exact hsep k a hk ha p hp hq
      · next hij =>
        have hj : j ≠ i := fun e => hij e.symm
        rw [(hother j b hj hb).2] at hq
        exact hw.2.2 k j a b hkj ha hb p hp hq

/-- The invariant after a constructor whose footprint is new storage. -/
theorem inv_create {w : World T} {l2 : LinkedList} {m2 : Mem T} {ns2 : List Nat}
    (hw : w.Inv) (he : Effect w.mem [] m2 (l2.root :: ns2)) (hs2 : l2.Shape m2 ns2) :
    World.Inv ⟨m2, w.lists ++ [l2]⟩ := by
  have hother : ∀ (k : Nat) (b : LinkedList), w.lists[k]? = some b →
      b.Shape m2 (b.nodes w.mem) ∧ b.owned m2 = b.owned w.mem := by
    intro k b hb
    have hwf := (hw.2.1 k b hb).shape
    have h2 := frame_shape hwf he (fun p _ hq => absurd hq (List.not_mem_nil _))
    refine ⟨h2, ?_⟩
    unfold LinkedList.owned
    rw [h2.nodes_eq]
  have hnew : l2.owned m2 = l2.root :: ns2 := by
    unfold LinkedList.owned
    rw [hs2.nodes_eq]
  have hsep : ∀ (k : Nat) (b : LinkedList), w.lists[k]? = some b →
      ∀ p, p ∈ b.owned w.mem → p ∉ l2.root :: ns2 := by
    intro k b hb p hp hq
    rcases he.fresh p hq with h | h
    · exact absurd h (List.not_mem_nil _)
    · exact h ((hw.2.1 k b hb).2.2 p hp)
  have hget : ∀ (k : Nat) (b : LinkedList), (w.lists ++ [l2])[k]? = some b →
      (k < w.lists.length ∧ w.lists[k]? = some b) ∨ (k = w.lists.length ∧ b = l2) := by
    intro k b hb
    rw [List.getElem?_append] at hb
    split at hb
    · next hk => exact Or.inl ⟨hk, hb⟩
    · next hk =>
      right
      have h1 := (List.getElem?_eq_some.1 hb).1
      simp only [List.length_singleton] at h1
      have hk0 : k - w.lists.length = 0 := by omega
      rw [hk0] at hb
      simp only [List.getElem?_cons_zero, Option.some.injEq] at hb
      exact ⟨by omega, hb.symm⟩
  refine ⟨he.memOK, ?_, ?_⟩
  · intro k b hb
    rcases hget k b hb with ⟨_, h⟩ | ⟨_, h⟩
    · exact (hother k b h).1.wf he.memOK
    · rw [h]
      exact hs2.wf he.memOK
  · intro k j a b hkj ha hb p hp hq
    rcases hget k a ha with ⟨hk1, h1⟩ | ⟨hk1, h1⟩
    · rw [(hother k a h1).2] at hp
      rcases hget j b hb with ⟨_, h2⟩ | ⟨_, h2⟩
      · rw [(hother j b h2).2] at hq
        exact hw.2.2 k j a b hkj h1 h2 p hp hq
      · rw [h2, hnew] at hq
        exact hsep k a h1 p hp hq
    · rcases hget j b hb with ⟨_, h2⟩ | ⟨hj1, _⟩
      · rw [(hother j b h2).2] at hq
        rw [h1, hnew] at hp
        exact hsep j b h2 p hq hp
      · exact hkj (hk1.trans hj1.symm)

/-- The invariant does not depend on how the objects are numbered. -/
theorem inv_reindex {m : Mem T} {L L2 : List LinkedList} (σ : Nat → Nat)
    (hσ : Function.Injective σ) (hw : World.Inv ⟨m, L⟩)
    (h : ∀ (k : Nat) (b : LinkedList), L2[k]? = some b → L[σ k]? = some b) :
    World.Inv ⟨m, L2⟩ := by
  refine ⟨hw.1, ?_, ?_⟩
  · intro k b hb
    exact hw.2.1 (σ k) b (h k b hb)
  · intro k j a b hkj ha hb
    exact hw.2.2 (σ k) (σ j) a b (fun e => hkj (hσ e)) (h k a ha) (h j b hb)

/-- Exchanging two numbers. -/
theorem swap_injective (i j : Nat) :
    Function.Injective (fun k : Nat => if k = i then j else if k = j then i else k) := by
  intro a b hab
  simp only at hab
  split at hab <;> split at hab <;> try split at hab
  all_goals try split at hab
  all_goals omega

end WorldLemmas

section Soundness

variable {T : Type}

/-- In a chain closed by `z`, every element but the last has its successor in the chain. -/
theorem chain_succ_mem (next : Nat → Nat) : ∀ (l : List Nat) (z : Nat),
    List.Chain' (fun x y => next x = y) (l ++ [z]) → ∀ a ∈ l, next a ∈ l.tail ++ [z]
  | [], _, _, a, ha => absurd ha (List.not_mem_nil _)
  | [b], z, h, a, ha => by
    rw [List.mem_singleton] at ha
    subst ha
    rw [List.singleton_append, List.chain'_cons] at h
    simp [h.1]
  | b :: c :: l, z, h, a, ha => by
    rw [List.cons_append, List.cons_append, List.chain'_cons] at h
    rcases List.mem_cons.1 ha with rfl | ha
    · rw [h.1]
      simp
    · have hmem : next a ∈ l ++ [z] := chain_succ_mem next (c :: l) z h.2 a ha
      exact List.mem_cons_of_mem c hmem

/-- The ring is closed under `right`. -/
theorem ring_right_mem {l : LinkedList} {m : Mem T} {ns : List Nat} (hs : l.Shape m ns) :
    ∀ a ∈ l.root :: ns, m.right a ∈ l.root :: ns := by
  intro a ha
  have h := chain_succ_mem m.right (l.root :: ns) l.root hs.1.right_chain a ha
  simp only [List.tail_cons, List.mem_append, List.mem_singleton] at h
  rcases h with h | h
  · exact List.mem_cons_of_mem _ h
  · rw [h]
    exact List.mem_cons_self _ _

/-- The ring is closed under `left`. -/
theorem ring_left_mem {l : LinkedList} {m : Mem T} {ns : List Nat} (hs : l.Shape m ns) :
    ∀ a ∈ l.root :: ns, m.left a ∈ l.root :: ns := by
  intro a ha
  have ha2 : a ∈ l.root :: ns.reverse := by
    simp only [List.mem_cons, List.mem_reverse] at ha ⊢
    exact ha
  have h := chain_succ_mem m.left (l.root :: ns.reverse) l.root hs.1.left_chain a ha2
  simp only [List.tail_cons, List.mem_append, List.mem_singleton, List.mem_reverse] at h
  rcases h with h | h
  · exact List.mem_cons_of_mem _ h
  · rw [h]
    exact List.mem_cons_self _ _

/-- An iterator obtained from `begin()` by increments points into the ring. -/
theorem advance_mem {l : LinkedList} {m : Mem T} {ns : List Nat} (hs : l.Shape m ns) :
    ∀ k : Nat, LinkedList.advance m k (l.begin m) ∈ l.root :: ns
  | 0 => ring_right_mem hs _ (List.mem_cons_self _ _)
  | k + 1 => by
    have ih := advance_mem hs k
    unfold LinkedList.advance at ih ⊢
    rw [Function.iterate_succ_apply']
    exact ring_right_mem hs _ ih

/-- A position of the ring splits the payload nodes into those before it and the rest,
and `left` of the position is the last node before it. -/
theorem position_split {l : LinkedList} {m : Mem T} {ns : List Nat} (hs : l.Shape m ns)
    {it : Nat} (hit : it ∈ l.root :: ns) :
    ∃ as bs X0, ns = as ++ bs ∧ l.root :: as = X0 ++ [m.left it] ∧
      ((it = l.root ∧ bs = []) ∨ ∃ bs2, bs = it :: bs2) := by
  rcases List.mem_cons.1 hit with h | h
  · obtain ⟨X0, prev, hX⟩ := exists_snoc l.root ns
    have hs0 : l.Shape m (ns ++ []) := by rwa [List.append_nil]
    have hg := ring_link_gap hs0.1 hX (rfl : ([] : List Nat) ++ [l.root] = l.root :: [])
    refine ⟨ns, [], X0, (List.append_nil _).symm, ?_, Or.inl ⟨h, rfl⟩⟩
    rw [h, hg.2]
    exact hX
  · obtain ⟨as, bs2, hsplit⟩ := List.append_of_mem h
    obtain ⟨X0, prev, hX⟩ := exists_snoc l.root as
    have hs0 : l.Shape m (as ++ it :: bs2) := by rwa [← hsplit]
    have hg := ring_link_gap hs0.1 hX
      (rfl : (it :: bs2) ++ [l.root] = it :: (bs2 ++ [l.root]))
    refine ⟨as, it :: bs2, X0, hsplit, ?_, Or.inr ⟨bs2, rfl⟩⟩
    rw [hg.2]
    exact hX

theorem putAfter_sound {l : LinkedList} {m : Mem T} {ptr : Nat} {as bs X0 : List Nat} (v : T)
    (hm : MemOK m) (hs : l.Shape m (as ++ bs)) (hX : l.root :: as = X0 ++ [ptr]) :
    Sound (l.putAfter m ptr v) m (l.root :: (as ++ bs)) := by
  cases ha : m.allocate with
  | error e =>
    have : l.putAfter m ptr v = Except.error e := by
      simp only [LinkedList.putAfter, ha]
    rw [this]
    show e ≠ Fault.outOfFuel
    rw [Mem.allocate_error ha]
    decide
  | ok r =>
    obtain ⟨tmp, m1⟩ := r
    obtain ⟨m2, h1, h2, h3, -⟩ := putAfter_spec v hm hs hX ha
    rw [h1]
    exact ⟨_, h2, h3⟩

theorem insert_sound {l : LinkedList} {m : Mem T} {ns : List Nat} (v : T) (hm : MemOK m)
    (hs : l.Shape m ns) {it : Nat} (hit : it ∈ l.root :: ns) :
    Sound (l.insert m it v) m (l.root :: ns) := by
  obtain ⟨as, bs, X0, hsplit, hX, -⟩ := position_split hs hit
  subst hsplit
  exact putAfter_sound v hm hs hX

theorem push_back_sound {l : LinkedList} {m : Mem T} {ns : List Nat} (v : T) (hm : MemOK m)
    (hs : l.Shape m ns) : Sound (l.push_back m v) m (l.root :: ns) :=
  insert_sound v hm hs (List.mem_cons_self _ _)

theorem push_front_sound {l : LinkedList} {m : Mem T} {ns : List Nat} (v : T) (hm : MemOK m)
    (hs : l.Shape m ns) : Sound (l.push_front m v) m (l.root :: ns) :=
  @putAfter_sound T l m l.root [] ns [] v hm hs rfl

theorem del_sound {l : LinkedList} {m : Mem T} {ns : List Nat} (hm : MemOK m)
    (hs : l.Shape m ns) {it : Nat} (hit : it ∈ l.root :: ns) :
    Sound (l.del m it) m (l.root :: ns) := by
  rcases List.mem_cons.1 hit with h | h
  · have : l.del m it = Except.error Fault.assertFailed := by
      simp [LinkedList.del, h]
    rw [this]
    show Fault.assertFailed ≠ Fault.outOfFuel
    decide
  · obtain ⟨as, bs, hsplit⟩ := List.append_of_mem h
    subst hsplit
    obtain ⟨m2, h1, h2, h3, -⟩ := del_spec hm hs
    rw [h1]
    exact ⟨_, h2, h3⟩

end Soundness

section CtorSoundness

variable {T : Type}

theorem LinkedList.Shape.walk_full {l : LinkedList} {m : Mem T} {ns : List Nat}
    (hs : l.Shape m ns) : walk m.right (ns.length + 1) (m.right l.root) = ns ++ [l.root] := by
  have := walk_chain m.right (ns ++ [l.root]) l.root hs.1.right_chain
  rwa [List.length_append, List.length_singleton] at this

theorem shape_of_same_links {l : LinkedList} {m m2 : Mem T} {ns : List Nat} (hs : l.Shape m ns)
    (hl : m2.left = m.left) (hr : m2.right = m.right) (hlive : m2.live = m.live) :
    l.Shape m2 ns := by
  refine ⟨ring_frame hs.1 (fun q _ => by rw [hr]) (fun q _ => by rw [hl]), hs.2.1, ?_⟩
  rw [hlive]
  exact hs.2.2

/-- An operation that only writes payloads of nodes of its list. -/
theorem effect_of_values {m m2 : Mem T} {own : List Nat} (hm : MemOK m)
    (hown : ∀ p ∈ own, p ∈ m.live) (hl : m2.left = m.left) (hr : m2.right = m.right)
    (hlive : m2.live = m.live) (hv : ∀ q, q ∉ own → m2.value q = m.value q) :
    Effect m own m2 own := by
  refine ⟨?_, ?_, fun p hp => Or.inl hp, ?_⟩
  · unfold MemOK
    rw [hlive]
    exact hm
  · rw [hlive]
    exact hown
  · intro q hq ho
    exact ⟨by rw [hlive]; exact hq, by rw [hl], by rw [hr], hv q ho⟩

/-- The count constructor completes when its allocations do, and gives `count` nodes that
all hold `value`. -/
theorem ctorCount_spec {m m1 : Mem T} {count : Nat} {l : LinkedList} (v : T) (hm : MemOK m)
    (hg : LinkedList.genList m count = Except.ok (l, m1)) :
    ∃ m2 ns, LinkedList.ctorCount count m count v = Except.ok (l, m2) ∧ l.sz = count ∧
      l.Shape m2 ns ∧ Effect m [] m2 (l.root :: ns) ∧ (∀ q ∈ ns, m2.value q = v) := by
  obtain ⟨ns, hsz, hs1, he, -⟩ := genList_spec hm hg
  have hroot : l.root ∉ ns := (List.nodup_cons.1 hs1.1.1).1
  have hlen : ns.length ≤ count := by rw [hs1.2.1, hsz]
  obtain ⟨m2, h1, h2, h3, h4, -, h6, h7⟩ := fillLoop_spec v ns count _ m1 hs1.walk_full hroot hlen
  refine ⟨m2, ns, ?_, hsz, shape_of_same_links hs1 h2 h3 h4, ?_, h6⟩
  · simp only [LinkedList.ctorCount, hg, h1]
  · exact he.trans (effect_of_values he.memOK hs1.2.2 h2 h3 h4
      (fun q hq => h7 q (fun h => hq (List.mem_cons_of_mem _ h))))

theorem ctorCount_sound {m : Mem T} {count : Nat} (v : T) (hm : MemOK m) :
    Sound (LinkedList.ctorCount count m count v) m [] := by
  cases hg : LinkedList.genList m count with
  | error e =>
    have : LinkedList.ctorCount count m count v = Except.error e := by
      simp only [LinkedList.ctorCount, hg]
    rw [this]
    show e ≠ Fault.outOfFuel
    rw [genList_error hg]
    decide
  | ok r =>
    obtain ⟨l, m1⟩ := r
    obtain ⟨m2, ns, h1, -, h3, h4, -⟩ := ctorCount_spec v hm hg
    rw [h1]
    exact ⟨ns, h3, h4⟩

theorem ctorCountDefault_sound {m : Mem T} {count : Nat} (init : T → T) (hm : MemOK m) :
    Sound (LinkedList.ctorCountDefault count m count init) m [] := by
  cases hg : LinkedList.genList m count with
  | error e =>
    have : LinkedList.ctorCountDefault count m count init = Except.error e := by
      simp only [LinkedList.ctorCountDefault, hg]
    rw [this]
    show e ≠ Fault.outOfFuel
    rw [genList_error hg]
    decide
  | ok r =>
    obtain ⟨l, m1⟩ := r
    obtain ⟨ns, hsz, hs1, he, -⟩ := genList_spec hm hg
    have hroot : l.root ∉ ns := (List.nodup_cons.1 hs1.1.1).1
    have hlen : ns.length ≤ count := by rw [hs1.2.1, hsz]
    obtain ⟨m2, h1, h2, h3, h4, -, h7⟩ :=
      fillDefaultLoop_spec init ns count _ m1 hs1.walk_full hroot hlen
    have : LinkedList.ctorCountDefault count m count init = Except.ok (l, m2) := by
      simp only [LinkedList.ctorCountDefault, hg, h1]
    rw [this]
    exact ⟨ns, shape_of_same_links hs1 h2 h3 h4,
      he.trans (effect_of_values he.memOK hs1.2.2 h2 h3 h4
        (fun q hq => h7 q (fun h => hq (List.mem_cons_of_mem _ h))))⟩

theorem genList_sound {m : Mem T} {sz : Nat} (hm : MemOK m) :
    Sound (LinkedList.genList m sz) m [] := by
  cases hg : LinkedList.genList m sz with
  | error e =>
    show e ≠ Fault.outOfFuel
    rw [genList_error hg]
    decide
  | ok r =>
    obtain ⟨l, m1⟩ := r
    obtain ⟨ns, -, hs1, he, -⟩ := genList_spec hm hg
    exact ⟨ns, hs1, he⟩

/-- After `genList(ls.sz)` the copy loop completes; the new list has the payloads of the
source, in order, and the source is as it was. -/
theorem copyInto_spec {m0 m1 : Mem T} {ls l1 : LinkedList} {src : List Nat} (hm : MemOK m0)
    (hsrc : ls.Shape m0 src) (hg : LinkedList.genList m0 ls.sz = Except.ok (l1, m1)) :
    ∃ m2 ns, LinkedList.copyLoop l1.root ls.sz (m1.right l1.root) (m1.right ls.root) m1 =
        Except.ok m2 ∧
      l1.Shape m2 ns ∧ Effect m0 [] m2 (l1.root :: ns) ∧ l1.sz = ls.sz ∧
      ns.map m2.value = src.map m0.value ∧ ∀ q, q ∉ ns → m2.value q = m0.value q := by
  obtain ⟨ns, hsz, hs1, he, hv⟩ := genList_spec hm hg
  have hsrc1 : ls.Shape m1 src :=
    frame_shape hsrc he (fun p _ hq => absurd hq (List.not_mem_nil _))
  have hroot : l1.root ∉ ns := (List.nodup_cons.1 hs1.1.1).1
  have hlen : ns.length = ls.sz := by rw [hs1.2.1, hsz]
  have hwsrc : walk m1.right ns.length (m1.right ls.root) = src := by
    have := hsrc1.1.walk_right
    rwa [hsrc1.2.1, ← hlen] at this
  have hdisj : ∀ s ∈ src, s ∉ ns := by
    intro s hs hn
    rcases he.fresh s (List.mem_cons_of_mem _ hn) with h | h
    · exact absurd h (List.not_mem_nil _)
    · exact h (hsrc.2.2 s (List.mem_cons_of_mem _ hs))
  obtain ⟨m2, h1, h2, h3, h4, -, h6, h7⟩ := copyLoop_spec ns src ls.sz _ _ m1 hs1.walk_full
    hroot (le_of_eq hlen) hwsrc hdisj (List.nodup_cons.1 hs1.1.1).2
  refine ⟨m2, ns, h1, shape_of_same_links hs1 h2 h3 h4, ?_, hsz, ?_, ?_⟩
  · exact he.trans (effect_of_values he.memOK hs1.2.2 h2 h3 h4
      (fun q hq => h7 q (fun h => hq (List.mem_cons_of_mem _ h))))
  · rw [h6, hv]
  · intro q hq
    rw [h7 q hq, hv]

theorem ctorCopy_sound {m : Mem T} {ls : LinkedList} {src : List Nat} (hm : MemOK m)
    (hsrc : ls.Shape m src) : Sound (LinkedList.ctorCopy ls.sz m ls) m [] := by
  unfold LinkedList.ctorCopy LinkedList.ctorDefault
  cases hg0 : LinkedList.genList m 0 with
  | error e =>
    show e ≠ Fault.outOfFuel
    rw [genList_error hg0]
    decide
  | ok r0 =>
    obtain ⟨l0, m0⟩ := r0
    obtain ⟨ns0, -, -, he0, -⟩ := genList_spec hm hg0
    have hsrc0 : ls.Shape m0 src :=
      frame_shape hsrc he0 (fun p _ hq => absurd hq (List.not_mem_nil _))
    dsimp only
    cases hg : LinkedList.genList m0 ls.sz with
    | error e =>
      show e ≠ Fault.outOfFuel
      rw [genList_error hg]
      decide
    | ok r =>
      obtain ⟨l1, m1⟩ := r
      obtain ⟨m2, ns, h1, h2, h3, -⟩ := copyInto_spec he0.memOK hsrc0 hg
      simp only [h1]
      exact ⟨ns, h2, he0.drop.trans h3⟩

theorem assign_sound {m : Mem T} {l ls : LinkedList} {ns src : List Nat} (hm : MemOK m)
    (hs : l.Shape m ns) (hsrc : ls.Shape m src)
    (hd : ∀ p ∈ ls.root :: src, p ∉ l.root :: ns) :
    Sound (l.assign ls.sz m ls) m (l.root :: ns) := by
  obtain ⟨hdes, he0⟩ := destroy_spec hm hs
  have hsrc0 := frame_shape hsrc he0 hd
  unfold LinkedList.assign
  rw [hdes]
  simp only
  cases hg : LinkedList.genList { m with live := m.live.diff (l.root :: ns) } ls.sz with
  | error e =>
    show e ≠ Fault.outOfFuel
    rw [genList_error hg]
    decide
  | ok r =>
    obtain ⟨l1, m1⟩ := r
    obtain ⟨m2, ns1, h1, h2, h3, -⟩ := copyInto_spec he0.memOK hsrc0 hg
    simp only [h1]
    exact ⟨ns1, h2, he0.trans h3⟩

end CtorSoundness

section WorldSteps

variable {T : Type}

theorem update_good {w : World T} {i : Nat} {l : LinkedList} {ns : List Nat}
    {r : Except Fault (LinkedList × Mem T)} (hw : w.Inv) (hi : w.lists[i]? = some l)
    (hs : l.Shape w.mem ns) (hr : Sound r w.mem (l.root :: ns)) :
    World.Good (w.update i r) := by
  cases r with
  | error e => exact hr
  | ok x =>
    obtain ⟨l2, m2⟩ := x
    obtain ⟨ns2, h1, h2⟩ := hr
    exact inv_update hw hi hs h2 h1

theorem create_good {w : World T} {r : Except Fault (LinkedList × Mem T)} (hw : w.Inv)
    (hr : Sound r w.mem []) : World.Good (w.create r) := by
  cases r with
  | error e => exact hr
  | ok x =>
    obtain ⟨l2, m2⟩ := x
    obtain ⟨ns2, h1, h2⟩ := hr
    exact inv_create hw h2 h1

theorem onList_good {w : World T} {i : Nat} {f : LinkedList → Except Fault (World T)}
    (h : ∀ l, w.lists[i]? = some l → World.Good (f l)) : World.Good (w.onList i f) := by
  unfold World.onList
  cases hi : w.lists[i]? with
  | none =>
    show Fault.noSuchList ≠ Fault.outOfFuel
    decide
  | some l => exact h l hi

theorem ctorMove_good {w : World T} {src : Nat} {other : LinkedList} (hw : w.Inv)
    (hi : w.lists[src]? = some other) :
    World.Good (match LinkedList.ctorMove w.mem other with
      | Except.error e => Except.error e
      | Except.ok (l, other2, m) => Except.ok ⟨m, w.lists.set src other2 ++ [l]⟩) := by
  unfold LinkedList.ctorMove
  cases ha : w.mem.allocate with
  | error e =>
    show e ≠ Fault.outOfFuel
    rw [Mem.allocate_error ha]
    decide
  | ok r =>
    obtain ⟨p, m1⟩ := r
    obtain ⟨s0, e0, -⟩ := sentinel_spec hw.1 ha
    have h1 := inv_create hw e0 s0
    have hsrc : src < w.lists.length := (List.getElem?_eq_some.1 hi).1
    show World.Inv ⟨_, w.lists.set src ⟨p, 0⟩ ++ [⟨other.root, other.sz⟩]⟩
    refine inv_reindex _ (swap_injective src w.lists.length) h1 ?_
    intro k b hb
    beta_reduce
    by_cases hk : k < w.lists.length
    · rw [List.getElem?_append_left (by rw [List.length_set]; exact hk)] at hb
      by_cases hsk : k = src
      · subst hsk
        rw [List.getElem?_set, if_pos rfl, if_pos hsrc] at hb
        rw [if_pos rfl, List.getElem?_append_right (le_refl _)]
        simpa using hb
      · rw [List.getElem?_set, if_neg (fun e => hsk e.symm)] at hb
        rw [if_neg hsk, if_neg (by omega), List.getElem?_append_left hk]
        exact hb
    · rw [List.getElem?_append_right (by rw [List.length_set]; omega), List.length_set] at hb
      have h2 := (List.getElem?_eq_some.1 hb).1
      simp only [List.length_singleton] at h2
      have hk0 : k = w.lists.length := by omega
      subst hk0
      simp only [Nat.sub_self, List.getElem?_cons_zero, Option.some.injEq] at hb
      rw [if_neg (by omega), if_pos rfl, List.getElem?_append_left hsrc, hi, ← hb]

theorem moveAssign_good {w : World T} {i j : Nat} {l other : LinkedList} (hw : w.Inv)
    (hij : i ≠ j) (hi : w.lists[i]? = some l) (hj : w.lists[j]? = some other) :
    World.Good (match l.moveAssign w.mem other with
      | Except.error e => Except.error e
      | Except.ok (l2, other2, m) => Except.ok ⟨m, (w.lists.set i l2).set j other2⟩) := by
  have hs := (hw.2.1 i l hi).shape
  obtain ⟨hdes, he0⟩ := destroy_spec hw.1 hs
  unfold LinkedList.moveAssign
  rw [hdes]
  dsimp only
  cases ha : Mem.allocate { w.mem with live := w.mem.live.diff (l.root :: l.nodes w.mem) } with
  | error e =>
    show e ≠ Fault.outOfFuel
    rw [Mem.allocate_error ha]
    decide
  | ok r =>
    obtain ⟨p, m1⟩ := r
    obtain ⟨s0, e0, -⟩ := sentinel_spec he0.memOK ha
    have h1 := inv_update hw hi hs (he0.trans e0) s0
    have hil : i < w.lists.length := (List.getElem?_eq_some.1 hi).1
    have hjl : j < w.lists.length := (List.getElem?_eq_some.1 hj).1
    show World.Inv ⟨_, (w.lists.set i ⟨other.root, other.sz⟩).set j ⟨p, 0⟩⟩
    refine inv_reindex _ (swap_injective i j) h1 ?_
    intro k b hb
    beta_reduce
    by_cases hjk : k = j
    · subst hjk
      rw [List.getElem?_set, if_pos rfl, List.length_set, if_pos hjl] at hb
      rw [if_neg (fun e => hij e.symm), if_pos rfl, List.getElem?_set, if_pos rfl, if_pos hil]
      exact hb
    · by_cases hik : k = i
      · subst hik
        rw [List.getElem?_set, if_neg (fun e => hjk e.symm), List.getElem?_set, if_pos rfl,
          if_pos hil] at hb
        rw [if_pos rfl, List.getElem?_set, if_neg hij, hj, ← hb]
      · rw [List.getElem?_set, if_neg (fun e => hjk e.symm), List.getElem?_set,
          if_neg (fun e => hik e.symm)] at hb
        rw [if_neg hik, if_neg hjk, List.getElem?_set, if_neg (fun e => hik e.symm)]
        exact hb

/-- Every operation keeps the invariant and never stops for lack of loop iterations. -/
theorem step_good (w : World T) (op : ListOp T) (hw : w.Inv) :
    World.Good (w.step op) := by
  cases op with
  | ctorDefault => exact create_good hw (genList_sound hw.1)
  | ctorCount count value => exact create_good hw (ctorCount_sound value hw.1)
  | ctorCountDefault count init => exact create_good hw (ctorCountDefault_sound init hw.1)
  | ctorCopy src =>
    exact onList_good fun ls hi => create_good hw (ctorCopy_sound hw.1 (hw.2.1 src ls hi).shape)
  | ctorMove src => exact onList_good fun other hi => ctorMove_good hw hi
  | push_back i value =>
    exact onList_good fun l hi =>
      update_good hw hi (hw.2.1 i l hi).shape (push_back_sound value hw.1 (hw.2.1 i l hi).shape)
  | push_front i value =>
    exact onList_good fun l hi =>
      update_good hw hi (hw.2.1 i l hi).shape (push_front_sound value hw.1 (hw.2.1 i l hi).shape)
  | emplace_back i value =>
    refine onList_good fun l hi => ?_
    rw [emplace_back_eq_push_back]
    exact update_good hw hi (hw.2.1 i l hi).shape
      (push_back_sound value hw.1 (hw.2.1 i l hi).shape)
  | insert i pos value =>
    exact onList_good fun l hi =>
      update_good hw hi (hw.2.1 i l hi).shape
        (insert_sound value hw.1 (hw.2.1 i l hi).shape (advance_mem (hw.2.1 i l hi).shape pos))
  | pop_back i =>
    exact onList_good fun l hi =>
      update_good hw hi (hw.2.1 i l hi).shape
        (del_sound hw.1 (hw.2.1 i l hi).shape
          (ring_left_mem (hw.2.1 i l hi).shape _ (List.mem_cons_self _ _)))
  | pop_front i =>
    exact onList_good fun l hi =>
      update_good hw hi (hw.2.1 i l hi).shape
        (del_sound hw.1 (hw.2.1 i l hi).shape
          (ring_right_mem (hw.2.1 i l hi).shape _ (List.mem_cons_self _ _)))
  | erase i pos =>
    exact onList_good fun l hi =>
      update_good hw hi (hw.2.1 i l hi).shape
        (del_sound hw.1 (hw.2.1 i l hi).shape (advance_mem (hw.2.1 i l hi).shape pos))
  | assign i j =>
    simp only [World.step]
    split
    · exact onList_good fun _ _ => hw
    · next hij =>
      refine onList_good fun l hi => onList_good fun ls hj => ?_
      refine update_good hw hi (hw.2.1 i l hi).shape
        (assign_sound hw.1 (hw.2.1 i l hi).shape (hw.2.1 j ls hj).shape ?_)
      intro p hp hq
      exact hw.2.2 j i ls l (fun e => hij e.symm) hj hi p hp hq
  | moveAssign i j =>
    simp only [World.step]
    split
    · exact onList_good fun _ _ => hw
    · next hij =>
      exact onList_good fun l hi => onList_good fun other hj => moveAssign_good hw hij hi hj

theorem run_good : ∀ (ops : List (ListOp T)) (w : World T), w.Inv →
    World.Good (w.run ops)
  | [], _, hw => hw
  | op :: ops, w, hw => by
    have h := step_good w op hw
    unfold World.run
    cases hst : w.step op with
    | error e =>
      rw [hst] at h
      exact h
    | ok w1 =>
      rw [hst] at h
      exact run_good ops w1 h

theorem boot_inv (m : Mem T) : (World.boot m).Inv := by
  refine ⟨⟨List.nodup_nil, fun p hp => absurd hp (List.not_mem_nil _)⟩, ?_, ?_⟩
  · intro i l h
    simp [World.boot] at h
  · intro i j a b _ h
    simp [World.boot] at h

end WorldSteps

section Claims

variable {T : Type}

/-- C8. List ring invariant. A program that starts without lists and runs any sequence of
constructors, `push_back`, `push_front`, `emplace_back`, `insert`, `pop_back`, `pop_front`,
`erase`, copy and move assignment never hangs in a loop, and when it completes every list
`l` satisfies: `a->right->left == a` and `a->left->right == a` for the sentinel and every
node reached from it; `sz` forward steps from `root` visit `sz` distinct nodes other
than `root`, the next step is back at `root`, and nothing else is reachable; likewise
backward, over the same nodes in reverse order; `size()` is the number of these nodes. -/
theorem list_ring_invariant [Inhabited T] (m0 : Mem T) (ops : List (ListOp T)) :
    (World.boot m0).run ops ≠ Except.error Fault.outOfFuel ∧
      ∀ w : World T, (World.boot m0).run ops = Except.ok w →
        ∀ (i : Nat) (l : LinkedList), w.lists[i]? = some l →
          (∀ a ∈ l.owned w.mem,
            w.mem.left (w.mem.right a) = a ∧ w.mem.right (w.mem.left a) = a) ∧
          (l.root :: l.nodes w.mem).Nodup ∧ (l.nodes w.mem).length = l.sz ∧
          LinkedList.advance w.mem l.sz (l.begin w.mem) = l.endIter ∧
          (∀ k : Nat, LinkedList.advance w.mem k (l.begin w.mem) ∈ l.root :: l.nodes w.mem) ∧
          (l.root :: l.nodesRev w.mem).Nodup ∧ (l.nodesRev w.mem).length = l.sz ∧
          LinkedList.advanceRev w.mem l.sz (l.rbegin w.mem) = l.rend ∧
          l.nodesRev w.mem = (l.nodes w.mem).reverse ∧
          l.size = (l.nodes w.mem).length := by
  have hgood := run_good ops (World.boot m0) (boot_inv m0)
  constructor
  · intro h
    rw [h] at hgood
    exact hgood rfl
  · intro w hrun i l hi
    rw [hrun] at hgood
    have hinv : w.Inv := hgood
    have hs := (hinv.2.1 i l hi).shape
    have hlen : (l.nodes w.mem).length = l.sz := hs.2.1
    refine ⟨?_, hs.1.1, hlen, ?_, advance_mem hs, ?_, ?_, ?_, hs.nodesRev_eq, hlen.symm⟩
    · intro a ha
      have hr := ring_right_mem hs a ha
      have hl := ring_left_mem hs a ha
      have key : ∀ x ∈ l.root :: l.nodes w.mem,
          w.mem.left (w.mem.right x) = x := by
        intro x hx
        have hc : List.Chain' (fun p q => w.mem.left (w.mem.right p) = p ∧ w.mem.right p = q)
            (l.root :: l.nodes w.mem ++ [l.root]) :=
          hs.1.2.imp (fun p q hpq => ⟨by rw [hpq.1, hpq.2], hpq.1⟩)
        have hgen : ∀ (c : List Nat) (z : Nat),
            List.Chain' (fun p q => w.mem.left (w.mem.right p) = p ∧ w.mem.right p = q)
              (c ++ [z]) → ∀ y ∈ c, w.mem.left (w.mem.right y) = y := by
          intro c
          induction c with
          | nil => intro z _ y hy; exact absurd hy (List.not_mem_nil _)
          | cons b c ih =>
            intro z hch y hy
            cases c with
            | nil =>
              rw [List.mem_singleton] at hy
              subst hy
              rw [List.singleton_append, List.chain'_cons] at hch
              exact hch.1.1
            | cons d c =>
              rw [List.cons_append, List.cons_append, List.chain'_cons] at hch
              rcases List.mem_cons.1 hy with rfl | hy
              · exact hch.1.1
              · exact ih z hch.2 y hy
        exact hgen _ _ hc x hx
      refine ⟨key a ha, ?_⟩
      have hleft : ∀ x ∈ l.root :: l.nodes w.mem, w.mem.right (w.mem.left x) = x := by
        intro x hx
        have hx2 : x ∈ l.nodes w.mem ++ [l.root] := by
          rcases List.mem_cons.1 hx with h | h
          · exact List.mem_append_right _ (by simp [h])
          · exact List.mem_append_left _ h
        have hgen : ∀ (c : List Nat) (z : Nat), List.Chain' (Link w.mem) (z :: c) →
            ∀ y ∈ c, w.mem.right (w.mem.left y) = y := by
          intro c
          induction c with
          | nil => intro z _ y hy; exact absurd hy (List.not_mem_nil _)
          | cons b c ih =>
            intro z hch y hy
            rw [List.chain'_cons] at hch
            rcases List.mem_cons.1 hy with rfl | hy
            · rw [hch.1.2, hch.1.1]
            · exact ih b hch.2 y hy
        exact hgen _ _ hs.1.2 x hx2
      exact hleft a ha
    · have := iterate_chain w.mem.right (l.nodes w.mem) l.root l.root [] hs.1.right_chain
      rw [hlen] at this
      exact this
    · rw [hs.nodesRev_eq]
      have hp : (l.root :: (l.nodes w.mem).reverse).Perm (l.root :: l.nodes w.mem) :=
        List.Perm.cons _ (List.reverse_perm _)
      exact hp.nodup_iff.2 hs.1.1
    · rw [hs.nodesRev_eq, List.length_reverse, hlen]
    · have := iterate_chain w.mem.left (l.nodes w.mem).reverse l.root l.root []
        hs.1.left_chain
      rw [List.length_reverse, hlen] at this
      exact this

theorem list_ring_invariant_witness :
    (World.boot (Mem.blank [5, 7, 9, 11, 13, 15, 17, 19] : Mem Nat)).run
        [.ctorDefault, .push_back 0 1, .push_back 0 2, .ctorCopy 0, .erase 0 0] =
      Except.ok ((World.boot (Mem.blank [5, 7, 9, 11, 13, 15, 17, 19])).runD
        [.ctorDefault, .push_back 0 1, .push_back 0 2, .ctorCopy 0, .erase 0 0]) ∧
    ∀ (i : Nat) (l : LinkedList),
      ((World.boot (Mem.blank [5, 7, 9, 11, 13, 15, 17, 19] : Mem Nat)).runD
        [.ctorDefault, .push_back 0 1, .push_back 0 2, .ctorCopy 0, .erase 0 0]).lists[i]? =
          some l →
      (l.root :: l.nodes ((World.boot (Mem.blank [5, 7, 9, 11, 13, 15, 17, 19] : Mem Nat)).runD
        [.ctorDefault, .push_back 0 1, .push_back 0 2, .ctorCopy 0, .erase 0 0]).mem).Nodup :=
  ⟨by rfl, fun i l h =>
    ((list_ring_invariant (Mem.blank [5, 7, 9, 11, 13, 15, 17, 19])
      [.ctorDefault, .push_back 0 1, .push_back 0 2, .ctorCopy 0, .erase 0 0]).2
        ((World.boot (Mem.blank [5, 7, 9, 11, 13, 15, 17, 19])).runD
          [.ctorDefault, .push_back 0 1, .push_back 0 2, .ctorCopy 0, .erase 0 0]) (by rfl)
        i l h).2.1⟩

/-- The element sequence after `putAfter`: the new value sits between the values of the
nodes before and after the position. -/
theorem putAfter_toList {l : LinkedList} {m m1 : Mem T} {ptr tmp : Nat} {as bs X0 : List Nat}
    (v : T) (hm : MemOK m) (hs : l.Shape m (as ++ bs)) (hX : l.root :: as = X0 ++ [ptr])
    (ha : m.allocate = Except.ok (tmp, m1)) :
    ∃ m2, l.putAfter m ptr v = Except.ok (⟨l.root, l.sz + 1⟩, m2) ∧
      LinkedList.WF ⟨l.root, l.sz + 1⟩ m2 ∧
      LinkedList.nodes ⟨l.root, l.sz + 1⟩ m2 = as ++ tmp :: bs ∧
      LinkedList.toList ⟨l.root, l.sz + 1⟩ m2 = as.map m.value ++ v :: bs.map m.value := by
  obtain ⟨m2, h1, h2, h3, h4, h5, -⟩ := putAfter_spec v hm hs hX ha
  obtain ⟨-, -, afresh, -⟩ := Mem.allocate_ok ha
  refine ⟨m2, h1, h2.wf h3.memOK, h2.nodes_eq, ?_⟩
  have hne : ∀ q ∈ as ++ bs, q ≠ tmp := by
    intro q hq e
    exact afresh (hs.2.2 tmp (List.mem_cons_of_mem _ (e ▸ hq)))
  unfold LinkedList.toList
  rw [h2.nodes_eq, List.map_append, List.map_cons, h4]
  congr 1
  · exact List.map_congr_left fun q hq => h5 q (hne q (List.mem_append_left _ hq))
  · congr 1
    exact List.map_congr_left fun q hq => h5 q (hne q (List.mem_append_right _ hq))

theorem push_back_ok (l : LinkedList) (m m1 : Mem T) (tmp : Nat) (v : T)
    (hwf : l.WF m) (ha : m.allocate = Except.ok (tmp, m1)) :
    ∃ l2 m2, l.push_back m v = Except.ok (l2, m2) ∧ l2.WF m2 ∧
      l2.toList m2 = l.toList m ++ [v] ∧ l2.size = l.size + 1 ∧
      l2.nodes m2 = l.nodes m ++ [tmp] := by
  have hs := hwf.shape
  obtain ⟨as, bs, X0, hsplit, hX, hpos⟩ := position_split hs (List.mem_cons_self _ _)
  have hbs : bs = [] := by
    rcases hpos with ⟨-, h⟩ | ⟨bs2, h⟩
    · exact h
    · exfalso
      have hnd := hs.1.1
      rw [hsplit, h] at hnd
      simp at hnd
  subst hbs
  rw [List.append_nil] at hsplit
  have hs0 : l.Shape m (as ++ []) := by rw [List.append_nil, ← hsplit]; exact hs
  obtain ⟨m2, h1, h2, h3, h4⟩ := putAfter_toList v hwf.1 hs0 hX ha
  refine ⟨_, m2, h1, h2, ?_, rfl, ?_⟩
  · rw [h4]
    unfold LinkedList.toList
    rw [hsplit]
    rfl
  · rw [h3, hsplit]

theorem push_front_ok (l : LinkedList) (m m1 : Mem T) (tmp : Nat) (v : T)
    (hwf : l.WF m) (ha : m.allocate = Except.ok (tmp, m1)) :
    ∃ l2 m2, l.push_front m v = Except.ok (l2, m2) ∧ l2.WF m2 ∧
      l2.toList m2 = v :: l.toList m ∧ l2.size = l.size + 1 ∧
      l2.nodes m2 = tmp :: l.nodes m := by
  have hs0 : l.Shape m ([] ++ l.nodes m) := hwf.shape
  obtain ⟨m2, h1, h2, h3, h4⟩ :=
    @putAfter_toList T l m m1 l.root tmp [] (l.nodes m) [] v hwf.1 hs0 rfl ha
  exact ⟨_, m2, h1, h2, h4, rfl, h3⟩

/-- What a completed `putAfter` tells about the allocation it made. -/
theorem putAfter_allocated {l l2 : LinkedList} {m m2 : Mem T} {ptr : Nat} {v : T}
    (h : l.putAfter m ptr v = Except.ok (l2, m2)) : ∃ tmp m1, m.allocate = Except.ok (tmp, m1) := by
  unfold LinkedList.putAfter at h
  cases ha : m.allocate with
  | error e => rw [ha] at h; cases h
  | ok r => exact ⟨r.1, r.2, rfl⟩

theorem push_back_inv {l l2 : LinkedList} {m m2 : Mem T} {v : T} (hwf : l.WF m)
    (h : l.push_back m v = Except.ok (l2, m2)) :
    l2.WF m2 ∧ l2.toList m2 = l.toList m ++ [v] ∧ l2.size = l.size + 1 := by
  obtain ⟨tmp, m1, ha⟩ := putAfter_allocated h
  obtain ⟨l3, m3, h1, h2, h3, h4, -⟩ := push_back_ok l m m1 tmp v hwf ha
  rw [h] at h1
  cases h1
  exact ⟨h2, h3, h4⟩

theorem push_front_inv {l l2 : LinkedList} {m m2 : Mem T} {v : T} (hwf : l.WF m)
    (h : l.push_front m v = Except.ok (l2, m2)) :
    l2.WF m2 ∧ l2.toList m2 = v :: l.toList m ∧ l2.size = l.size + 1 := by
  obtain ⟨tmp, m1, ha⟩ := putAfter_allocated h
  obtain ⟨l3, m3, h1, h2, h3, h4, -⟩ := push_front_ok l m m1 tmp v hwf ha
  rw [h] at h1
  cases h1
  exact ⟨h2, h3, h4⟩

theorem ctorDefault_inv {l : LinkedList} {m m2 : Mem T} (hm : MemOK m)
    (h : LinkedList.ctorDefault m = Except.ok (l, m2)) :
    l.WF m2 ∧ l.toList m2 = [] ∧ l.size = 0 := by
  obtain ⟨ns, hsz, hs, he, -⟩ := genList_spec hm h
  have hns : ns = [] := List.length_eq_zero.1 (by rw [hs.2.1, hsz])
  subst hns
  refine ⟨hs.wf he.memOK, ?_, hsz⟩
  unfold LinkedList.toList
  rw [hs.nodes_eq]
  rfl

/-- C9. On a well-formed list with element sequence `xs`, when the allocator delivers a
node, `push_back(v)` completes with sequence `xs ++ [v]` and `push_front(v)` with
`v :: xs`; `size()` grows by exactly 1, the list stays well formed, and the new node is
the one the allocator returned, placed last, respectively first, among the old nodes.
Scenario A: whenever `List(); push_back(a); push_back(b); push_front(c)` completes, the
list holds `[c, a, b]` and `size()` is 3. -/
theorem push_back_push_front_spec [Inhabited T] (l : LinkedList) (m m1 : Mem T) (tmp : Nat)
    (v : T) (hwf : l.WF m) (ha : m.allocate = Except.ok (tmp, m1)) :
    (∃ l2 m2, l.push_back m v = Except.ok (l2, m2) ∧ l2.WF m2 ∧
        l2.toList m2 = l.toList m ++ [v] ∧ l2.size = l.size + 1 ∧
        l2.nodes m2 = l.nodes m ++ [tmp]) ∧
      (∃ l2 m2, l.push_front m v = Except.ok (l2, m2) ∧ l2.WF m2 ∧
        l2.toList m2 = v :: l.toList m ∧ l2.size = l.size + 1 ∧
        l2.nodes m2 = tmp :: l.nodes m) ∧
      ∀ (m0 : Mem T) (a b c : T) (w : World T),
        (World.boot m0).run [.ctorDefault, .push_back 0 a, .push_back 0 b, .push_front 0 c] =
          Except.ok w →
        w.lists.map (fun x => (x.toList w.mem, x.size)) = [([c, a, b], 3)] := by
  refine ⟨push_back_ok l m m1 tmp v hwf ha, push_front_ok l m m1 tmp v hwf ha, ?_⟩
  intro m0 a b c w h
  simp only [World.run, World.step, World.create] at h
  cases h0 : LinkedList.ctorDefault (World.boot m0).mem with
  | error e => rw [h0] at h; cases h
  | ok r0 =>
    obtain ⟨l0, ma⟩ := r0
    rw [h0] at h
    obtain ⟨w0, t0, s0⟩ := ctorDefault_inv (boot_inv m0).1 h0
    simp only [World.boot, List.nil_append, World.onList, List.getElem?_cons_zero,
      World.update] at h
    cases h1 : l0.push_back ma a with
    | error e => rw [h1] at h; cases h
    | ok r1 =>
      obtain ⟨l1, mb⟩ := r1
      rw [h1] at h
      obtain ⟨w1, t1, s1⟩ := push_back_inv w0 h1
      simp only [List.set_cons_zero, List.getElem?_cons_zero] at h
      cases h2 : l1.push_back mb b with
      | error e => rw [h2] at h; cases h
      | ok r2 =>
        obtain ⟨l2, mc⟩ := r2
        rw [h2] at h
        obtain ⟨w2, t2, s2⟩ := push_back_inv w1 h2
        simp only [List.set_cons_zero, List.getElem?_cons_zero] at h
        cases h3 : l2.push_front mc c with
        | error e => rw [h3] at h; cases h
        | ok r3 =>
          obtain ⟨l3, md⟩ := r3
          rw [h3] at h
          obtain ⟨w3, t3, s3⟩ := push_front_inv w2 h3
          simp only [List.set_cons_zero, Except.ok.injEq] at h
          subst h
          simp only [List.map_cons, List.map_nil, t3, t2, t1, t0, s3, s2, s1, s0]
          rfl

theorem push_back_push_front_spec_witness :
    LinkedList.WF ⟨5, 2⟩ ((World.boot (Mem.blank [5, 7, 9, 11] : Mem Nat)).runD
        [.ctorDefault, .push_back 0 1, .push_back 0 2]).mem ∧
      (0 :: LinkedList.toList ⟨5, 2⟩ ((World.boot (Mem.blank [5, 7, 9, 11] : Mem Nat)).runD
        [.ctorDefault, .push_back 0 1, .push_back 0 2]).mem) = [0, 1, 2] ∧
      ∃ l2 m2, LinkedList.push_front ⟨5, 2⟩
          ((World.boot (Mem.blank [5, 7, 9, 11] : Mem Nat)).runD
            [.ctorDefault, .push_back 0 1, .push_back 0 2]).mem 0 = Except.ok (l2, m2) ∧
        l2.WF m2 ∧
        l2.toList m2 = 0 :: LinkedList.toList ⟨5, 2⟩
          ((World.boot (Mem.blank [5, 7, 9, 11] : Mem Nat)).runD
            [.ctorDefault, .push_back 0 1, .push_back 0 2]).mem ∧
        l2.size = LinkedList.size ⟨5, 2⟩ + 1 ∧
        l2.nodes m2 = 11 :: LinkedList.nodes ⟨5, 2⟩
          ((World.boot (Mem.blank [5, 7, 9, 11] : Mem Nat)).runD
            [.ctorDefault, .push_back 0 1, .push_back 0 2]).mem :=
  ⟨by decide, by decide,
    (push_back_push_front_spec ⟨5, 2⟩
      ((World.boot (Mem.blank [5, 7, 9, 11] : Mem Nat)).runD
        [.ctorDefault, .push_back 0 1, .push_back 0 2]).mem
      { ((World.boot (Mem.blank [5, 7, 9, 11] : Mem Nat)).runD
          [.ctorDefault, .push_back 0 1, .push_back 0 2]).mem with
        live := [11, 9, 7, 5], supply := [] }
      11 0 (by decide) (by rfl)).2.1⟩

theorem split_at_index : ∀ (ns : List Nat) (i : Nat), i < ns.length →
    ∃ as p bs, ns = as ++ p :: bs ∧ as.length = i
  | [], i, h => absurd h (Nat.not_lt_zero i)
  | a :: ns, 0, _ => ⟨[], a, ns, rfl, rfl⟩
  | a :: ns, i + 1, h => by
    obtain ⟨as, p, bs, h1, h2⟩ := split_at_index ns i (Nat.lt_of_succ_lt_succ h)
    exact ⟨a :: as, p, bs, by rw [h1]; rfl, by rw [List.length_cons, h2]⟩

theorem eraseIdx_middle {α : Type} (p : α) (bs : List α) :
    ∀ as : List α, (as ++ p :: bs).eraseIdx as.length = as ++ bs
  | [] => rfl
  | a :: as => by
    show a :: (as ++ p :: bs).eraseIdx as.length = a :: (as ++ bs)
    rw [eraseIdx_middle p bs as]

/-- The iterator `begin()` incremented `i` times points to the payload node number `i`. -/
theorem advance_eq {l : LinkedList} {m : Mem T} {p : Nat} {as bs : List Nat}
    (hs : l.Shape m (as ++ p :: bs)) : LinkedList.advance m as.length (l.begin m) = p := by
  have hc := hs.1.right_chain
  rw [List.cons_append, List.append_assoc, List.cons_append] at hc
  exact iterate_chain m.right as l.root p (bs ++ [l.root]) hc

/-- Function `erase` of a payload node: the assertion holds and the node leaves the sequence. -/
theorem erase_ok {l : LinkedList} {m : Mem T} {p : Nat} {as bs : List Nat} (hm : MemOK m)
    (hs : l.Shape m (as ++ p :: bs)) :
    ∃ l2 m2, l.erase m p = Except.ok (l2, m2) ∧ l2.WF m2 ∧
      l2.toList m2 = (as ++ bs).map m.value ∧ l2.size = l.size - 1 ∧ l2.nodes m2 = as ++ bs := by
  obtain ⟨m2, h1, h2, h3, h4, -⟩ := del_spec hm hs
  refine ⟨_, m2, h1, h2.wf h3.memOK, ?_, rfl, h2.nodes_eq⟩
  unfold LinkedList.toList
  rw [h2.nodes_eq, h4]

/-- C10. On a well-formed list with element sequence `xs`: `erase` of the iterator at index
`i < size()` completes (the assertion `ptr != root` holds) with the sequence `xs` without
its element number `i` and with `size()` one less; on a non-empty list `pop_front()` is
`erase` at index 0 and leaves `xs.tail`, `pop_back()` is `erase` at index `size() - 1` and
leaves `xs` without its last element. The list stays well formed. -/
theorem erase_pop_spec (l : LinkedList) (m : Mem T) (hwf : l.WF m) :
    (∀ i : Nat, i < l.size →
        ∃ l2 m2, l.erase m (LinkedList.advance m i (l.begin m)) = Except.ok (l2, m2) ∧
          l2.WF m2 ∧ l2.toList m2 = (l.toList m).eraseIdx i ∧ l2.size + 1 = l.size) ∧
      (0 < l.size →
        l.pop_front m = l.erase m (LinkedList.advance m 0 (l.begin m)) ∧
        ∃ l2 m2, l.pop_front m = Except.ok (l2, m2) ∧ l2.WF m2 ∧
          l2.toList m2 = (l.toList m).tail ∧ l2.size + 1 = l.size) ∧
      (0 < l.size →
        l.pop_back m = l.erase m (LinkedList.advance m (l.size - 1) (l.begin m)) ∧
        ∃ l2 m2, l.pop_back m = Except.ok (l2, m2) ∧ l2.WF m2 ∧
          l2.toList m2 = (l.toList m).dropLast ∧ l2.size + 1 = l.size) := by
  have hs := hwf.shape
  have hlen : (l.nodes m).length = l.sz := hs.2.1
  have herase : ∀ i : Nat, i < l.size →
      ∃ l2 m2, l.erase m (LinkedList.advance m i (l.begin m)) = Except.ok (l2, m2) ∧
        l2.WF m2 ∧ l2.toList m2 = (l.toList m).eraseIdx i ∧ l2.size + 1 = l.size := by
    intro i hi
    obtain ⟨as, p, bs, hsplit, hi2⟩ := split_at_index (l.nodes m) i (by rw [hlen]; exact hi)
    have hs1 : l.Shape m (as ++ p :: bs) := by rw [← hsplit]; exact hs
    obtain ⟨l2, m2, h1, h2, h3, h4, -⟩ := erase_ok hwf.1 hs1
    have hpos := advance_eq hs1
    rw [hi2] at hpos
    refine ⟨l2, m2, by rw [hpos]; exact h1, h2, ?_, ?_⟩
    · rw [h3]
      unfold LinkedList.toList
      rw [hsplit]
      simp only [List.map_append, List.map_cons]
      have := eraseIdx_middle (m.value p) (bs.map m.value) (as.map m.value)
      rw [List.length_map, hi2] at this
      rw [this]
    · rw [h4]
      have : 0 < l.size := Nat.lt_of_le_of_lt (Nat.zero_le i) hi
      omega
  refine ⟨herase, ?_, ?_⟩
  · intro hpos
    refine ⟨rfl, ?_⟩
    obtain ⟨l2, m2, h1, h2, h3, h4⟩ := herase 0 hpos
    refine ⟨l2, m2, h1, h2, ?_, h4⟩
    rw [h3]
    cases l.toList m <;> rfl
  · intro hpos
    obtain ⟨l2, m2, h1, h2, h3, h4⟩ := herase (l.size - 1) (by omega)
    have hptr : m.left l.root = LinkedList.advance m (l.size - 1) (l.begin m) := by
      have hne : l.nodes m ≠ [] := by
        intro e
        rw [e] at hlen
        exact absurd hlen.symm (Nat.ne_of_gt hpos)
      obtain ⟨as, p, hsplit⟩ : ∃ as p, l.nodes m = as ++ [p] := by
        rcases List.eq_nil_or_concat (l.nodes m) with h | ⟨as, p, h⟩
        · exact absurd h hne
        · exact ⟨as, p, by rw [h, List.concat_eq_append]⟩
      have hs1 : l.Shape m (as ++ p :: []) := by rw [← hsplit]; exact hs
      obtain ⟨X0, prev, hX⟩ := exists_snoc l.root as
      have hl := (ring_links hs1.1 hX (rfl : ([] : List Nat) ++ [l.root] = l.root :: [])).2
      have ha := advance_eq hs1
      have hlen2 : as.length = l.size - 1 := by
        have := hlen
        rw [hsplit, List.length_append, List.length_singleton] at this
        show as.length = l.sz - 1
        omega
      rw [hlen2] at ha
      rw [ha, hl.2]
    have hcall : l.pop_back m = l.erase m (LinkedList.advance m (l.size - 1) (l.begin m)) := by
      unfold LinkedList.pop_back LinkedList.erase
      rw [hptr]
    refine ⟨hcall, l2, m2, by rw [hcall]; exact h1, h2, ?_, h4⟩
    rw [h3]
    have hl : (l.toList m).length = l.size := by
      unfold LinkedList.toList
      rw [List.length_map]
      exact hlen
    exact (List.dropLast_eq_eraseIdx (by rw [hl]; omega)).symm

theorem erase_pop_spec_witness :
    LinkedList.WF ⟨5, 3⟩ ((World.boot (Mem.blank [5, 7, 9, 11] : Mem Nat)).runD
        [.ctorDefault, .push_back 0 1, .push_back 0 2, .push_back 0 3]).mem ∧
      LinkedList.toList ⟨5, 3⟩ ((World.boot (Mem.blank [5, 7, 9, 11] : Mem Nat)).runD
        [.ctorDefault, .push_back 0 1, .push_back 0 2, .push_back 0 3]).mem = [1, 2, 3] ∧
      ∃ l2 m2, LinkedList.erase ⟨5, 3⟩
          ((World.boot (Mem.blank [5, 7, 9, 11] : Mem Nat)).runD
            [.ctorDefault, .push_back 0 1, .push_back 0 2, .push_back 0 3]).mem
          (LinkedList.advance ((World.boot (Mem.blank [5, 7, 9, 11] : Mem Nat)).runD
            [.ctorDefault, .push_back 0 1, .push_back 0 2, .push_back 0 3]).mem 1
            (LinkedList.begin ⟨5, 3⟩ ((World.boot (Mem.blank [5, 7, 9, 11] : Mem Nat)).runD
              [.ctorDefault, .push_back 0 1, .push_back 0 2, .push_back 0 3]).mem)) =
            Except.ok (l2, m2) ∧
        l2.WF m2 ∧
        l2.toList m2 = (LinkedList.toList ⟨5, 3⟩
          ((World.boot (Mem.blank [5, 7, 9, 11] : Mem Nat)).runD
            [.ctorDefault, .push_back 0 1, .push_back 0 2, .push_back 0 3]).mem).eraseIdx 1 ∧
        l2.size + 1 = LinkedList.size ⟨5, 3⟩ :=
  ⟨by decide, by decide,
    (erase_pop_spec ⟨5, 3⟩ ((World.boot (Mem.blank [5, 7, 9, 11] : Mem Nat)).runD
      [.ctorDefault, .push_back 0 1, .push_back 0 2, .push_back 0 3]).mem (by decide)).1 1
      (by decide)⟩

end Claims

/-! ## Theorems of Part III, continued: positions, round trips, traversal -/

section InsertClaims

variable {T : Type}

/-- The iterator `begin()` incremented `as.length` times points to the node that follows
`as`, or to the sentinel when nothing follows. -/
theorem advance_gap {l : LinkedList} {m : Mem T} {as bs Y0 : List Nat} {next : Nat}
    (hs : l.Shape m (as ++ bs)) (hY : bs ++ [l.root] = next :: Y0) :
    LinkedList.advance m as.length (l.begin m) = next := by
  have hc := hs.1.right_chain
  rw [List.cons_append, List.append_assoc, hY] at hc
  exact iterate_chain m.right as l.root next Y0 hc

/-- Function `insert` at the position after the nodes `as`: the new node is linked
between `as` and `bs`. -/
theorem insert_ok {l : LinkedList} {m m1 : Mem T} {tmp : Nat} {as bs : List Nat} (v : T)
    (hm : MemOK m) (hs : l.Shape m (as ++ bs)) (ha : m.allocate = Except.ok (tmp, m1)) :
    ∃ l2 m2, l.insert m (LinkedList.advance m as.length (l.begin m)) v = Except.ok (l2, m2) ∧
      l2.WF m2 ∧ l2.toList m2 = as.map m.value ++ v :: bs.map m.value ∧
      l2.size = l.size + 1 ∧ l2.nodes m2 = as ++ tmp :: bs := by
  obtain ⟨X0, prev, hX⟩ := exists_snoc l.root as
  obtain ⟨next, Y0, hY⟩ := exists_cons bs l.root
  have hpos := advance_gap hs hY
  have hgap := ring_link_gap hs.1 hX hY
  obtain ⟨m2, h1, h2, h3, h4⟩ := putAfter_toList v hm hs hX ha
  refine ⟨_, m2, ?_, h2, h4, rfl, h3⟩
  unfold LinkedList.insert
  rw [hpos, hgap.2]
  exact h1

/-- C11. On a well-formed list with element sequence `xs`, when the allocator delivers a
node, `insert(it, v)` with `it` the iterator at index `i <= size()` (`begin()` incremented
`i` times, which is `end()` for `i = size()`) completes with the sequence
`take i xs ++ [v] ++ drop i xs` and `size()` one more; `insert(end(), v)` is the same call
of `putAfter` as `push_back(v)` and `insert(begin(), v)` the same as `push_front(v)`. -/
theorem insert_spec (l : LinkedList) (m m1 : Mem T) (tmp : Nat) (v : T) (hwf : l.WF m)
    (ha : m.allocate = Except.ok (tmp, m1)) :
    (∀ i : Nat, i ≤ l.size →
        ∃ l2 m2, l.insert m (LinkedList.advance m i (l.begin m)) v = Except.ok (l2, m2) ∧
          l2.WF m2 ∧
          l2.toList m2 = (l.toList m).take i ++ [v] ++ (l.toList m).drop i ∧
          l2.size = l.size + 1) ∧
      LinkedList.advance m l.size (l.begin m) = l.endIter ∧
      l.insert m l.endIter v = l.push_back m v ∧
      l.insert m (l.begin m) v = l.push_front m v := by
  have hs := hwf.shape
  have hlen : (l.nodes m).length = l.sz := hs.2.1
  refine ⟨?_, ?_, rfl, ?_⟩
  · intro i hi
    have hsplit : (l.nodes m).take i ++ (l.nodes m).drop i = l.nodes m :=
      List.take_append_drop i _
    have hs1 : l.Shape m ((l.nodes m).take i ++ (l.nodes m).drop i) := by
      rw [hsplit]
      exact hs
    have hi2 : ((l.nodes m).take i).length = i := by
      rw [List.length_take, hlen]
      exact Nat.min_eq_left hi
    obtain ⟨l2, m2, h1, h2, h3, h4, -⟩ := insert_ok v hwf.1 hs1 ha
    rw [hi2] at h1
    refine ⟨l2, m2, h1, h2, ?_, h4⟩
    rw [h3]
    unfold LinkedList.toList
    rw [List.map_take, List.map_drop, List.append_assoc, List.singleton_append]
  · have := iterate_chain m.right (l.nodes m) l.root l.root [] hs.1.right_chain
    rw [hlen] at this
    exact this
  · obtain ⟨next, Y0, hY⟩ := exists_cons (l.nodes m) l.root
    have hs0 : l.Shape m ([] ++ l.nodes m) := hs
    have hg := @ring_link_gap T m l.root [] (l.nodes m) [] Y0 l.root next hs0.1 rfl hY
    unfold LinkedList.insert LinkedList.push_front LinkedList.begin
    rw [hg.1, hg.2]

theorem insert_spec_witness :
    LinkedList.WF ⟨5, 3⟩ sampleMem ∧ LinkedList.toList ⟨5, 3⟩ sampleMem = [1, 2, 3] ∧
      ∃ l2 m2, LinkedList.insert ⟨5, 3⟩ sampleMem
          (LinkedList.advance sampleMem 1 (LinkedList.begin ⟨5, 3⟩ sampleMem)) 8 =
            Except.ok (l2, m2) ∧
        l2.WF m2 ∧
        l2.toList m2 = (LinkedList.toList ⟨5, 3⟩ sampleMem).take 1 ++ [8] ++
          (LinkedList.toList ⟨5, 3⟩ sampleMem).drop 1 ∧
        l2.size = LinkedList.size ⟨5, 3⟩ + 1 :=
  ⟨by decide, by decide,
    (insert_spec ⟨5, 3⟩ sampleMem sampleMemNext 13 8 (by decide) (by rfl)).1 1 (by decide)⟩

end InsertClaims

section RoundTrip

variable {T : Type}

/-- On a list whose last payload node is `p`, `pop_back()` is `del(p)`. -/
theorem pop_back_eq_del {l : LinkedList} {m : Mem T} {p : Nat} {as : List Nat}
    (hs : l.Shape m (as ++ [p])) : l.pop_back m = l.del m p := by
  obtain ⟨X0, prev, hX⟩ := exists_snoc l.root as
  have hl := (ring_links hs.1 hX (rfl : ([] : List Nat) ++ [l.root] = l.root :: [])).2
  unfold LinkedList.pop_back
  rw [hl.2]

/-- On a list whose first payload node is `p`, `pop_front()` is `del(p)`. -/
theorem pop_front_eq_del {l : LinkedList} {m : Mem T} {p : Nat} {bs : List Nat}
    (hs : l.Shape m (p :: bs)) : l.pop_front m = l.del m p := by
  obtain ⟨next, Y0, hY⟩ := exists_cons bs l.root
  have hs0 : l.Shape m ([] ++ p :: bs) := hs
  have hl := (@ring_links T m l.root p [] bs [] Y0 l.root next hs0.1 rfl hY).1
  unfold LinkedList.pop_front
  rw [hl.1]

/-- A list of size 0 has `begin() == end()`, and conversely. -/
theorem begin_eq_end_iff {l : LinkedList} {m : Mem T} (hwf : l.WF m) :
    l.begin m = l.endIter ↔ l.size = 0 := by
  have hs := hwf.shape
  constructor
  · intro h
    by_contra hne
    have hlen : 0 < (l.nodes m).length := by
      rw [hs.2.1]
      exact Nat.pos_of_ne_zero hne
    obtain ⟨as, p, bs, hsplit, has⟩ := split_at_index (l.nodes m) 0 hlen
    have hs1 : l.Shape m (as ++ p :: bs) := by rw [← hsplit]; exact hs
    have hp := advance_eq hs1
    rw [has] at hp
    have hp2 : l.begin m = p := hp
    have hnd := hs1.1.1
    rw [← hp2, h] at hnd
    simp [LinkedList.endIter] at hnd
  · intro h
    have hn : l.nodes m = [] := List.length_eq_zero.1 (by rw [hs.2.1]; exact h)
    have hc := hs.1.2
    rw [hn] at hc
    have hc2 : List.Chain' (Link m) [l.root, l.root] := hc
    rw [List.chain'_cons] at hc2
    exact hc2.1.1

/-- Specification of `push_back(value)` on the level of nodes: the node the allocator
returns is linked last. -/
theorem push_back_spec {l : LinkedList} {m m1 : Mem T} {tmp : Nat} {ns : List Nat} (v : T)
    (hm : MemOK m) (hs : l.Shape m ns) (ha : m.allocate = Except.ok (tmp, m1)) :
    ∃ m2, l.push_back m v = Except.ok (⟨l.root, l.sz + 1⟩, m2) ∧
      LinkedList.Shape ⟨l.root, l.sz + 1⟩ m2 (ns ++ [tmp]) ∧
      Effect m (l.root :: ns) m2 (l.root :: (ns ++ [tmp])) ∧
      m2.value tmp = v ∧ (∀ q, q ≠ tmp → m2.value q = m.value q) ∧
      m2.live = tmp :: m.live ∧ m2.supply = m1.supply := by
  obtain ⟨X0, prev, hX⟩ := exists_snoc l.root ns
  have hs0 : l.Shape m (ns ++ []) := by rw [List.append_nil]; exact hs
  have hg := ring_link_gap hs0.1 hX (rfl : ([] : List Nat) ++ [l.root] = l.root :: [])
  obtain ⟨m2, h1, h2, h3, h4, h5, h6, h7⟩ := putAfter_spec v hm hs0 hX ha
  refine ⟨m2, ?_, h2, ?_, h4, h5, h6, h7⟩
  · unfold LinkedList.push_back
    rw [hg.2]
    exact h1
  · rw [List.append_nil] at h3
    exact h3

/-- Specification of `push_front(value)` on the level of nodes: the node the allocator
returns is linked first. -/
theorem push_front_spec {l : LinkedList} {m m1 : Mem T} {tmp : Nat} {ns : List Nat} (v : T)
    (hm : MemOK m) (hs : l.Shape m ns) (ha : m.allocate = Except.ok (tmp, m1)) :
    ∃ m2, l.push_front m v = Except.ok (⟨l.root, l.sz + 1⟩, m2) ∧
      LinkedList.Shape ⟨l.root, l.sz + 1⟩ m2 (tmp :: ns) ∧
      Effect m (l.root :: ns) m2 (l.root :: tmp :: ns) ∧
      m2.value tmp = v ∧ (∀ q, q ≠ tmp → m2.value q = m.value q) ∧
      m2.live = tmp :: m.live ∧ m2.supply = m1.supply := by
  have hs0 : l.Shape m ([] ++ ns) := hs
  exact @putAfter_spec T l m m1 l.root tmp [] ns [] v hm hs0 rfl ha

/-- The payloads of the nodes of a list are untouched by an operation that allocated
`tmp` and wrote no other payload. -/
theorem map_value_fresh {m m2 m1 : Mem T} {tmp : Nat} {ns : List Nat}
    (ha : m.allocate = Except.ok (tmp, m1)) (hlive : ∀ q ∈ ns, q ∈ m.live)
    (hv : ∀ q, q ≠ tmp → m2.value q = m.value q) : ns.map m2.value = ns.map m.value := by
  obtain ⟨-, -, afresh, -⟩ := Mem.allocate_ok ha
  exact List.map_congr_left fun q hq => hv q (fun e => afresh (e ▸ hlive q hq))

/-- After `push_back(v)`, `pop_back()` completes and gives back the list and the
storage as they were. -/
theorem push_pop_back_ok (l : LinkedList) (m m1 : Mem T) (tmp : Nat) (v : T)
    (hwf : l.WF m) (ha : m.allocate = Except.ok (tmp, m1)) :
    ∃ l2 m2 l3 m3, l.push_back m v = Except.ok (l2, m2) ∧
      l2.pop_back m2 = Except.ok (l3, m3) ∧ l3.WF m3 ∧ l3.toList m3 = l.toList m ∧
      l3.size = l.size ∧ l3.nodes m3 = l.nodes m ∧ m3.live = m.live := by
  have hs := hwf.shape
  obtain ⟨m2, h1, h2, h3, -, h5, h6, -⟩ := push_back_spec v hwf.1 hs ha
  obtain ⟨m3, d1, d2, d3, d4, d5, -⟩ := del_spec h3.memOK h2
  rw [List.append_nil] at d2
  refine ⟨_, m2, _, m3, h1, ?_, d2.wf d3.memOK, ?_, rfl, d2.nodes_eq, ?_⟩
  · rw [pop_back_eq_del h2]
    exact d1
  · unfold LinkedList.toList
    rw [d2.nodes_eq, d4]
    exact map_value_fresh ha (fun q hq => hs.2.2 q (List.mem_cons_of_mem _ hq)) h5
  · rw [d5, h6]
    exact List.erase_cons_head tmp m.live

/-- After `push_front(v)`, `pop_front()` completes and gives back the list and the
storage as they were. -/
theorem push_pop_front_ok (l : LinkedList) (m m1 : Mem T) (tmp : Nat) (v : T)
    (hwf : l.WF m) (ha : m.allocate = Except.ok (tmp, m1)) :
    ∃ l2 m2 l3 m3, l.push_front m v = Except.ok (l2, m2) ∧
      l2.pop_front m2 = Except.ok (l3, m3) ∧ l3.WF m3 ∧ l3.toList m3 = l.toList m ∧
      l3.size = l.size ∧ l3.nodes m3 = l.nodes m ∧ m3.live = m.live := by
  have hs := hwf.shape
  obtain ⟨m2, h1, h2, h3, -, h5, h6, -⟩ := push_front_spec v hwf.1 hs ha
  have h2b : LinkedList.Shape ⟨l.root, l.sz + 1⟩ m2 ([] ++ tmp :: l.nodes m) := h2
  obtain ⟨m3, d1, d2, d3, d4, d5, -⟩ := del_spec h3.memOK h2b
  rw [List.nil_append] at d2
  refine ⟨_, m2, _, m3, h1, ?_, d2.wf d3.memOK, ?_, rfl, d2.nodes_eq, ?_⟩
  · rw [pop_front_eq_del h2]
    exact d1
  · unfold LinkedList.toList
    rw [d2.nodes_eq, d4]
    exact map_value_fresh ha (fun q hq => hs.2.2 q (List.mem_cons_of_mem _ hq)) h5
  · rw [d5, h6]
    exact List.erase_cons_head tmp m.live

/-- On a non-empty list `pop_back()` completes and removes one element. -/
theorem pop_back_ok {l : LinkedList} {m : Mem T} (hwf : l.WF m) (hpos : 0 < l.size) :
    ∃ l2 m2, l.pop_back m = Except.ok (l2, m2) ∧ l2.WF m2 ∧ l2.size + 1 = l.size ∧
      l2.toList m2 = (l.toList m).dropLast := by
  have hs := hwf.shape
  have hne : l.nodes m ≠ [] := by
    intro e
    have := hs.2.1
    rw [e] at this
    exact absurd this.symm (Nat.ne_of_gt hpos)
  obtain ⟨as, p, hsplit⟩ : ∃ as p, l.nodes m = as ++ [p] := by
    rcases List.eq_nil_or_concat (l.nodes m) with h | ⟨as, p, h⟩
    · exact absurd h hne
    · exact ⟨as, p, by rw [h, List.concat_eq_append]⟩
  have hs1 : l.Shape m (as ++ [p]) := by rw [← hsplit]; exact hs
  obtain ⟨m2, d1, d2, d3, d4, -⟩ := del_spec hwf.1 hs1
  rw [List.append_nil] at d2
  refine ⟨_, m2, by rw [pop_back_eq_del hs1]; exact d1, d2.wf d3.memOK, ?_, ?_⟩
  · show l.sz - 1 + 1 = l.sz
    exact Nat.sub_add_cancel hpos
  · unfold LinkedList.toList
    rw [d2.nodes_eq, d4, hsplit, List.map_append, List.map_singleton, List.dropLast_concat]

/-- On a non-empty list `pop_front()` completes and removes one element. -/
theorem pop_front_ok {l : LinkedList} {m : Mem T} (hwf : l.WF m) (hpos : 0 < l.size) :
    ∃ l2 m2, l.pop_front m = Except.ok (l2, m2) ∧ l2.WF m2 ∧ l2.size + 1 = l.size ∧
      l2.toList m2 = (l.toList m).tail := by
  have hs := hwf.shape
  obtain ⟨p, bs, hsplit⟩ : ∃ p bs, l.nodes m = p :: bs := by
    cases hn : l.nodes m with
    | nil =>
      have := hs.2.1
      rw [hn] at this
      exact absurd this.symm (Nat.ne_of_gt hpos)
    | cons p bs => exact ⟨p, bs, rfl⟩
  have hs1 : l.Shape m ([] ++ p :: bs) := by rw [List.nil_append, ← hsplit]; exact hs
  obtain ⟨m2, d1, d2, d3, d4, -⟩ := del_spec hwf.1 hs1
  rw [List.nil_append] at d2
  have hs2 : l.Shape m (p :: bs) := hs1
  refine ⟨_, m2, by rw [pop_front_eq_del hs2]; exact d1, d2.wf d3.memOK, ?_, ?_⟩
  · show l.sz - 1 + 1 = l.sz
    exact Nat.sub_add_cancel hpos
  · unfold LinkedList.toList
    rw [d2.nodes_eq, d4, hsplit, List.map_cons, List.tail_cons]

/-- A member function call in a program with one list. -/
theorem onList_single (m : Mem T) (l : LinkedList)
    (f : LinkedList → Except Fault (LinkedList × Mem T)) :
    World.onList ⟨m, [l]⟩ 0 (fun x => World.update ⟨m, [l]⟩ 0 (f x)) =
      match f l with
      | Except.error e => Except.error e
      | Except.ok (l2, m2) => Except.ok ⟨m2, [l2]⟩ := by
  simp only [World.onList, List.getElem?_cons_zero, World.update]
  cases f l with
  | error e => rfl
  | ok r => rfl

/-- The pushes of a program with one list: when they all complete, the values follow the
old elements in the order of the calls. -/
theorem run_push_backs [Inhabited T] : ∀ (vs : List T) (m : Mem T) (l : LinkedList)
    (w1 : World T), l.WF m →
    World.run ⟨m, [l]⟩ (vs.map (fun v => ListOp.push_back 0 v)) = Except.ok w1 →
    ∃ l1, w1.lists = [l1] ∧ l1.WF w1.mem ∧ l1.toList w1.mem = l.toList m ++ vs ∧
      l1.size = l.size + vs.length
  | [], m, l, w1, hwf, h => by
    simp only [List.map_nil, World.run, Except.ok.injEq] at h
    subst h
    exact ⟨l, rfl, hwf, (List.append_nil _).symm, rfl⟩
  | v :: vs, m, l, w1, hwf, h => by
    simp only [List.map_cons, World.run, World.step] at h
    rw [onList_single m l (fun x => x.push_back m v)] at h
    cases hp : l.push_back m v with
    | error e => rw [hp] at h; cases h
    | ok r =>
      obtain ⟨l2, m2⟩ := r
      rw [hp] at h
      obtain ⟨w2, t2, s2⟩ := push_back_inv hwf hp
      obtain ⟨l1, a1, a2, a3, a4⟩ := run_push_backs vs m2 l2 w1 w2 h
      refine ⟨l1, a1, a2, ?_, ?_⟩
      · rw [a3, t2, List.append_assoc, List.singleton_append]
      · rw [a4, s2, List.length_cons]
        omega

/-- The front pushes of a program with one list: when they all complete, the values
precede the old elements, the last one pushed first. -/
theorem run_push_fronts [Inhabited T] : ∀ (vs : List T) (m : Mem T) (l : LinkedList)
    (w1 : World T), l.WF m →
    World.run ⟨m, [l]⟩ (vs.map (fun v => ListOp.push_front 0 v)) = Except.ok w1 →
    ∃ l1, w1.lists = [l1] ∧ l1.WF w1.mem ∧ l1.toList w1.mem = vs.reverse ++ l.toList m ∧
      l1.size = l.size + vs.length
  | [], m, l, w1, hwf, h => by
    simp only [List.map_nil, World.run, Except.ok.injEq] at h
    subst h
    exact ⟨l, rfl, hwf, rfl, rfl⟩
  | v :: vs, m, l, w1, hwf, h => by
    simp only [List.map_cons, World.run, World.step] at h
    rw [onList_single m l (fun x => x.push_front m v)] at h
    cases hp : l.push_front m v with
    | error e => rw [hp] at h; cases h
    | ok r =>
      obtain ⟨l2, m2⟩ := r
      rw [hp] at h
      obtain ⟨w2, t2, s2⟩ := push_front_inv hwf hp
      obtain ⟨l1, a1, a2, a3, a4⟩ := run_push_fronts vs m2 l2 w1 w2 h
      refine ⟨l1, a1, a2, ?_, ?_⟩
      · rw [a3, t2, List.reverse_cons, List.append_assoc, List.singleton_append]
      · rw [a4, s2, List.length_cons]
        omega

/-- As many `pop_back()` as the list allows always complete. -/
theorem run_pop_backs [Inhabited T] : ∀ (k : Nat) (m : Mem T) (l : LinkedList), l.WF m →
    k ≤ l.size →
    ∃ m2 l2, World.run ⟨m, [l]⟩ (List.replicate k (ListOp.pop_back 0)) = Except.ok ⟨m2, [l2]⟩ ∧
      l2.WF m2 ∧ l2.size + k = l.size
  | 0, m, l, hwf, _ => ⟨m, l, rfl, hwf, rfl⟩
  | k + 1, m, l, hwf, hk => by
    obtain ⟨l1, m1, h1, h2, h3, -⟩ := pop_back_ok hwf (by omega)
    obtain ⟨m2, l2, a1, a2, a3⟩ := run_pop_backs k m1 l1 h2 (by omega)
    refine ⟨m2, l2, ?_, a2, by omega⟩
    simp only [List.replicate_succ, World.run, World.step]
    rw [onList_single m l (fun x => x.pop_back m), h1]
    exact a1

/-- As many `pop_front()` as the list allows always complete. -/
theorem run_pop_fronts [Inhabited T] : ∀ (k : Nat) (m : Mem T) (l : LinkedList), l.WF m →
    k ≤ l.size →
    ∃ m2 l2, World.run ⟨m, [l]⟩ (List.replicate k (ListOp.pop_front 0)) = Except.ok ⟨m2, [l2]⟩ ∧
      l2.WF m2 ∧ l2.size + k = l.size
  | 0, m, l, hwf, _ => ⟨m, l, rfl, hwf, rfl⟩
  | k + 1, m, l, hwf, hk => by
    obtain ⟨l1, m1, h1, h2, h3, -⟩ := pop_front_ok hwf (by omega)
    obtain ⟨m2, l2, a1, a2, a3⟩ := run_pop_fronts k m1 l1 h2 (by omega)
    refine ⟨m2, l2, ?_, a2, by omega⟩
    simp only [List.replicate_succ, World.run, World.step]
    rw [onList_single m l (fun x => x.pop_front m), h1]
    exact a1

/-- The default constructor in a program without lists: when it completes there is one
empty well-formed list. -/
theorem run_ctorDefault [Inhabited T] (m0 : Mem T) (ops : List (ListOp T)) (w : World T)
    (h : (World.boot m0).run (ListOp.ctorDefault :: ops) = Except.ok w) :
    ∃ m l, l.WF m ∧ l.toList m = [] ∧ l.size = 0 ∧ World.run ⟨m, [l]⟩ ops = Except.ok w := by
  simp only [World.run, World.step, World.create] at h
  cases h0 : LinkedList.ctorDefault (World.boot m0).mem with
  | error e => rw [h0] at h; cases h
  | ok r0 =>
    obtain ⟨l0, ma⟩ := r0
    rw [h0] at h
    obtain ⟨w0, t0, s0⟩ := ctorDefault_inv (boot_inv m0).1 h0
    exact ⟨ma, l0, w0, t0, s0, h⟩

/-- C12. List round trip. On a well-formed list, when the allocator delivers a node,
`push_back(v)` followed by `pop_back()`, and `push_front(v)` followed by `pop_front()`,
complete and restore the element sequence, `size()`, the nodes and the set of allocated
nodes. Starting from `List()`, once `N` calls of `push_back` have completed, `N` calls of
`pop_back` complete and leave `size() == 0` and `begin() == end()`; likewise for
`push_front` and `pop_front`. -/
theorem push_pop_round_trip [Inhabited T] (l : LinkedList) (m m1 : Mem T) (tmp : Nat) (v : T)
    (hwf : l.WF m) (ha : m.allocate = Except.ok (tmp, m1)) :
    (∃ l2 m2 l3 m3, l.push_back m v = Except.ok (l2, m2) ∧
        l2.pop_back m2 = Except.ok (l3, m3) ∧ l3.WF m3 ∧ l3.toList m3 = l.toList m ∧
        l3.size = l.size ∧ l3.nodes m3 = l.nodes m ∧ m3.live = m.live) ∧
      (∃ l2 m2 l3 m3, l.push_front m v = Except.ok (l2, m2) ∧
        l2.pop_front m2 = Except.ok (l3, m3) ∧ l3.WF m3 ∧ l3.toList m3 = l.toList m ∧
        l3.size = l.size ∧ l3.nodes m3 = l.nodes m ∧ m3.live = m.live) ∧
      (∀ (m0 : Mem T) (vs : List T) (w1 : World T),
        (World.boot m0).run (ListOp.ctorDefault :: vs.map (fun x => ListOp.push_back 0 x)) =
          Except.ok w1 →
        ∃ m2 l2, w1.run (List.replicate vs.length (ListOp.pop_back 0)) =
            Except.ok ⟨m2, [l2]⟩ ∧
          l2.WF m2 ∧ l2.size = 0 ∧ l2.begin m2 = l2.endIter) ∧
      ∀ (m0 : Mem T) (vs : List T) (w1 : World T),
        (World.boot m0).run (ListOp.ctorDefault :: vs.map (fun x => ListOp.push_front 0 x)) =
          Except.ok w1 →
        ∃ m2 l2, w1.run (List.replicate vs.length (ListOp.pop_front 0)) =
            Except.ok ⟨m2, [l2]⟩ ∧
          l2.WF m2 ∧ l2.size = 0 ∧ l2.begin m2 = l2.endIter := by
  refine ⟨push_pop_back_ok l m m1 tmp v hwf ha, push_pop_front_ok l m m1 tmp v hwf ha, ?_, ?_⟩
  · intro m0 vs w1 h
    obtain ⟨ma, l0, w0, -, s0, hrun⟩ := run_ctorDefault m0 _ w1 h
    obtain ⟨l1, a1, a2, -, a4⟩ := run_push_backs vs ma l0 w1 w0 hrun
    obtain ⟨mw, lw⟩ := w1
    simp only at a1 a2
    subst a1
    obtain ⟨m2, l2, b1, b2, b3⟩ := run_pop_backs vs.length mw l1 a2 (by omega)
    have hz : l2.size = 0 := by omega
    exact ⟨m2, l2, b1, b2, hz, (begin_eq_end_iff b2).2 hz⟩
  · intro m0 vs w1 h
    obtain ⟨ma, l0, w0, -, s0, hrun⟩ := run_ctorDefault m0 _ w1 h
    obtain ⟨l1, a1, a2, -, a4⟩ := run_push_fronts vs ma l0 w1 w0 hrun
    obtain ⟨mw, lw⟩ := w1
    simp only at a1 a2
    subst a1
    obtain ⟨m2, l2, b1, b2, b3⟩ := run_pop_fronts vs.length mw l1 a2 (by omega)
    have hz : l2.size = 0 := by omega
    exact ⟨m2, l2, b1, b2, hz, (begin_eq_end_iff b2).2 hz⟩

theorem push_pop_round_trip_witness :
    LinkedList.WF ⟨5, 3⟩ sampleMem ∧
      ∃ l2 m2 l3 m3, LinkedList.push_back ⟨5, 3⟩ sampleMem 4 = Except.ok (l2, m2) ∧
        l2.pop_back m2 = Except.ok (l3, m3) ∧ l3.WF m3 ∧
        l3.toList m3 = LinkedList.toList ⟨5, 3⟩ sampleMem ∧
        l3.size = LinkedList.size ⟨5, 3⟩ ∧
        l3.nodes m3 = LinkedList.nodes ⟨5, 3⟩ sampleMem ∧ m3.live = sampleMem.live :=
  ⟨by decide, (push_pop_round_trip ⟨5, 3⟩ sampleMem sampleMemNext 13 4 (by decide) (by rfl)).1⟩

end RoundTrip

section Traversal

variable {T : Type}

theorem incN_forward (m : Mem T) : ∀ (k p : Nat),
    BaseIterator.incN m k ⟨p, false⟩ = ⟨LinkedList.advance m k p, false⟩
  | 0, _ => rfl
  | k + 1, p => by
    have ih := incN_forward m k (m.right p)
    unfold BaseIterator.incN LinkedList.advance at ih ⊢
    rw [Function.iterate_succ_apply, Function.iterate_succ_apply]
    exact ih

theorem incN_reverse (m : Mem T) : ∀ (k p : Nat),
    BaseIterator.incN m k ⟨p, true⟩ = ⟨LinkedList.advanceRev m k p, true⟩
  | 0, _ => rfl
  | k + 1, p => by
    have ih := incN_reverse m k (m.left p)
    unfold BaseIterator.incN LinkedList.advanceRev at ih ⊢
    rw [Function.iterate_succ_apply, Function.iterate_succ_apply]
    exact ih

/-- The traversal loop over a walk that ends at `stop` reads the payloads of the walk, for
any bound that is at least its length. -/
theorem collect_walk (m : Mem T) (r : Bool) (stop : Nat) : ∀ (rest : List Nat) (p fuel : Nat),
    walk (if r then m.left else m.right) (rest.length + 1) p = rest ++ [stop] → stop ∉ rest →
    rest.length ≤ fuel →
    BaseIterator.collect m ⟨stop, r⟩ fuel ⟨p, r⟩ = some (rest.map m.value)
  | [], p, fuel, hw, _, _ => by
    have hw1 : [p] = [stop] := hw
    have hp : p = stop := List.head_eq_of_cons_eq hw1
    subst hp
    cases fuel <;> simp [BaseIterator.collect, BaseIterator.opNe]
  | a :: rest, p, fuel, hw, hstop, hfuel => by
    have hw1 : p :: walk (if r then m.left else m.right) (rest.length + 1)
        ((if r then m.left else m.right) p) = a :: (rest ++ [stop]) := hw
    obtain ⟨e0, hw2⟩ := List.cons.inj hw1
    subst e0
    have hne : p ≠ stop := fun e => hstop (e ▸ List.mem_cons_self _ _)
    obtain ⟨f, rfl⟩ : ∃ f, fuel = f + 1 :=
      ⟨fuel - 1, by simp only [List.length_cons] at hfuel; omega⟩
    have hinc : (⟨p, r⟩ : BaseIterator).inc m = ⟨(if r then m.left else m.right) p, r⟩ := by
      cases r <;> rfl
    have ih := collect_walk m r stop rest _ f hw2
      (fun h => hstop (List.mem_cons_of_mem _ h))
      (by simp only [List.length_cons] at hfuel; omega)
    show (if (⟨p, r⟩ : BaseIterator).opNe ⟨stop, r⟩ then
      (BaseIterator.collect m ⟨stop, r⟩ f ((⟨p, r⟩ : BaseIterator).inc m)).map
        (fun xs => (⟨p, r⟩ : BaseIterator).deref m :: xs) else some []) = _
    have hop : (⟨p, r⟩ : BaseIterator).opNe ⟨stop, r⟩ = true := by
      simp [BaseIterator.opNe, hne]
    rw [hop, if_pos rfl, hinc, ih]
    rfl

/-- Forward and reverse traversal of a well-formed list. -/
theorem collect_shape {l : LinkedList} {m : Mem T} {ns : List Nat} (hs : l.Shape m ns)
    (fuel : Nat) (hfuel : l.size ≤ fuel) :
    BaseIterator.collect m l.cend fuel (l.cbegin m) = some (l.toList m) ∧
      BaseIterator.collect m l.crend fuel (l.crbegin m) = some (l.toList m).reverse := by
  have hroot : l.root ∉ ns := (List.nodup_cons.1 hs.1.1).1
  have hlen : ns.length ≤ fuel := by rw [hs.2.1]; exact hfuel
  have htl : l.toList m = ns.map m.value := by
    unfold LinkedList.toList
    rw [hs.nodes_eq]
  constructor
  · rw [htl]
    exact collect_walk m false l.root ns (m.right l.root) fuel hs.walk_full hroot hlen
  · rw [htl, ← List.map_reverse]
    have hw := walk_chain m.left (ns.reverse ++ [l.root]) l.root hs.1.left_chain
    rw [List.length_append, List.length_singleton] at hw
    exact collect_walk m true l.root ns.reverse (m.left l.root) fuel hw
      (fun h => hroot (List.mem_reverse.1 h)) (by rw [List.length_reverse]; exact hlen)

/-- C13. Traversal consistency. Once `List()` and `push_back` of each value of `vs` have
completed, the loop that dereferences and increments a forward iterator from `begin()`
until `end()` yields exactly `vs` and the same loop with a reverse iterator from
`rbegin()` until `rend()` yields `reverse(vs)`, for every bound on the iterations of at
least `size()`. For every list of a program built with the list operations, the reverse
traversal yields the reverse of what the forward traversal yields. -/
theorem traversal_consistency [Inhabited T] (m0 : Mem T) :
    (∀ (vs : List T) (w : World T),
        (World.boot m0).run (ListOp.ctorDefault :: vs.map (fun x => ListOp.push_back 0 x)) =
          Except.ok w →
        ∃ l, w.lists = [l] ∧ l.size = vs.length ∧ ∀ fuel : Nat, vs.length ≤ fuel →
          BaseIterator.collect w.mem l.cend fuel (l.cbegin w.mem) = some vs ∧
          BaseIterator.collect w.mem l.crend fuel (l.crbegin w.mem) = some vs.reverse) ∧
      ∀ (ops : List (ListOp T)) (w : World T) (i : Nat) (l : LinkedList),
        (World.boot m0).run ops = Except.ok w → w.lists[i]? = some l →
        ∀ fuel : Nat, l.size ≤ fuel →
          ∃ xs, BaseIterator.collect w.mem l.cend fuel (l.cbegin w.mem) = some xs ∧
            BaseIterator.collect w.mem l.crend fuel (l.crbegin w.mem) = some xs.reverse ∧
            xs = l.toList w.mem := by
  constructor
  · intro vs w h
    obtain ⟨ma, l0, w0, t0, s0, hrun⟩ := run_ctorDefault m0 _ w h
    obtain ⟨l1, a1, a2, a3, a4⟩ := run_push_backs vs ma l0 w w0 hrun
    rw [t0, List.nil_append] at a3
    have hsz : l1.size = vs.length := by rw [a4, s0, Nat.zero_add]
    refine ⟨l1, a1, hsz, ?_⟩
    intro fuel hfuel
    have := collect_shape a2.shape fuel (by rw [hsz]; exact hfuel)
    rw [a3] at this
    exact this
  · intro ops w i l hrun hi fuel hfuel
    have hgood := run_good ops (World.boot m0) (boot_inv m0)
    rw [hrun] at hgood
    have hinv : w.Inv := hgood
    have := collect_shape (hinv.2.1 i l hi).shape fuel hfuel
    exact ⟨l.toList w.mem, this.1, this.2, rfl⟩

theorem traversal_consistency_witness :
    (World.boot (Mem.blank [5, 7, 9, 11] : Mem Nat)).run
        (ListOp.ctorDefault :: [1, 2, 3].map (fun x => ListOp.push_back 0 x)) =
      Except.ok ((World.boot (Mem.blank [5, 7, 9, 11] : Mem Nat)).runD
        (ListOp.ctorDefault :: [1, 2, 3].map (fun x => ListOp.push_back 0 x))) ∧
    ∃ l, ((World.boot (Mem.blank [5, 7, 9, 11] : Mem Nat)).runD
        (ListOp.ctorDefault :: [1, 2, 3].map (fun x => ListOp.push_back 0 x))).lists = [l] ∧
      l.size = [1, 2, 3].length ∧ ∀ fuel : Nat, [1, 2, 3].length ≤ fuel →
        BaseIterator.collect ((World.boot (Mem.blank [5, 7, 9, 11] : Mem Nat)).runD
            (ListOp.ctorDefault :: [1, 2, 3].map (fun x => ListOp.push_back 0 x))).mem
          l.cend fuel (l.cbegin ((World.boot (Mem.blank [5, 7, 9, 11] : Mem Nat)).runD
            (ListOp.ctorDefault :: [1, 2, 3].map (fun x => ListOp.push_back 0 x))).mem) =
            some [1, 2, 3] ∧
        BaseIterator.collect ((World.boot (Mem.blank [5, 7, 9, 11] : Mem Nat)).runD
            (ListOp.ctorDefault :: [1, 2, 3].map (fun x => ListOp.push_back 0 x))).mem
          l.crend fuel (l.crbegin ((World.boot (Mem.blank [5, 7, 9, 11] : Mem Nat)).runD
            (ListOp.ctorDefault :: [1, 2, 3].map (fun x => ListOp.push_back 0 x))).mem) =
            some [1, 2, 3].reverse :=
  ⟨by rfl, (traversal_consistency (Mem.blank [5, 7, 9, 11] : Mem Nat)).1 [1, 2, 3]
    ((World.boot (Mem.blank [5, 7, 9, 11] : Mem Nat)).runD
      (ListOp.ctorDefault :: [1, 2, 3].map (fun x => ListOp.push_back 0 x))) (by rfl)⟩

end Traversal

section IteratorSteps

variable {T : Type}

/-- The reverse iterator `rbegin()` incremented `as.length` times points to the node that
comes after `as` in the reverse order. -/
theorem advanceRev_eq {l : LinkedList} {m : Mem T} {ns as bs : List Nat} {p : Nat}
    (hs : l.Shape m ns) (hsplit : ns.reverse = as ++ p :: bs) :
    LinkedList.advanceRev m as.length (l.rbegin m) = p := by
  have hc := hs.1.left_chain
  rw [hsplit, List.cons_append, List.append_assoc, List.cons_append] at hc
  exact iterate_chain m.left as l.root p (bs ++ [l.root]) hc

/-- Fewer than `size()` increments from `begin()` or from `rbegin()` do not reach the
sentinel; `size()` increments do. -/
theorem steps_to_end {l : LinkedList} {m : Mem T} {ns : List Nat} (hs : l.Shape m ns) :
    LinkedList.advance m l.sz (l.begin m) = l.root ∧
      LinkedList.advanceRev m l.sz (l.rbegin m) = l.root ∧
      (∀ k : Nat, k < l.sz → LinkedList.advance m k (l.begin m) ≠ l.root) ∧
      ∀ k : Nat, k < l.sz → LinkedList.advanceRev m k (l.rbegin m) ≠ l.root := by
  have hroot : l.root ∉ ns := (List.nodup_cons.1 hs.1.1).1
  refine ⟨?_, ?_, ?_, ?_⟩
  · have := iterate_chain m.right ns l.root l.root [] hs.1.right_chain
    rw [hs.2.1] at this
    exact this
  · have := iterate_chain m.left ns.reverse l.root l.root [] hs.1.left_chain
    rw [List.length_reverse, hs.2.1] at this
    exact this
  · intro k hk e
    obtain ⟨as, p, bs, hsplit, hlen⟩ := split_at_index ns k (by rw [hs.2.1]; exact hk)
    have hs1 : l.Shape m (as ++ p :: bs) := by rw [← hsplit]; exact hs
    have hp := advance_eq hs1
    rw [hlen, e] at hp
    apply hroot
    rw [hsplit, hp]
    simp
  · intro k hk e
    obtain ⟨as, p, bs, hsplit, hlen⟩ := split_at_index ns.reverse k
      (by rw [List.length_reverse, hs.2.1]; exact hk)
    have hp := advanceRev_eq hs hsplit
    rw [hlen, e] at hp
    apply hroot
    rw [← List.mem_reverse, hsplit, hp]
    simp

/-- C14. For every list of a program built with the list operations: `end()` and `rend()`
hold the sentinel `root`; `operator++` applied `size()` times to `begin()` gives an
iterator equal to `end()` and no smaller number of applications does; the same holds for
`rbegin()` and `rend()`; `begin() == end()` exactly when `size() == 0`. -/
theorem iterator_steps [Inhabited T] (m0 : Mem T) (ops : List (ListOp T)) (w : World T)
    (i : Nat) (l : LinkedList) (hrun : (World.boot m0).run ops = Except.ok w)
    (hi : w.lists[i]? = some l) :
    l.cend.ptr = l.root ∧ l.crend.ptr = l.root ∧ l.endIter = l.root ∧ l.rend = l.root ∧
      (BaseIterator.incN w.mem l.size (l.cbegin w.mem)).opEq l.cend = true ∧
      (∀ k : Nat, k < l.size →
        (BaseIterator.incN w.mem k (l.cbegin w.mem)).opEq l.cend = false) ∧
      (BaseIterator.incN w.mem l.size (l.crbegin w.mem)).opEq l.crend = true ∧
      (∀ k : Nat, k < l.size →
        (BaseIterator.incN w.mem k (l.crbegin w.mem)).opEq l.crend = false) ∧
      ((l.cbegin w.mem).opEq l.cend = true ↔ l.size = 0) := by
  have hgood := run_good ops (World.boot m0) (boot_inv m0)
  rw [hrun] at hgood
  have hinv : w.Inv := hgood
  have hwf := hinv.2.1 i l hi
  obtain ⟨h1, h2, h3, h4⟩ := steps_to_end hwf.shape
  refine ⟨rfl, rfl, rfl, rfl, ?_, ?_, ?_, ?_, ?_⟩
  · unfold LinkedList.cbegin
    rw [incN_forward]
    simpa [BaseIterator.opEq, LinkedList.cend, LinkedList.size] using h1
  · intro k hk
    unfold LinkedList.cbegin
    rw [incN_forward]
    simpa [BaseIterator.opEq, LinkedList.cend] using h3 k hk
  · unfold LinkedList.crbegin
    rw [incN_reverse]
    simpa [BaseIterator.opEq, LinkedList.crend, LinkedList.size] using h2
  · intro k hk
    unfold LinkedList.crbegin
    rw [incN_reverse]
    simpa [BaseIterator.opEq, LinkedList.crend] using h4 k hk
  · have := begin_eq_end_iff hwf
    simpa [BaseIterator.opEq, LinkedList.cbegin, LinkedList.cend, LinkedList.begin,
      LinkedList.endIter] using this

theorem iterator_steps_witness :
    (World.boot (Mem.blank [5, 7, 9, 11] : Mem Nat)).run
        [.ctorDefault, .push_back 0 1, .push_back 0 2, .push_back 0 3] =
      Except.ok ((World.boot (Mem.blank [5, 7, 9, 11] : Mem Nat)).runD
        [.ctorDefault, .push_back 0 1, .push_back 0 2, .push_back 0 3]) ∧
    ((World.boot (Mem.blank [5, 7, 9, 11] : Mem Nat)).runD
        [.ctorDefault, .push_back 0 1, .push_back 0 2, .push_back 0 3]).lists[0]? =
      some ⟨5, 3⟩ ∧
    (BaseIterator.incN ((World.boot (Mem.blank [5, 7, 9, 11] : Mem Nat)).runD
        [.ctorDefault, .push_back 0 1, .push_back 0 2, .push_back 0 3]).mem
      (LinkedList.size ⟨5, 3⟩)
      (LinkedList.cbegin ⟨5, 3⟩ ((World.boot (Mem.blank [5, 7, 9, 11] : Mem Nat)).runD
        [.ctorDefault, .push_back 0 1, .push_back 0 2, .push_back 0 3]).mem)).opEq
      (LinkedList.cend ⟨5, 3⟩) = true :=
  ⟨by rfl, by decide,
    (iterator_steps (Mem.blank [5, 7, 9, 11] : Mem Nat)
      [.ctorDefault, .push_back 0 1, .push_back 0 2, .push_back 0 3]
      ((World.boot (Mem.blank [5, 7, 9, 11] : Mem Nat)).runD
        [.ctorDefault, .push_back 0 1, .push_back 0 2, .push_back 0 3])
      0 ⟨5, 3⟩ (by rfl) (by decide)).2.2.2.2.1⟩

end IteratorSteps

section CountConstructor

variable {T : Type}

/-- The count constructor with any bound of at least `count` on its fill loop. -/
theorem ctorCount_fuel {m m1 : Mem T} {count fuel : Nat} {l : LinkedList} (v : T)
    (hm : MemOK m) (hfuel : count ≤ fuel)
    (hg : LinkedList.genList m count = Except.ok (l, m1)) :
    ∃ m2 ns, LinkedList.ctorCount fuel m count v = Except.ok (l, m2) ∧ l.sz = count ∧
      l.Shape m2 ns ∧ Effect m [] m2 (l.root :: ns) ∧ (∀ q ∈ ns, m2.value q = v) := by
  obtain ⟨ns, hsz, hs1, he, -⟩ := genList_spec hm hg
  have hroot : l.root ∉ ns := (List.nodup_cons.1 hs1.1.1).1
  have hlen : ns.length ≤ fuel := by rw [hs1.2.1, hsz]; exact hfuel
  obtain ⟨m2, h1, h2, h3, h4, -, h6, h7⟩ := fillLoop_spec v ns fuel _ m1 hs1.walk_full hroot hlen
  refine ⟨m2, ns, ?_, hsz, shape_of_same_links hs1 h2 h3 h4, ?_, h6⟩
  · simp only [LinkedList.ctorCount, hg, h1]
  · exact he.trans (effect_of_values he.memOK hs1.2.2 h2 h3 h4
      (fun q hq => h7 q (fun h => hq (List.mem_cons_of_mem _ h))))

/-- An allocation succeeds when the allocator returns a valid address of storage that is
not live. -/
theorem allocate_of_supply {m : Mem T} {p : Nat} {rest : List Nat} (hs : m.supply = p :: rest)
    (h0 : p ≠ 0) (h64 : p < 2 ^ 64) (hl : p ∉ m.live) :
    m.allocate = Except.ok (p, { m with live := p :: m.live, supply := rest }) := by
  unfold Mem.allocate
  rw [hs]
  have hc : ¬ (p = 0 ∨ 2 ^ 64 ≤ p ∨ p ∈ m.live) := by
    rintro (h | h | h)
    · exact h0 h
    · exact absurd h64 (Nat.not_lt.2 h)
    · exact hl h
  simp only [if_neg hc]

/-- The loop of `genList` completes when the allocator delivers `k` new nodes. -/
theorem genLoop_of_supply {root : Nat} : ∀ (k : Nat) (addrs rest : List Nat) (left : Nat)
    (m : Mem T), m.supply = addrs ++ rest → addrs.length = k → addrs.Nodup →
    (∀ p ∈ addrs, p ≠ 0 ∧ p < 2 ^ 64 ∧ p ∉ m.live) →
    ∃ m2, LinkedList.genLoop root k left m = Except.ok m2
  | 0, _, _, _, m, _, _, _, _ => ⟨m, rfl⟩
  | k + 1, [], _, _, _, _, hlen, _, _ => by cases hlen
  | k + 1, p :: addrs, rest, left, m, hs, hlen, hnd, hok => by
    obtain ⟨h0, h64, hl⟩ := hok p (List.mem_cons_self _ _)
    have hs2 : m.supply = p :: (addrs ++ rest) := hs
    have ha := allocate_of_supply (m := m) (p := p) hs2 h0 h64 hl
    have hnd2 := List.nodup_cons.1 hnd
    unfold LinkedList.genLoop
    rw [ha]
    refine genLoop_of_supply k addrs rest p _ rfl (Nat.succ.inj hlen) hnd2.2 ?_
    intro q hq
    obtain ⟨q0, q64, ql⟩ := hok q (List.mem_cons_of_mem _ hq)
    refine ⟨q0, q64, ?_⟩
    intro h
    rcases List.mem_cons.1 h with e | h
    · exact hnd2.1 (e ▸ hq)
    · exact ql h

/-- Function `genList(sz)` completes when the allocator delivers `sz + 1` new nodes. -/
theorem genList_of_supply {m : Mem T} {sz : Nat} {addrs rest : List Nat}
    (hs : m.supply = addrs ++ rest) (hlen : addrs.length = sz + 1) (hnd : addrs.Nodup)
    (hok : ∀ p ∈ addrs, p ≠ 0 ∧ p < 2 ^ 64 ∧ p ∉ m.live) :
    ∃ l m2, LinkedList.genList m sz = Except.ok (l, m2) := by
  cases addrs with
  | nil => cases hlen
  | cons p addrs =>
    obtain ⟨h0, h64, hl⟩ := hok p (List.mem_cons_self _ _)
    have hs2 : m.supply = p :: (addrs ++ rest) := hs
    have ha := allocate_of_supply (m := m) (p := p) hs2 h0 h64 hl
    have hnd2 := List.nodup_cons.1 hnd
    unfold LinkedList.genList
    rw [ha]
    dsimp only
    split
    · exact ⟨_, _, rfl⟩
    · obtain ⟨m3, h3⟩ := @genLoop_of_supply T p sz addrs rest p
        ((({ m with live := p :: m.live, supply := addrs ++ rest } : Mem T).setLeft p p).setRight p p)
        rfl (Nat.succ.inj hlen) hnd2.2 (by
          intro q hq
          obtain ⟨q0, q64, ql⟩ := hok q (List.mem_cons_of_mem _ hq)
          refine ⟨q0, q64, ?_⟩
          intro h
          rcases List.mem_cons.1 h with e | h
          · exact hnd2.1 (e ▸ hq)
          · exact ql h)
      rw [h3]
      exact ⟨_, _, rfl⟩

/-- What the count constructor gives once `genList` has completed. -/
theorem ctorCount_result {m m1 : Mem T} {count fuel : Nat} {l : LinkedList} (v : T)
    (hm : MemOK m) (hfuel : count ≤ fuel)
    (hg : LinkedList.genList m count = Except.ok (l, m1)) :
    ∃ l2 m2, LinkedList.ctorCount fuel m count v = Except.ok (l2, m2) ∧ l2.WF m2 ∧
      l2.size = count ∧ l2.toList m2 = List.replicate count v ∧
      ∀ p ∈ l2.owned m2, p ∉ m.live := by
  obtain ⟨m2, ns, h1, h2, h3, h4, h5⟩ := ctorCount_fuel v hm hfuel hg
  refine ⟨l, m2, h1, h3.wf h4.memOK, h2, ?_, ?_⟩
  · unfold LinkedList.toList
    rw [h3.nodes_eq, List.eq_replicate_iff]
    constructor
    · rw [List.length_map, h3.2.1, h2]
    · intro b hb
      obtain ⟨q, hq, rfl⟩ := List.mem_map.1 hb
      exact h5 q hq
  · intro p hp
    unfold LinkedList.owned at hp
    rw [h3.nodes_eq] at hp
    rcases h4.fresh p hp with h | h
    · exact absurd h (List.not_mem_nil _)
    · exact h

/-- The sentinel that `List()` leaves is linked to itself. -/
theorem ctorDefault_links {m m2 : Mem T} {l : LinkedList}
    (h : LinkedList.ctorDefault m = Except.ok (l, m2)) :
    m2.right l.root = l.root ∧ m2.left l.root = l.root ∧ l.size = 0 := by
  unfold LinkedList.ctorDefault LinkedList.genList at h
  cases ha : m.allocate with
  | error e => rw [ha] at h; cases h
  | ok r =>
    obtain ⟨root, m1⟩ := r
    rw [ha] at h
    simp only [if_pos] at h
    cases h
    exact ⟨by simp, by simp, rfl⟩

/-- C18. The count constructor `List(N, v)`, run with any bound of at least `N` on its
loop over the ring, either ends in the failure of the allocator or completes with a
well-formed list of `size() == N` whose sequence is `N` copies of `v`, built from storage
that was not live; it completes whenever the allocator delivers `N + 1` nodes. For
`N == 0` it does what the default constructor does, which leaves a sentinel linked to
itself. -/
theorem count_constructor_spec (m : Mem T) (N fuel : Nat) (v : T) (hm : MemOK m)
    (hfuel : N ≤ fuel) :
    (LinkedList.ctorCount fuel m N v = Except.error Fault.badAlloc ∨
        ∃ l m2, LinkedList.ctorCount fuel m N v = Except.ok (l, m2) ∧ l.WF m2 ∧
          l.size = N ∧ l.toList m2 = List.replicate N v ∧ ∀ p ∈ l.owned m2, p ∉ m.live) ∧
      (∀ addrs rest : List Nat, m.supply = addrs ++ rest → addrs.length = N + 1 →
        addrs.Nodup → (∀ p ∈ addrs, p ≠ 0 ∧ p < 2 ^ 64 ∧ p ∉ m.live) →
        ∃ l m2, LinkedList.ctorCount fuel m N v = Except.ok (l, m2) ∧ l.WF m2 ∧
          l.size = N ∧ l.toList m2 = List.replicate N v ∧ ∀ p ∈ l.owned m2, p ∉ m.live) ∧
      LinkedList.ctorCount fuel m 0 v = LinkedList.ctorDefault m ∧
      ∀ (l : LinkedList) (m2 : Mem T), LinkedList.ctorDefault m = Except.ok (l, m2) →
        m2.right l.root = l.root ∧ m2.left l.root = l.root ∧ l.size = 0 := by
  refine ⟨?_, ?_, ?_, fun l m2 h => ctorDefault_links h⟩
  · cases hg : LinkedList.genList m N with
    | error e =>
      left
      simp only [LinkedList.ctorCount, hg]
      rw [genList_error hg]
    | ok r =>
      obtain ⟨l, m1⟩ := r
      exact Or.inr (ctorCount_result v hm hfuel hg)
  · intro addrs rest hs hlen hnd hok
    obtain ⟨l, m1, hg⟩ := genList_of_supply hs hlen hnd hok
    exact ctorCount_result v hm hfuel hg
  · unfold LinkedList.ctorCount LinkedList.ctorDefault
    cases hg : LinkedList.genList m 0 with
    | error e => rfl
    | ok r =>
      obtain ⟨l, m1⟩ := r
      obtain ⟨h1, -, -⟩ := ctorDefault_links (show LinkedList.ctorDefault m = _ from hg)
      dsimp only
      rw [h1]
      cases fuel <;> simp [LinkedList.fillLoop]

theorem count_constructor_spec_witness :
    MemOK sampleMem ∧ 3 ≤ 3 ∧
      ∃ l m2, LinkedList.ctorCount 3 sampleMem 3 7 = Except.ok (l, m2) ∧ l.WF m2 ∧
        l.size = 3 ∧ l.toList m2 = List.replicate 3 7 ∧ ∀ p ∈ l.owned m2, p ∉ sampleMem.live :=
  ⟨by decide, by decide,
    (count_constructor_spec sampleMem 3 3 7 (by decide) (by decide)).2.1 [13, 15, 17, 19] [21]
      (by rfl) (by rfl) (by decide) (by decide)⟩

/-- The links of a well-formed list are mutually consistent at every node. -/
theorem shape_links {l : LinkedList} {m : Mem T} {ns : List Nat} (hs : l.Shape m ns) :
    ∀ a ∈ l.root :: ns, m.left (m.right a) = a ∧ m.right (m.left a) = a := by
  intro a ha
  rcases List.mem_cons.1 ha with h | h
  · subst h
    obtain ⟨next, Y0, hY⟩ := exists_cons ns l.root
    obtain ⟨X0, prev, hX⟩ := exists_snoc l.root ns
    have hs0 : l.Shape m ([] ++ ns) := hs
    have hs1 : l.Shape m (ns ++ []) := by rw [List.append_nil]; exact hs
    have g1 := @ring_link_gap T m l.root [] ns [] Y0 l.root next hs0.1 rfl hY
    have g2 := ring_link_gap hs1.1 hX (rfl : ([] : List Nat) ++ [l.root] = l.root :: [])
    exact ⟨by rw [g1.1, g1.2], by rw [g2.2, g2.1]⟩
  · obtain ⟨as, bs, hsplit⟩ := List.append_of_mem h
    obtain ⟨X0, prev, hX⟩ := exists_snoc l.root as
    obtain ⟨next, Y0, hY⟩ := exists_cons bs l.root
    have hs1 : l.Shape m (as ++ a :: bs) := by rw [← hsplit]; exact hs
    obtain ⟨g1, g2⟩ := ring_links hs1.1 hX hY
    exact ⟨by rw [g2.1, g2.2], by rw [g1.2, g1.1]⟩

/-- C19. The function `emplace_back(v)` allocates, stores and links exactly as
`push_back(v)` does, so the two give the same list and the same memory; on a well-formed
list with sequence `xs`, when the allocator delivers a node, it completes with sequence
`xs ++ [v]`, `size()` one more, and `a->right->left == a`, `a->left->right == a` for the
sentinel and every node. -/
theorem emplace_back_spec (l : LinkedList) (m m1 : Mem T) (tmp : Nat) (v : T) (hwf : l.WF m)
    (ha : m.allocate = Except.ok (tmp, m1)) :
    l.emplace_back m v = l.push_back m v ∧
      ∃ l2 m2, l.emplace_back m v = Except.ok (l2, m2) ∧ l2.WF m2 ∧
        l2.toList m2 = l.toList m ++ [v] ∧ l2.size = l.size + 1 ∧
        l2.nodes m2 = l.nodes m ++ [tmp] ∧
        ∀ a ∈ l2.owned m2, m2.left (m2.right a) = a ∧ m2.right (m2.left a) = a := by
  refine ⟨emplace_back_eq_push_back l m v, ?_⟩
  obtain ⟨l2, m2, h1, h2, h3, h4, h5⟩ := push_back_ok l m m1 tmp v hwf ha
  refine ⟨l2, m2, ?_, h2, h3, h4, h5, shape_links h2.shape⟩
  rw [emplace_back_eq_push_back]
  exact h1

theorem emplace_back_spec_witness :
    LinkedList.WF ⟨5, 3⟩ sampleMem ∧
      LinkedList.toList ⟨5, 3⟩ sampleMem ++ [4] = [1, 2, 3, 4] ∧
      ∃ l2 m2, LinkedList.emplace_back ⟨5, 3⟩ sampleMem 4 = Except.ok (l2, m2) ∧ l2.WF m2 ∧
        l2.toList m2 = LinkedList.toList ⟨5, 3⟩ sampleMem ++ [4] ∧
        l2.size = LinkedList.size ⟨5, 3⟩ + 1 ∧
        l2.nodes m2 = LinkedList.nodes ⟨5, 3⟩ sampleMem ++ [13] ∧
        ∀ a ∈ l2.owned m2, m2.left (m2.right a) = a ∧ m2.right (m2.left a) = a :=
  ⟨by decide, by decide,
    (emplace_back_spec ⟨5, 3⟩ sampleMem sampleMemNext 13 4 (by decide) (by rfl)).2⟩

end CountConstructor

section CopyIndependence

variable {T : Type}

/-- After `genList(ls.sz)` the copy loop completes within any bound of at least `ls.sz`
iterations. -/
theorem copyInto_fuel {m0 m1 : Mem T} {ls l1 : LinkedList} {src : List Nat} {fuel : Nat}
    (hm : MemOK m0) (hsrc : ls.Shape m0 src) (hfuel : ls.sz ≤ fuel)
    (hg : LinkedList.genList m0 ls.sz = Except.ok (l1, m1)) :
    ∃ m2 ns, LinkedList.copyLoop l1.root fuel (m1.right l1.root) (m1.right ls.root) m1 =
        Except.ok m2 ∧
      l1.Shape m2 ns ∧ Effect m0 [] m2 (l1.root :: ns) ∧ l1.sz = ls.sz ∧
      ns.map m2.value = src.map m0.value ∧ ∀ q, q ∉ ns → m2.value q = m0.value q := by
  obtain ⟨ns, hsz, hs1, he, hv⟩ := genList_spec hm hg
  have hsrc1 : ls.Shape m1 src :=
    frame_shape hsrc he (fun p _ hq => absurd hq (List.not_mem_nil _))
  have hroot : l1.root ∉ ns := (List.nodup_cons.1 hs1.1.1).1
  have hlen : ns.length = ls.sz := by rw [hs1.2.1, hsz]
  have hwsrc : walk m1.right ns.length (m1.right ls.root) = src := by
    have := hsrc1.1.walk_right
    rwa [hsrc1.2.1, ← hlen] at this
  have hdisj : ∀ s ∈ src, s ∉ ns := by
    intro s hs hn
    rcases he.fresh s (List.mem_cons_of_mem _ hn) with h | h
    · exact absurd h (List.not_mem_nil _)
    · exact h (hsrc.2.2 s (List.mem_cons_of_mem _ hs))
  obtain ⟨m2, h1, h2, h3, h4, -, h6, h7⟩ := copyLoop_spec ns src fuel _ _ m1 hs1.walk_full
    hroot (by rw [hlen]; exact hfuel) hwsrc hdisj (List.nodup_cons.1 hs1.1.1).2
  refine ⟨m2, ns, h1, shape_of_same_links hs1 h2 h3 h4, ?_, hsz, ?_, ?_⟩
  · exact he.trans (effect_of_values he.memOK hs1.2.2 h2 h3 h4
      (fun q hq => h7 q (fun h => hq (List.mem_cons_of_mem _ h))))
  · rw [h6, hv]
  · intro q hq
    rw [h7 q hq, hv]

/-- The list that `genList(ls.sz)` and the copy loop build is an independent copy. -/
theorem copyOf_genList {m0 m1 : Mem T} {ls l1 : LinkedList} {fuel : Nat}
    (hwf : ls.WF m0) (hfuel : ls.sz ≤ fuel)
    (hg : LinkedList.genList m0 ls.sz = Except.ok (l1, m1)) :
    ∃ m2, LinkedList.copyLoop l1.root fuel (m1.right l1.root) (m1.right ls.root) m1 =
        Except.ok m2 ∧ l1.CopyOf m2 ls m0 := by
  have hsrc := hwf.shape
  obtain ⟨m2, ns, h1, h2, h3, h4, h5, -⟩ := copyInto_fuel hwf.1 hsrc hfuel hg
  have hnil : ∀ p ∈ ls.root :: ls.nodes m0, p ∉ ([] : List Nat) :=
    fun p _ hq => absurd hq (List.not_mem_nil _)
  have hs2 := frame_shape hsrc h3 hnil
  refine ⟨m2, h1, h2.wf h3.memOK, hs2.wf h3.memOK, ?_, h4, frame_toList hsrc h3 hnil, ?_⟩
  · unfold LinkedList.toList
    rw [h2.nodes_eq, h5]
  · intro p hp hq
    unfold LinkedList.owned at hp hq
    rw [h2.nodes_eq] at hp
    rw [hs2.nodes_eq] at hq
    rcases h3.fresh p hp with h | h
    · exact absurd h (List.not_mem_nil _)
    · exact h (hsrc.2.2 p hq)

theorem copyOf_rebase {l2 ls : LinkedList} {m m0 m2 : Mem T} (h : l2.CopyOf m2 ls m0)
    (he : ls.toList m0 = ls.toList m) : l2.CopyOf m2 ls m := by
  obtain ⟨h1, h2, h3, h4, h5, h6⟩ := h
  exact ⟨h1, h2, h3.trans he, h4, h5.trans he, h6⟩

/-- The copy constructor ends in the failure of an allocation or gives an independent
copy. -/
theorem ctorCopy_result {m : Mem T} {ls : LinkedList} {fuel : Nat} (hwf : ls.WF m)
    (hfuel : ls.sz ≤ fuel) :
    LinkedList.ctorCopy fuel m ls = Except.error Fault.badAlloc ∨
      ∃ l2 m2, LinkedList.ctorCopy fuel m ls = Except.ok (l2, m2) ∧ l2.CopyOf m2 ls m := by
  unfold LinkedList.ctorCopy LinkedList.ctorDefault
  cases hg0 : LinkedList.genList m 0 with
  | error e =>
    left
    rw [genList_error hg0]
  | ok r0 =>
    obtain ⟨l0, m0⟩ := r0
    obtain ⟨ns0, -, -, he0, -⟩ := genList_spec hwf.1 hg0
    have hnil : ∀ p ∈ ls.root :: ls.nodes m, p ∉ ([] : List Nat) :=
      fun p _ hq => absurd hq (List.not_mem_nil _)
    have hsrc0 : ls.WF m0 := (frame_shape hwf.shape he0 hnil).wf he0.memOK
    dsimp only
    cases hg : LinkedList.genList m0 ls.sz with
    | error e =>
      left
      rw [genList_error hg]
    | ok r =>
      obtain ⟨l1, m1⟩ := r
      obtain ⟨m2, h1, h2⟩ := copyOf_genList hsrc0 hfuel hg
      right
      simp only [h1]
      exact ⟨l1, m2, rfl, copyOf_rebase h2 (frame_toList hwf.shape he0 hnil)⟩

/-- Copy assignment to another list ends in the failure of an allocation or gives an
independent copy. -/
theorem assign_result {m : Mem T} {l ls : LinkedList} {fuel : Nat} (hl : l.WF m)
    (hwf : ls.WF m) (hd : ∀ p ∈ l.owned m, p ∉ ls.owned m) (hfuel : ls.sz ≤ fuel) :
    l.assign fuel m ls = Except.error Fault.badAlloc ∨
      ∃ l2 m2, l.assign fuel m ls = Except.ok (l2, m2) ∧ l2.CopyOf m2 ls m := by
  obtain ⟨hdes, he0⟩ := destroy_spec hl.1 hl.shape
  have hd2 : ∀ p ∈ ls.root :: ls.nodes m, p ∉ l.root :: l.nodes m :=
    fun p hp hq => hd p hq hp
  have hsrc0 : ls.WF _ := (frame_shape hwf.shape he0 hd2).wf he0.memOK
  unfold LinkedList.assign
  rw [hdes]
  dsimp only
  cases hg : LinkedList.genList { m with live := m.live.diff (l.root :: l.nodes m) } ls.sz with
  | error e =>
    left
    rw [genList_error hg]
  | ok r =>
    obtain ⟨l1, m1⟩ := r
    obtain ⟨m2, h1, h2⟩ := copyOf_genList hsrc0 hfuel hg
    right
    simp only [h1]
    exact ⟨l1, m2, rfl, copyOf_rebase h2 (frame_toList hwf.shape he0 hd2)⟩

/-- Function `genList(0)` with an allocator that delivers `p`. -/
theorem genList_zero_of_supply {m : Mem T} {p : Nat} {rest : List Nat}
    (hs : m.supply = p :: rest) (h0 : p ≠ 0) (h64 : p < 2 ^ 64) (hl : p ∉ m.live) :
    LinkedList.genList m 0 = Except.ok (⟨p, 0⟩,
      (({ m with live := p :: m.live, supply := rest } : Mem T).setLeft p p).setRight p p) := by
  unfold LinkedList.genList
  rw [allocate_of_supply hs h0 h64 hl]
  rfl

/-- The copy constructor completes when the allocator delivers `ls.sz + 2` new nodes. -/
theorem ctorCopy_of_supply {m : Mem T} {ls : LinkedList} {fuel : Nat} {addrs rest : List Nat}
    (hwf : ls.WF m) (hfuel : ls.sz ≤ fuel) (hs : m.supply = addrs ++ rest)
    (hlen : addrs.length = ls.sz + 2) (hnd : addrs.Nodup)
    (hok : ∀ p ∈ addrs, p ≠ 0 ∧ p < 2 ^ 64 ∧ p ∉ m.live) :
    ∃ l2 m2, LinkedList.ctorCopy fuel m ls = Except.ok (l2, m2) := by
  cases addrs with
  | nil => cases hlen
  | cons a addrs =>
    obtain ⟨a0, a64, al⟩ := hok a (List.mem_cons_self _ _)
    have hs2 : m.supply = a :: (addrs ++ rest) := hs
    have hg0 := genList_zero_of_supply hs2 a0 a64 al
    have hnd2 := List.nodup_cons.1 hnd
    obtain ⟨ns0, -, -, he0, -⟩ := genList_spec hwf.1 hg0
    have hnil : ∀ p ∈ ls.root :: ls.nodes m, p ∉ ([] : List Nat) :=
      fun p _ hq => absurd hq (List.not_mem_nil _)
    have hsrc0 := (frame_shape hwf.shape he0 hnil).wf he0.memOK
    obtain ⟨l1, m1, hg⟩ := @genList_of_supply T
      ((({ m with live := a :: m.live, supply := addrs ++ rest } : Mem T).setLeft a a).setRight a a)
      ls.sz addrs rest rfl (Nat.succ.inj hlen) hnd2.2 (by
        intro q hq
        obtain ⟨q0, q64, ql⟩ := hok q (List.mem_cons_of_mem _ hq)
        refine ⟨q0, q64, ?_⟩
        intro h
        rcases List.mem_cons.1 h with e | h
        · exact hnd2.1 (e ▸ hq)
        · exact ql h)
    obtain ⟨m2, h1, -⟩ := copyOf_genList hsrc0 hfuel hg
    refine ⟨l1, m2, ?_⟩
    unfold LinkedList.ctorCopy LinkedList.ctorDefault
    rw [hg0]
    dsimp only
    rw [hg]
    dsimp only
    rw [h1]

/-- Copy assignment completes when the allocator delivers `ls.sz + 1` nodes that are not
live once the nodes of the destination are given back. -/
theorem assign_of_supply {m : Mem T} {l ls : LinkedList} {fuel : Nat} {addrs rest : List Nat}
    (hl : l.WF m) (hwf : ls.WF m) (hd : ∀ p ∈ l.owned m, p ∉ ls.owned m) (hfuel : ls.sz ≤ fuel)
    (hs : m.supply = addrs ++ rest) (hlen : addrs.length = ls.sz + 1) (hnd : addrs.Nodup)
    (hok : ∀ p ∈ addrs, p ≠ 0 ∧ p < 2 ^ 64 ∧ p ∉ m.live.diff (l.owned m)) :
    ∃ l2 m2, l.assign fuel m ls = Except.ok (l2, m2) := by
  obtain ⟨hdes, he0⟩ := destroy_spec hl.1 hl.shape
  have hd2 : ∀ p ∈ ls.root :: ls.nodes m, p ∉ l.root :: l.nodes m :=
    fun p hp hq => hd p hq hp
  have hsrc0 : ls.WF _ := (frame_shape hwf.shape he0 hd2).wf he0.memOK
  obtain ⟨l1, m1, hg⟩ := @genList_of_supply T
    { m with live := m.live.diff (l.root :: l.nodes m) } ls.sz addrs rest hs hlen hnd hok
  obtain ⟨m2, h1, -⟩ := copyOf_genList hsrc0 hfuel hg
  refine ⟨l1, m2, ?_⟩
  unfold LinkedList.assign
  rw [hdes]
  dsimp only
  rw [hg]
  dsimp only
  rw [h1]

/-- An operation on list `a` whose footprint is within the nodes of `a` leaves a list
`b` that shares no node with `a` as it was. -/
theorem sound_frame {a b a2 : LinkedList} {m m2 : Mem T}
    {r : Except Fault (LinkedList × Mem T)} (hb : b.WF m)
    (hd : ∀ p ∈ a.owned m, p ∉ b.owned m) (hr : Sound r m (a.owned m))
    (h : r = Except.ok (a2, m2)) :
    a2.WF m2 ∧ b.WF m2 ∧ b.toList m2 = b.toList m ∧ ∀ p ∈ a2.owned m2, p ∉ b.owned m2 := by
  subst h
  obtain ⟨ns2, hs2, he⟩ := hr
  have hd2 : ∀ p ∈ b.root :: b.nodes m, p ∉ a.owned m := fun p hp hq => hd p hq hp
  have hb2 := frame_shape hb.shape he hd2
  refine ⟨hs2.wf he.memOK, hb2.wf he.memOK, frame_toList hb.shape he hd2, ?_⟩
  intro p hp hq
  unfold LinkedList.owned at hp hq
  rw [hs2.nodes_eq] at hp
  rw [hb2.nodes_eq] at hq
  rcases he.fresh p hp with h | h
  · exact hd p h hq
  · exact h (hb.shape.2.2 p hq)

/-- The footprint of each operation that changes one list. -/
theorem mutation_sound {a : LinkedList} {m : Mem T} (ha : a.WF m) (v : T) {it : Nat}
    (hit : it ∈ a.owned m) {r : Except Fault (LinkedList × Mem T)}
    (hr : r ∈ [a.push_back m v, a.push_front m v, a.emplace_back m v, a.insert m it v,
      a.pop_back m, a.pop_front m, a.erase m it]) : Sound r m (a.owned m) := by
  have hs := ha.shape
  simp only [List.mem_cons, List.mem_singleton, List.not_mem_nil, or_false] at hr
  rcases hr with h | h | h | h | h | h | h <;> subst h
  · exact push_back_sound v ha.1 hs
  · exact push_front_sound v ha.1 hs
  · rw [emplace_back_eq_push_back]
    exact push_back_sound v ha.1 hs
  · exact insert_sound v ha.1 hs hit
  · exact del_sound ha.1 hs (ring_left_mem hs _ (List.mem_cons_self _ _))
  · exact del_sound ha.1 hs (ring_right_mem hs _ (List.mem_cons_self _ _))
  · exact del_sound ha.1 hs hit

/-- A write through an iterator into list `a` changes the payload of that one node. -/
theorem store_frame {a b : LinkedList} {m : Mem T} (it : BaseIterator) (v : T)
    (ha : a.WF m) (hb : b.WF m) (hd : ∀ p ∈ a.owned m, p ∉ b.owned m)
    (hit : it.ptr ∈ a.nodes m) :
    a.WF (it.store m v) ∧ b.WF (it.store m v) ∧ b.toList (it.store m v) = b.toList m ∧
      (∀ p ∈ a.owned (it.store m v), p ∉ b.owned (it.store m v)) ∧
      a.toList (it.store m v) = (a.nodes m).map (fun q => if q = it.ptr then v else m.value q) := by
  refine ⟨ha, hb, ?_, hd, rfl⟩
  show (b.nodes m).map (it.store m v).value = (b.nodes m).map m.value
  apply List.map_congr_left
  intro q hq
  have hne : q ≠ it.ptr := by
    intro e
    exact hd it.ptr (List.mem_cons_of_mem _ hit) (List.mem_cons_of_mem _ (e ▸ hq))
  simp [BaseIterator.store, Mem.setValue, hne]

/-- The copy constructor completes with an independent copy when the allocator delivers
`ls.sz + 2` new nodes. -/
theorem ctorCopy_complete {m : Mem T} {ls : LinkedList} {fuel : Nat} {addrs rest : List Nat}
    (hwf : ls.WF m) (hfuel : ls.sz ≤ fuel) (hs : m.supply = addrs ++ rest)
    (hlen : addrs.length = ls.sz + 2) (hnd : addrs.Nodup)
    (hok : ∀ p ∈ addrs, p ≠ 0 ∧ p < 2 ^ 64 ∧ p ∉ m.live) :
    ∃ l2 m2, LinkedList.ctorCopy fuel m ls = Except.ok (l2, m2) ∧ l2.CopyOf m2 ls m := by
  obtain ⟨l2, m2, h⟩ := ctorCopy_of_supply hwf hfuel hs hlen hnd hok
  rcases ctorCopy_result hwf hfuel with e | h3
  · rw [h] at e
    cases e
  · exact h3

/-- Copy assignment completes with an independent copy when the allocator delivers
`ls.sz + 1` nodes that are not live once the nodes of the destination are given back. -/
theorem assign_complete {m : Mem T} {l ls : LinkedList} {fuel : Nat} {addrs rest : List Nat}
    (hl : l.WF m) (hwf : ls.WF m) (hd : ∀ p ∈ l.owned m, p ∉ ls.owned m) (hfuel : ls.sz ≤ fuel)
    (hs : m.supply = addrs ++ rest) (hlen : addrs.length = ls.sz + 1) (hnd : addrs.Nodup)
    (hok : ∀ p ∈ addrs, p ≠ 0 ∧ p < 2 ^ 64 ∧ p ∉ m.live.diff (l.owned m)) :
    ∃ l2 m2, l.assign fuel m ls = Except.ok (l2, m2) ∧ l2.CopyOf m2 ls m := by
  obtain ⟨l2, m2, h⟩ := assign_of_supply hl hwf hd hfuel hs hlen hnd hok
  rcases assign_result hl hwf hd hfuel with e | h3
  · rw [h] at e
    cases e
  · exact h3

/-- The program step `List b(a);` on a state that satisfies the invariant. -/
theorem step_ctorCopy {w : World T} {s : Nat} {ls : LinkedList} (hw : w.Inv)
    (hs : w.lists[s]? = some ls) :
    w.step (ListOp.ctorCopy s) = Except.error Fault.badAlloc ∨
      ∃ l2 m2, w.step (ListOp.ctorCopy s) = Except.ok ⟨m2, w.lists ++ [l2]⟩ ∧
        l2.CopyOf m2 ls w.mem := by
  have hstep : w.step (ListOp.ctorCopy s) = w.create (LinkedList.ctorCopy ls.sz w.mem ls) := by
    simp only [World.step, World.onList, hs]
  rw [hstep]
  rcases ctorCopy_result (hw.2.1 s ls hs) (le_refl _) with e | ⟨l2, m2, h, hc⟩
  · left
    rw [e]
    rfl
  · right
    refine ⟨l2, m2, ?_, hc⟩
    rw [h]
    rfl

/-- The program step `b = a;` for two different lists of a state that satisfies the
invariant. -/
theorem step_assign {w : World T} {d s : Nat} {l ls : LinkedList} (hw : w.Inv) (hne : d ≠ s)
    (hd : w.lists[d]? = some l) (hs : w.lists[s]? = some ls) :
    w.step (ListOp.assign d s) = Except.error Fault.badAlloc ∨
      ∃ l2 m2, w.step (ListOp.assign d s) = Except.ok ⟨m2, w.lists.set d l2⟩ ∧
        l2.CopyOf m2 ls w.mem := by
  have hstep : w.step (ListOp.assign d s) = w.update d (l.assign ls.sz w.mem ls) := by
    simp only [World.step, if_neg hne, World.onList, hd, hs]
  rw [hstep]
  rcases assign_result (hw.2.1 d l hd) (hw.2.1 s ls hs) (hw.2.2 d s l ls hne hd hs)
    (le_refl _) with e | ⟨l2, m2, h, hc⟩
  · left
    rw [e]
    rfl
  · right
    refine ⟨l2, m2, ?_, hc⟩
    rw [h]
    rfl

/-- C15. Copy independence. For every well-formed source `src`, the copy constructor
`List(src)`, and copy assignment `dst = src` to any other well-formed list `dst`, run
with any bound of at least `src.size()` on the copy loop, either end in the failure of an
allocation or give an independent copy: a well-formed list with the sequence and the size
of `src`, with `src` well formed and its sequence unchanged, and with no node, sentinel
included, in common with `src`; they complete, with that result, whenever the allocator
delivers the nodes they ask for. The same holds for the steps `List b(a);` and `b = a;`
in every state a program of list operations reaches, `a` and `b` being different lists.
Self-assignment leaves the program state as it is. For two well-formed lists without a
common node, each `push_back`, `push_front`, `emplace_back`, `insert`, `pop_back`,
`pop_front`, `erase` that completes on one of them, and each write through an iterator to
an element of one of them, leaves the other well formed with the same sequence and the
two without a common node. -/
theorem copy_independence :
    (∀ (src : LinkedList) (m : Mem T) (fuel : Nat), src.WF m → src.sz ≤ fuel →
      (LinkedList.ctorCopy fuel m src = Except.error Fault.badAlloc ∨
        ∃ l2 m2, LinkedList.ctorCopy fuel m src = Except.ok (l2, m2) ∧ l2.CopyOf m2 src m) ∧
      ∀ addrs rest : List Nat, m.supply = addrs ++ rest → addrs.length = src.sz + 2 →
        addrs.Nodup → (∀ p ∈ addrs, p ≠ 0 ∧ p < 2 ^ 64 ∧ p ∉ m.live) →
        ∃ l2 m2, LinkedList.ctorCopy fuel m src = Except.ok (l2, m2) ∧ l2.CopyOf m2 src m) ∧
      (∀ (src dst : LinkedList) (m : Mem T) (fuel : Nat), src.WF m → dst.WF m →
        (∀ p ∈ dst.owned m, p ∉ src.owned m) → src.sz ≤ fuel →
        (dst.assign fuel m src = Except.error Fault.badAlloc ∨
          ∃ l2 m2, dst.assign fuel m src = Except.ok (l2, m2) ∧ l2.CopyOf m2 src m) ∧
        ∀ addrs rest : List Nat, m.supply = addrs ++ rest → addrs.length = src.sz + 1 →
          addrs.Nodup → (∀ p ∈ addrs, p ≠ 0 ∧ p < 2 ^ 64 ∧ p ∉ m.live.diff (dst.owned m)) →
          ∃ l2 m2, dst.assign fuel m src = Except.ok (l2, m2) ∧ l2.CopyOf m2 src m) ∧
      (∀ (m0 : Mem T) (ops : List (ListOp T)) (w : World T),
        (World.boot m0).run ops = Except.ok w →
        (∀ (s : Nat) (ls : LinkedList), w.lists[s]? = some ls →
          w.step (ListOp.ctorCopy s) = Except.error Fault.badAlloc ∨
            ∃ l2 m2, w.step (ListOp.ctorCopy s) = Except.ok ⟨m2, w.lists ++ [l2]⟩ ∧
              l2.CopyOf m2 ls w.mem) ∧
        ∀ (d s : Nat) (l ls : LinkedList), d ≠ s → w.lists[d]? = some l →
          w.lists[s]? = some ls →
          w.step (ListOp.assign d s) = Except.error Fault.badAlloc ∨
            ∃ l2 m2, w.step (ListOp.assign d s) = Except.ok ⟨m2, w.lists.set d l2⟩ ∧
              l2.CopyOf m2 ls w.mem) ∧
      (∀ (w : World T) (i : Nat) (l : LinkedList), w.lists[i]? = some l →
        w.step (ListOp.assign i i) = Except.ok w) ∧
      ∀ (a b : LinkedList) (m1 : Mem T), a.WF m1 → b.WF m1 →
        (∀ p ∈ a.owned m1, p ∉ b.owned m1) →
        (∀ (v : T) (it : Nat), it ∈ a.owned m1 →
          ∀ r ∈ [a.push_back m1 v, a.push_front m1 v, a.emplace_back m1 v, a.insert m1 it v,
            a.pop_back m1, a.pop_front m1, a.erase m1 it],
          ∀ (a2 : LinkedList) (m2 : Mem T), r = Except.ok (a2, m2) →
            a2.WF m2 ∧ b.WF m2 ∧ b.toList m2 = b.toList m1 ∧
              ∀ p ∈ a2.owned m2, p ∉ b.owned m2) ∧
        ∀ (it : BaseIterator) (v : T), it.ptr ∈ a.nodes m1 →
          a.WF (it.store m1 v) ∧ b.WF (it.store m1 v) ∧
            b.toList (it.store m1 v) = b.toList m1 ∧
            (∀ p ∈ a.owned (it.store m1 v), p ∉ b.owned (it.store m1 v)) ∧
            a.toList (it.store m1 v) =
              (a.nodes m1).map (fun q => if q = it.ptr then v else m1.value q) := by
  refine ⟨?_, ?_, ?_, ?_, ?_⟩
  · intro src m fuel hsrc hfuel
    exact ⟨ctorCopy_result hsrc hfuel,
      fun addrs rest hs hlen hnd hok => ctorCopy_complete hsrc hfuel hs hlen hnd hok⟩
  · intro src dst m fuel hsrc hdst hd hfuel
    exact ⟨assign_result hdst hsrc hd hfuel,
      fun addrs rest hs hlen hnd hok => assign_complete hdst hsrc hd hfuel hs hlen hnd hok⟩
  · intro m0 ops w hrun
    have hgood := run_good ops (World.boot m0) (boot_inv m0)
    rw [hrun] at hgood
    have hinv : w.Inv := hgood
    exact ⟨fun s ls hs => step_ctorCopy hinv hs,
      fun d s l ls hne hd hs => step_assign hinv hne hd hs⟩
  · intro w i l hi
    simp [World.step, World.onList, hi]
  · intro a b m1 ha hb hab
    refine ⟨?_, fun it v hit => store_frame it v ha hb hab hit⟩
    intro v it hit r hr a2 m2 h
    exact sound_frame hb hab (mutation_sound ha v hit hr) h

theorem copy_independence_witness :
    balanceBefore.lists = [⟨5, 2⟩] ∧ LinkedList.WF ⟨5, 2⟩ balanceBefore.mem ∧
      LinkedList.toList ⟨5, 2⟩ balanceBefore.mem = [1, 2] ∧
      (∃ l2 m2, LinkedList.ctorCopy 2 balanceBefore.mem ⟨5, 2⟩ = Except.ok (l2, m2) ∧
        l2.CopyOf m2 ⟨5, 2⟩ balanceBefore.mem) ∧
      sampleTwo.lists = [⟨5, 2⟩, ⟨11, 1⟩] ∧
      ∃ l2 m2, LinkedList.assign 2 ⟨11, 1⟩ sampleTwo.mem ⟨5, 2⟩ = Except.ok (l2, m2) ∧
        l2.CopyOf m2 ⟨5, 2⟩ sampleTwo.mem :=
  ⟨by decide, by decide, by decide,
    ((copy_independence (T := Nat)).1 ⟨5, 2⟩ balanceBefore.mem 2 (by decide) (by decide)).2
      [11, 13, 15, 17] [19] (by rfl) (by rfl) (by decide) (by decide),
    by decide,
    ((copy_independence (T := Nat)).2.1 ⟨5, 2⟩ ⟨11, 1⟩ sampleTwo.mem 2 (by decide) (by decide)
      (by decide) (by decide)).2 [15, 17, 19] [21, 23] (by rfl) (by rfl) (by decide)
      (by decide)⟩

end CopyIndependence


section MoveValidity

variable {T : Type}

/-- The transfer of the ring of `src` to another object, with a new sentinel for `src`. -/
theorem moved_of_allocate {m0 m1 : Mem T} {src : LinkedList} {p : Nat} (hwf : src.WF m0)
    (ha : m0.allocate = Except.ok (p, m1)) :
    LinkedList.MovedFrom ⟨src.root, src.sz⟩ ⟨p, 0⟩ ((m1.setLeft p p).setRight p p) src m0 := by
  obtain ⟨s0, e0, -⟩ := sentinel_spec hwf.1 ha
  have hs := hwf.shape
  have hnil : ∀ q ∈ src.root :: src.nodes m0, q ∉ ([] : List Nat) :=
    fun q _ hq => absurd hq (List.not_mem_nil _)
  have hs2 := frame_shape hs e0 hnil
  refine ⟨hs2.wf e0.memOK, frame_toList hs e0 hnil, ?_, s0.wf e0.memOK, rfl, ?_, ?_, rfl, ?_⟩
  · show src.sz = _
    rw [LinkedList.toList, List.length_map, hs.2.1]
  · simp [LinkedList.cbegin, LinkedList.cend, BaseIterator.opEq, Mem.setRight]
  · simp [LinkedList.begin, LinkedList.endIter, Mem.setRight]
  · intro hp
    have hp2 : p ∈ src.root :: src.nodes m0 := by
      have := hs2.nodes_eq
      unfold LinkedList.owned at hp
      rw [this] at hp
      exact hp
    rcases e0.fresh p (List.mem_singleton_self p) with h | h
    · exact absurd h (List.not_mem_nil _)
    · exact h (hs.2.2 p hp2)

theorem movedFrom_rebase {l2 s2 src : LinkedList} {m m0 m2 : Mem T}
    (h : l2.MovedFrom s2 m2 src m0) (he : src.toList m0 = src.toList m) :
    l2.MovedFrom s2 m2 src m := by
  obtain ⟨h1, h2, h3, h4⟩ := h
  exact ⟨h1, h2.trans he, by rw [h3, he], h4⟩

theorem ctorMove_result {m : Mem T} {src : LinkedList} (hwf : src.WF m) :
    LinkedList.ctorMove m src = Except.error Fault.badAlloc ∨
      ∃ l2 s2 m2, LinkedList.ctorMove m src = Except.ok (l2, s2, m2) ∧
        l2.MovedFrom s2 m2 src m := by
  unfold LinkedList.ctorMove
  cases ha : m.allocate with
  | error e =>
    left
    rw [Mem.allocate_error ha]
  | ok r =>
    obtain ⟨p, m1⟩ := r
    exact Or.inr ⟨_, _, _, rfl, moved_of_allocate hwf ha⟩

theorem moveAssign_result {m : Mem T} {l src : LinkedList} (hl : l.WF m) (hwf : src.WF m)
    (hd : ∀ p ∈ l.owned m, p ∉ src.owned m) :
    l.moveAssign m src = Except.error Fault.badAlloc ∨
      ∃ l2 s2 m2, l.moveAssign m src = Except.ok (l2, s2, m2) ∧ l2.MovedFrom s2 m2 src m := by
  obtain ⟨hdes, he0⟩ := destroy_spec hl.1 hl.shape
  have hd2 : ∀ p ∈ src.root :: src.nodes m, p ∉ l.root :: l.nodes m :=
    fun p hp hq => hd p hq hp
  have hsrc0 : src.WF _ := (frame_shape hwf.shape he0 hd2).wf he0.memOK
  unfold LinkedList.moveAssign
  rw [hdes]
  dsimp only
  cases ha : Mem.allocate { m with live := m.live.diff (l.root :: l.nodes m) } with
  | error e =>
    left
    rw [Mem.allocate_error ha]
  | ok r =>
    obtain ⟨p, m1⟩ := r
    exact Or.inr ⟨_, _, _, rfl,
      movedFrom_rebase (moved_of_allocate hsrc0 ha) (frame_toList hwf.shape he0 hd2)⟩

/-- Move construction completes when the allocator delivers one new node. -/
theorem ctorMove_complete {m : Mem T} {src : LinkedList} {p : Nat} {rest : List Nat}
    (hwf : src.WF m) (hs : m.supply = p :: rest) (h0 : p ≠ 0) (h64 : p < 2 ^ 64)
    (hl : p ∉ m.live) :
    ∃ l2 s2 m2, LinkedList.ctorMove m src = Except.ok (l2, s2, m2) ∧
      l2.MovedFrom s2 m2 src m := by
  rcases ctorMove_result hwf with e | h3
  · unfold LinkedList.ctorMove at e
    rw [allocate_of_supply hs h0 h64 hl] at e
    cases e
  · exact h3

/-- Move assignment completes when the allocator delivers one node that is not live once
the nodes of the destination are given back. -/
theorem moveAssign_complete {m : Mem T} {l src : LinkedList} {p : Nat} {rest : List Nat}
    (hl : l.WF m) (hwf : src.WF m) (hd : ∀ q ∈ l.owned m, q ∉ src.owned m)
    (hs : m.supply = p :: rest) (h0 : p ≠ 0) (h64 : p < 2 ^ 64)
    (hp : p ∉ m.live.diff (l.owned m)) :
    ∃ l2 s2 m2, l.moveAssign m src = Except.ok (l2, s2, m2) ∧ l2.MovedFrom s2 m2 src m := by
  rcases moveAssign_result hl hwf hd with e | h3
  · obtain ⟨hdes, -⟩ := destroy_spec hl.1 hl.shape
    unfold LinkedList.moveAssign at e
    rw [hdes] at e
    dsimp only at e
    rw [@allocate_of_supply T { m with live := m.live.diff (l.root :: l.nodes m) } p rest
      hs h0 h64 hp] at e
    cases e
  · exact h3

/-- The program step `List b(std::move(a));` on a state that satisfies the invariant. -/
theorem step_ctorMove {w : World T} {s : Nat} {ls : LinkedList} (hw : w.Inv)
    (hs : w.lists[s]? = some ls) :
    w.step (ListOp.ctorMove s) = Except.error Fault.badAlloc ∨
      ∃ l2 s2 m2, w.step (ListOp.ctorMove s) = Except.ok ⟨m2, w.lists.set s s2 ++ [l2]⟩ ∧
        l2.MovedFrom s2 m2 ls w.mem := by
  have hstep : w.step (ListOp.ctorMove s) =
      match LinkedList.ctorMove w.mem ls with
      | Except.error e => Except.error e
      | Except.ok (l, other2, m) => Except.ok ⟨m, w.lists.set s other2 ++ [l]⟩ := by
    simp only [World.step, World.onList, hs]
  rw [hstep]
  rcases ctorMove_result (hw.2.1 s ls hs) with e | ⟨l2, s2, m2, h, hc⟩
  · left
    rw [e]
  · right
    refine ⟨l2, s2, m2, ?_, hc⟩
    rw [h]

/-- The program step `b = std::move(a);` for two different lists of a state that
satisfies the invariant. -/
theorem step_moveAssign {w : World T} {d s : Nat} {l ls : LinkedList} (hw : w.Inv)
    (hne : d ≠ s) (hd : w.lists[d]? = some l) (hs : w.lists[s]? = some ls) :
    w.step (ListOp.moveAssign d s) = Except.error Fault.badAlloc ∨
      ∃ l2 s2 m2, w.step (ListOp.moveAssign d s) =
          Except.ok ⟨m2, (w.lists.set d l2).set s s2⟩ ∧
        l2.MovedFrom s2 m2 ls w.mem := by
  have hstep : w.step (ListOp.moveAssign d s) =
      match l.moveAssign w.mem ls with
      | Except.error e => Except.error e
      | Except.ok (l2, other2, m) => Except.ok ⟨m, (w.lists.set d l2).set s other2⟩ := by
    simp only [World.step, if_neg hne, World.onList, hd, hs]
  rw [hstep]
  rcases moveAssign_result (hw.2.1 d l hd) (hw.2.1 s ls hs) (hw.2.2 d s l ls hne hd hs)
    with e | ⟨l2, s2, m2, h, hc⟩
  · left
    rw [e]
  · right
    refine ⟨l2, s2, m2, ?_, hc⟩
    rw [h]

/-- C16. Move validity. For every well-formed source `src`, move construction
`List(std::move(src))`, and move assignment `dst = std::move(src)` to any other
well-formed list `dst`, either end in the failure of the one allocation they make or
complete, and they complete whenever the allocator delivers that node. When they
complete, the destination is well formed with exactly the sequence `src` had and `size()`
its length, and `src` is a well-formed empty list with `size() == 0`, `begin() == end()`
and a sentinel of its own that is no node of the destination. The same holds for the
steps `List b(std::move(a));` and `b = std::move(a);` in every state a program of list
operations reaches, `a` and `b` being different lists. -/
theorem move_validity :
    (∀ (src : LinkedList) (m : Mem T), src.WF m →
      (LinkedList.ctorMove m src = Except.error Fault.badAlloc ∨
        ∃ l2 s2 m2, LinkedList.ctorMove m src = Except.ok (l2, s2, m2) ∧
          l2.MovedFrom s2 m2 src m) ∧
      ∀ (p : Nat) (rest : List Nat), m.supply = p :: rest → p ≠ 0 → p < 2 ^ 64 →
        p ∉ m.live →
        ∃ l2 s2 m2, LinkedList.ctorMove m src = Except.ok (l2, s2, m2) ∧
          l2.MovedFrom s2 m2 src m) ∧
      (∀ (src dst : LinkedList) (m : Mem T), src.WF m → dst.WF m →
        (∀ p ∈ dst.owned m, p ∉ src.owned m) →
        (dst.moveAssign m src = Except.error Fault.badAlloc ∨
          ∃ l2 s2 m2, dst.moveAssign m src = Except.ok (l2, s2, m2) ∧
            l2.MovedFrom s2 m2 src m) ∧
        ∀ (p : Nat) (rest : List Nat), m.supply = p :: rest → p ≠ 0 → p < 2 ^ 64 →
          p ∉ m.live.diff (dst.owned m) →
          ∃ l2 s2 m2, dst.moveAssign m src = Except.ok (l2, s2, m2) ∧
            l2.MovedFrom s2 m2 src m) ∧
      ∀ (m0 : Mem T) (ops : List (ListOp T)) (w : World T),
        (World.boot m0).run ops = Except.ok w →
        (∀ (s : Nat) (ls : LinkedList), w.lists[s]? = some ls →
          w.step (ListOp.ctorMove s) = Except.error Fault.badAlloc ∨
            ∃ l2 s2 m2, w.step (ListOp.ctorMove s) =
                Except.ok ⟨m2, w.lists.set s s2 ++ [l2]⟩ ∧
              l2.MovedFrom s2 m2 ls w.mem) ∧
        ∀ (d s : Nat) (l ls : LinkedList), d ≠ s → w.lists[d]? = some l →
          w.lists[s]? = some ls →
          w.step (ListOp.moveAssign d s) = Except.error Fault.badAlloc ∨
            ∃ l2 s2 m2, w.step (ListOp.moveAssign d s) =
                Except.ok ⟨m2, (w.lists.set d l2).set s s2⟩ ∧
              l2.MovedFrom s2 m2 ls w.mem := by
  refine ⟨?_, ?_, ?_⟩
  · intro src m hsrc
    exact ⟨ctorMove_result hsrc,
      fun p rest hs h0 h64 hl => ctorMove_complete hsrc hs h0 h64 hl⟩
  · intro src dst m hsrc hdst hd
    exact ⟨moveAssign_result hdst hsrc hd,
      fun p rest hs h0 h64 hl => moveAssign_complete hdst hsrc hd hs h0 h64 hl⟩
  · intro m0 ops w hrun
    have hgood := run_good ops (World.boot m0) (boot_inv m0)
    rw [hrun] at hgood
    have hinv : w.Inv := hgood
    exact ⟨fun s ls hs => step_ctorMove hinv hs,
      fun d s l ls hne hd hs => step_moveAssign hinv hne hd hs⟩

theorem move_validity_witness :
    balanceBefore.lists = [⟨5, 2⟩] ∧ LinkedList.WF ⟨5, 2⟩ balanceBefore.mem ∧
      LinkedList.toList ⟨5, 2⟩ balanceBefore.mem = [1, 2] ∧
      (∃ l2 s2 m2, LinkedList.ctorMove balanceBefore.mem ⟨5, 2⟩ = Except.ok (l2, s2, m2) ∧
        l2.MovedFrom s2 m2 ⟨5, 2⟩ balanceBefore.mem) ∧
      sampleTwo.lists = [⟨5, 2⟩, ⟨11, 1⟩] ∧
      ∃ l2 s2 m2, LinkedList.moveAssign ⟨11, 1⟩ sampleTwo.mem ⟨5, 2⟩ =
          Except.ok (l2, s2, m2) ∧
        l2.MovedFrom s2 m2 ⟨5, 2⟩ sampleTwo.mem :=
  ⟨by decide, by decide, by decide,
    ((move_validity (T := Nat)).1 ⟨5, 2⟩ balanceBefore.mem (by decide)).2
      11 [13, 15, 17, 19] (by rfl) (by decide) (by decide) (by decide),
    by decide,
    ((move_validity (T := Nat)).2.1 ⟨5, 2⟩ ⟨11, 1⟩ sampleTwo.mem (by decide) (by decide)
      (by decide)).2 15 [17, 19, 21, 23] (by rfl) (by decide) (by decide) (by decide)⟩

end MoveValidity

section SlabGrowth

/-- With an empty freelist every carved block is outstanding; otherwise fewer are. -/
theorem inv_count (s : PoolClient) (h : s.Inv) :
    (s.pool.cur = none → s.outstanding.length = 32 * s.pool.forDelete.length ∧
        ∀ p, s.pool.Carved p → p ∈ s.outstanding) ∧
      ∀ c, s.pool.cur = some c → s.outstanding.length < 32 * s.pool.forDelete.length := by
  obtain ⟨l, hch, -, hmem, hlen⟩ := h
  have hB : BUBEN = 32 := rfl
  rw [hB] at hlen
  cases l with
  | nil =>
    have h1 : s.pool.cur = none := hch
    refine ⟨fun _ => ⟨by simpa using hlen, fun p hp => by simpa using (hmem p).2 hp⟩, ?_⟩
    intro c hc
    rw [h1] at hc
    cases hc
  | cons p l =>
    have h1 : s.pool.cur = some p := hch.1
    refine ⟨fun hn => ?_, fun c _ => ?_⟩
    · rw [h1] at hn
      cases hn
    · rw [← hlen]
      simp

/-- What one call does to the number of slabs and to the number of blocks held. -/
theorem step_sizes (s u : PoolClient) (op : PoolOp) (hst : s.step op = some u) :
    (op = PoolOp.allocate ∧ s.pool.cur = none ∧
        u.pool.forDelete.length = s.pool.forDelete.length + 1 ∧
        u.outstanding.length = s.outstanding.length + 1) ∨
      (op = PoolOp.allocate ∧ (∃ c, s.pool.cur = some c) ∧
        u.pool.forDelete.length = s.pool.forDelete.length ∧
        u.outstanding.length = s.outstanding.length + 1) ∨
      (op ≠ PoolOp.allocate ∧ u.pool.forDelete.length = s.pool.forDelete.length ∧
        u.outstanding.length ≤ s.outstanding.length) := by
  cases op with
  | allocate =>
    simp only [PoolClient.step, Option.some.injEq] at hst
    subst hst
    cases hcur : s.pool.cur with
    | none =>
      left
      refine ⟨rfl, rfl, ?_, rfl⟩
      simp [FixedAllocator.allocate, hcur, FixedAllocator.getNewBlock]
    | some c =>
      right
      left
      refine ⟨rfl, ⟨c, rfl⟩, ?_, rfl⟩
      simp [FixedAllocator.allocate, hcur]
  | deallocate p =>
    simp only [PoolClient.step] at hst
    split at hst
    · cases hst
      exact Or.inr (Or.inr ⟨fun h => PoolOp.noConfusion h, rfl, List.length_erase_le _ _⟩)
    · cases hst
  | store p v =>
    simp only [PoolClient.step] at hst
    split at hst
    · cases hst
      exact Or.inr (Or.inr ⟨fun h => PoolOp.noConfusion h, rfl, le_refl _⟩)
    · cases hst

/-- A slab is added only by `allocate()` called while every carved block is held. -/
theorem step_growth (s u : PoolClient) (op : PoolOp) (h : s.Inv) (hst : s.step op = some u)
    (hne : u.pool.forDelete.length ≠ s.pool.forDelete.length) :
    op = PoolOp.allocate ∧ s.pool.cur = none ∧ (∀ p, s.pool.Carved p → p ∈ s.outstanding) ∧
      u.pool.forDelete.length = s.pool.forDelete.length + 1 := by
  rcases step_sizes s u op hst with h1 | h1 | h1
  · exact ⟨h1.1, h1.2.1, ((inv_count s h).1 h1.2.1).2, h1.2.2.1⟩
  · exact absurd h1.2.2.1 hne
  · exact absurd h1.2.1 hne

/-- One call keeps the number of slabs equal to the peak so far divided by 32, rounded
up. -/
theorem step_count (s u : PoolClient) (op : PoolOp) (P0 : Nat) (h : s.Inv)
    (hle : s.outstanding.length ≤ P0) (hk : s.pool.forDelete.length = (P0 + 31) / 32)
    (hst : s.step op = some u) :
    u.pool.forDelete.length = (max P0 u.outstanding.length + 31) / 32 := by
  obtain ⟨c1, c2⟩ := inv_count s h
  rcases step_sizes s u op hst with h1 | h1 | h1
  · obtain ⟨-, hcur, hf, ho⟩ := h1
    have := (c1 hcur).1
    rw [hf, ho]
    omega
  · obtain ⟨-, ⟨c, hcur⟩, hf, ho⟩ := h1
    have := c2 c hcur
    rw [hf, ho]
    omega
  · obtain ⟨-, hf, ho⟩ := h1
    rw [hf, Nat.max_eq_left (le_trans ho hle)]
    exact hk

theorem le_peak (s : PoolClient) (ops : List PoolOp) : s.outstanding.length ≤ s.peak ops := by
  cases ops with
  | nil => exact le_refl _
  | cons op ops =>
    unfold PoolClient.peak
    cases s.step op with
    | none => exact le_refl _
    | some t => exact le_max_left _ _

/-- The number of slabs after a run, from any state that has the number of slabs its peak
so far asks for. -/
theorem run_count : ∀ (ops : List PoolOp) (s t : PoolClient) (P0 : Nat), s.Inv →
    s.outstanding.length ≤ P0 → s.pool.forDelete.length = (P0 + 31) / 32 →
    s.run ops = some t → t.pool.forDelete.length = (max P0 (s.peak ops) + 31) / 32
  | [], s, t, P0, _, hle, hk, hr => by
    simp only [PoolClient.run, Option.some.injEq] at hr
    subst hr
    rw [PoolClient.peak, Nat.max_eq_left hle]
    exact hk
  | op :: ops, s, t, P0, h, hle, hk, hr => by
    simp only [PoolClient.run] at hr
    cases hst : s.step op with
    | none => rw [hst] at hr; cases hr
    | some u =>
      rw [hst] at hr
      have ih := run_count ops u t (max P0 u.outstanding.length) (inv_step s u op h hst)
        (le_max_right _ _) (step_count s u op P0 h hle hk hst) hr
      have hp : s.peak (op :: ops) = max s.outstanding.length (u.peak ops) := by
        rw [PoolClient.peak, hst]
      have hu := le_peak u ops
      rw [ih, hp]
      congr 2
      omega

/-- C17. Slab growth bound. After every legal sequence of calls on a fresh pool the
number of slabs registered in `forDelete`, one per growth event, is the peak number of
blocks held at once divided by 32 and rounded up. In the state reached, a call adds a
slab only if it is `allocate()` and the freelist is empty, that is, every carved block is
held; it then adds exactly one. Scenario B: with an 8-byte element type `allocate(1)`
goes to the 8-byte pool, and 40 calls of it on a fresh heap, `deallocate` of the 40
pointers in reverse order and 40 more calls leave that pool with 2 slabs, which is at
most 3. -/
theorem slab_growth_bound (ops : List PoolOp) (t : PoolClient)
    (hrun : PoolClient.fresh.run ops = some t) :
    t.pool.forDelete.length = (PoolClient.fresh.peak ops + 31) / 32 ∧
      (∀ (op : PoolOp) (u : PoolClient), t.step op = some u →
        u.pool.forDelete.length ≠ t.pool.forDelete.length →
        op = PoolOp.allocate ∧ t.pool.cur = none ∧
          (∀ p, t.pool.Carved p → p ∈ t.outstanding) ∧
          u.pool.forDelete.length = t.pool.forDelete.length + 1) ∧
      FastAllocator.allocateRoute ⟨8⟩ 1 = Route.pool 8 ∧
      (FastAllocator.scenarioB ⟨8⟩ 40 Heap.fresh).map
          (fun h => (h.pool 8).forDelete.length) = some 2 ∧
      (FastAllocator.scenarioB ⟨8⟩ 40 Heap.fresh).map
          (fun h => decide ((h.pool 8).forDelete.length ≤ 3)) = some true := by
  refine ⟨?_, ?_, by decide, by decide, by decide⟩
  · have h := run_count ops PoolClient.fresh t 0 inv_fresh (Nat.zero_le _) rfl hrun
    rw [h, Nat.zero_max]
  · intro op u hst hne
    exact step_growth t u op (inv_run ops _ t inv_fresh hrun) hst hne

theorem slab_growth_bound_witness :
    PoolClient.fresh.run (List.replicate 33 PoolOp.allocate) =
        some ⟨(FixedAllocator.allocateN 33 FixedAllocator.fresh).2,
          (FixedAllocator.allocateN 33 FixedAllocator.fresh).1.reverse⟩ ∧
      PoolClient.fresh.peak (List.replicate 33 PoolOp.allocate) = 33 ∧
      (FixedAllocator.allocateN 33 FixedAllocator.fresh).2.forDelete.length = (33 + 31) / 32 :=
  ⟨by rfl, by decide,
    (slab_growth_bound (List.replicate 33 PoolOp.allocate)
      ⟨(FixedAllocator.allocateN 33 FixedAllocator.fresh).2,
        (FixedAllocator.allocateN 33 FixedAllocator.fresh).1.reverse⟩ (by rfl)).1⟩

end SlabGrowth


section AllocationBalance

/-- C20. Copy construction from a source of size 2. Before it 3 nodes are allocated, the
source and its sentinel. The copy constructor takes 4 addresses from the allocator, not
3: the delegated `List(alloc)` allocates a sentinel (address 11) and the body then runs
`genList(2)`, which allocates a new sentinel (13) and two nodes (15, 17) and overwrites
`root`. Afterwards 7 nodes are allocated while the two lists, of size 2 each, own 3 + 3;
address 11 is allocated and belongs to neither. Default construction followed by copy
assignment, which calls `destroy()` before `genList(2)`, leaves 6 nodes allocated. -/
theorem copy_constructor_allocation_balance :
    balanceBefore.lists = [⟨5, 2⟩] ∧ balanceBefore.mem.live = [9, 7, 5] ∧
      balanceBefore.mem.supply = [11, 13, 15, 17, 19] ∧
      balanceCopied.lists = [⟨5, 2⟩, ⟨13, 2⟩] ∧ balanceCopied.mem.supply = [19] ∧
      balanceCopied.mem.live = [17, 15, 13, 11, 9, 7, 5] ∧
      LinkedList.owned ⟨5, 2⟩ balanceCopied.mem = [5, 7, 9] ∧
      LinkedList.owned ⟨13, 2⟩ balanceCopied.mem = [13, 15, 17] ∧
      LinkedList.toList ⟨13, 2⟩ balanceCopied.mem = [1, 2] ∧
      balanceCopied.mem.live.length ≠ (2 + 1) + (2 + 1) ∧
      balanceAssigned.lists = [⟨5, 2⟩, ⟨13, 2⟩] ∧
      balanceAssigned.mem.live = [17, 15, 13, 9, 7, 5] ∧
      balanceAssigned.mem.live.length = (2 + 1) + (2 + 1) := by
  decide

end AllocationBalance
